import Mathlib

/-!
# HDR accumulator image: `hdr.hpp` / `hdr.cpp`

A shallow embedding of `struct HdrImage` and its operations, and theorems about them.

Conventions of the embedding

* `int` dimensions (`width`, `height`, `stride`) are natural numbers; 32-bit overflow of index
  arithmetic such as `width * height` is not modelled (image dimensions are far below it).
* `std::vector<int16_t> pixels` is a `List Int`; every store into it goes through `wrap16`, the
  `int → int16_t` conversion.  `P(offset)` is `List.getD _ 0`; an access outside the vector is
  undefined behaviour in C++ and the theorems state the bounds they rely on.
* A raw input frame (`void const *image_buffer`) is a memory `Nat → Nat`; reading a `uint8_t`
  at address `i` is `byteAt frame i`.
* `for (i = 0; i < n; i++) body` is `forLoop body n`, `for (i = n - 1; i >= 0; i--) body` is
  `forDown body n`.
* The worker threads of `Accumulate` and `LpFilter` write disjoint data and are joined before the
  function returns; they are run one after the other.
-/

namespace Hdr

/-! ## Machine arithmetic and loops -/

/-- Conversion of an `int` to `int16_t`: the representative of `v` modulo `2^16` in
`[-32768, 32767]`. -/
def wrap16 (v : Int) : Int := (v + 32768) % 65536 - 32768

/-- Reading the `uint8_t` at address `i` of a raw buffer. -/
def byteAt (buf : Nat → Nat) (i : Nat) : Int := ((buf i % 256 : Nat) : Int)

/-- The loop `for (i = 0; i < n; i++) body(i)`: the state after its `n` iterations. -/
def forLoop {σ : Type} (body : Nat → σ → σ) : Nat → σ → σ
  | 0, s => s
  | n + 1, s => body n (forLoop body n s)

/-- The loop `for (i = n - 1; i >= 0; i--) body(i)`: iteration `n - 1` runs first. -/
def forDown {σ : Type} (body : Nat → σ → σ) : Nat → σ → σ
  | 0, s => s
  | n + 1, s => forDown body n (body n s)

/-- The function `std::clamp(v, lo, hi)` (as implemented: `v < lo ? lo : hi < v ? hi : v`). -/
def clamp (v lo hi : Int) : Int := if v < lo then lo else if hi < v then hi else v

/-! ## The image -/

/-- The struct `HdrImage` of `hdr.hpp`. -/
structure HdrImage where
  width : Nat
  height : Nat
  pixels : List Int
  dynamic_range : Int
deriving DecidableEq

/-- The accessor `P(offset)`. -/
def HdrImage.P (img : HdrImage) (offset : Nat) : Int := img.pixels.getD offset 0

/-- The constructor `HdrImage(w, h, num_pixels)` followed by `Clear()`: `num_pixels` samples, all 0,
and `dynamic_range` 0. -/
def HdrImage.create (w h num_pixels : Nat) : HdrImage :=
  { width := w, height := h, pixels := List.replicate num_pixels 0, dynamic_range := 0 }

/-! ## Accumulate -/

/-- The function `add_Y_pixels(dest, src, width, stride, height)`.  `dest` and `src` are offsets
into `pixels` and into the frame.  In iteration `(y, x)` the pointer `dest` has been incremented
`y * width + x` times and `src` advanced by `y` rows of `stride` bytes:
`*(dest++) += src[x]`, the sum being converted back to `int16_t`. -/
def add_Y_pixels (frame : Nat → Nat) (dest src width stride height : Nat)
    (pixels : List Int) : List Int :=
  forLoop (fun y px =>
    forLoop (fun x px =>
      px.set (dest + y * width + x)
        (wrap16 (px.getD (dest + y * width + x) 0 + byteAt frame (src + y * stride + x))))
      width px)
    height pixels

/-- The "U and V components" loop of `Accumulate`, after `dest += width * height` and
`src += stride * height`: `height` rows of `width2` samples, `*(dest++) += src[x] - 128`,
`src += stride2` after each row. -/
def add_UV_pixels (frame : Nat → Nat) (dest src width2 stride2 height : Nat)
    (pixels : List Int) : List Int :=
  forLoop (fun y px =>
    forLoop (fun x px =>
      px.set (dest + y * width2 + x)
        (wrap16 (px.getD (dest + y * width2 + x) 0 + (byteAt frame (src + y * stride2 + x) - 128))))
      width2 px)
    height pixels

/-- The method `HdrImage::Accumulate(image_buffer, stride)`: the first luma worker, the second luma
worker, the chroma loop of the calling thread, and `dynamic_range += 256`. -/
def Accumulate (img : HdrImage) (image_buffer : Nat → Nat) (stride : Nat) : HdrImage :=
  let width := img.width
  let height := img.height
  let width2 := width / 2
  let height2 := height / 2
  let stride2 := stride / 2
  let px1 := add_Y_pixels image_buffer 0 0 width stride height2 img.pixels
  let px2 := add_Y_pixels image_buffer (width * height2) (stride * height2) width stride height2 px1
  let px3 := add_UV_pixels image_buffer (width * height) (stride * height) width2 stride2 height px2
  { img with pixels := px3, dynamic_range := img.dynamic_range + 256 }

/-- A sequence of `Accumulate` calls, one per `(frame, stride)` pair, in order. -/
def accumulate_all (img : HdrImage) (calls : List ((Nat → Nat) × Nat)) : HdrImage :=
  calls.foldl (fun im c => Accumulate im c.1 c.2) img

/-- The loop nest shared by `add_Y_pixels` (`bias = 0`) and `add_UV_pixels` (`bias = 128`), with the
conversion `conv` applied to each stored sum (`wrap16` in the program). -/
def add_plane (conv : Int → Int) (bias : Int) (frame : Nat → Nat)
    (dest src width stride height : Nat) (pixels : List Int) : List Int :=
  forLoop (fun y px =>
    forLoop (fun x px =>
      px.set (dest + y * width + x)
        (conv (px.getD (dest + y * width + x) 0 + (byteAt frame (src + y * stride + x) - bias))))
      width px)
    height pixels

/-- The accumulation computed in unbounded integers, without the `int16_t` conversion: the exact
sums against which overflow is measured. -/
def AccumulateExact (img : HdrImage) (image_buffer : Nat → Nat) (stride : Nat) : HdrImage :=
  let width := img.width
  let height := img.height
  let px1 := add_plane id 0 image_buffer 0 0 width stride (height / 2) img.pixels
  let px2 := add_plane id 0 image_buffer (width * (height / 2)) (stride * (height / 2))
    width stride (height / 2) px1
  let px3 := add_plane id 128 image_buffer (width * height) (stride * height)
    (width / 2) (stride / 2) height px2
  { img with pixels := px3, dynamic_range := img.dynamic_range + 256 }

/-- A sequence of exact accumulations. -/
def accumulate_all_exact (img : HdrImage) (calls : List ((Nat → Nat) × Nat)) : HdrImage :=
  calls.foldl (fun im c => AccumulateExact im c.1 c.2) img

/-- The three loop nests of `Accumulate` on the sample vector, for a store conversion `conv`. -/
def acc_pixels (conv : Int → Int) (img : HdrImage) (frame : Nat → Nat) (stride : Nat) : List Int :=
  add_plane conv 128 frame (img.width * img.height) (stride * img.height)
    (img.width / 2) (stride / 2) img.height
    (add_plane conv 0 frame (img.width * (img.height / 2)) (stride * (img.height / 2))
      img.width stride (img.height / 2)
      (add_plane conv 0 frame 0 0 img.width stride (img.height / 2) img.pixels))

/-- The range invariant of the accumulator after `k` frames. -/
def AccRange (k : Nat) (img : HdrImage) : Prop :=
  img.dynamic_range = 256 * (k : Int) ∧
  (∀ i, i < img.width * img.height → 0 ≤ img.P i ∧ img.P i ≤ 255 * (k : Int)) ∧
  (∀ i, img.width * img.height ≤ i → -128 * (k : Int) ≤ img.P i ∧ img.P i ≤ 127 * (k : Int))

/-! ## Floating-point values

`double` and `float` values are elements of a linearly ordered field `K` with a floor function
(`ℚ` for evaluation).  `Tonemap`, `Scale`, the factor of the merge step and the filter
`LpFilter_fl` round the result of every floating-point operation to the nearest `double`
(`fl64`) or `float` (`fl32`), ties to even, as IEEE 754 arithmetic does, every operation on its
own (a product and the sum that follows it are two operations); the exponent range is not
bounded (no quantity of the program comes near the ends of the range of `float` or `double`).
`Extract` divides an `int16_t` by an integer-valued ratio and truncates, which rounding does not
change.  The definitions `filter_pixel`, `combine` and `LpFilter` compute the weighted means of
the filter exactly: they serve for the facts that rounding leaves untouched (which entries are
read and written, zero entries, signs, bounds), and `filter_pixel_fl`, `combine_fl` and
`LpFilter_fl` for the values.  In `Extract` and in the combine step of the filter, a conversion
that is undefined in C++ (a NaN from `0.0 / 0.0`, or a value out of the range of the target
type) yields `none`.  Elsewhere a division by zero has the value 0 of the field `K`; the
theorems that depend on such a quotient assume a non-zero divisor. -/

/-- Conversion of a floating-point value to an integer type: truncation toward zero. -/
def trunc {K : Type} [LinearOrderedField K] [FloorRing K] (q : K) : Int :=
  if 0 ≤ q then ⌊q⌋ else ⌈q⌉

/-- Conversion of a `double` to `int16_t`, defined when the truncated value is representable. -/
def to_int16 {K : Type} [LinearOrderedField K] [FloorRing K] (q : K) : Option Int :=
  if -32768 ≤ trunc q ∧ trunc q ≤ 32767 then some (trunc q) else none

/-- Conversion of a truncated `double` to `uint8_t`, defined when it is representable. -/
def to_uint8 (t : Int) : Option Nat :=
  if 0 ≤ t ∧ t ≤ 255 then some t.toNat else none

/-! ## Rounding -/

/-- The power `2^z` for an integer `z`. -/
def pow2 {K : Type} [LinearOrderedField K] (z : Int) : K :=
  if 0 ≤ z then ((2 ^ z.toNat : Nat) : K) else 1 / ((2 ^ (-z).toNat : Nat) : K)

/-- The number of halvings that bring `n` below 2, at most `fuel` of them. -/
def log2_from : Nat → Nat → Nat
  | 0, _ => 0
  | fuel + 1, n => if n < 2 then 0 else log2_from fuel (n / 2) + 1

/-- The integer part of the binary logarithm of `n` (0 for `n = 0`). -/
def floor_log2 (n : Nat) : Nat := log2_from n n

/-- The binary exponent of a value `x > 0`: the integer `e` with `2^e ≤ x < 2^(e+1)`. -/
def binade {K : Type} [LinearOrderedField K] [FloorRing K] (x : K) : Int :=
  if 1 ≤ x then (floor_log2 ⌊x⌋₊ : Int) else -((floor_log2 (⌈x⁻¹⌉₊ - 1) : Int) + 1)

/-- Rounding to the nearest integer, a tie going to the even one. -/
def round_even {K : Type} [LinearOrderedField K] [FloorRing K] (t : K) : Int :=
  if t - (⌊t⌋ : K) < 1 / 2 then ⌊t⌋
  else if 1 / 2 < t - (⌊t⌋ : K) then ⌊t⌋ + 1
  else if ⌊t⌋ % 2 = 0 then ⌊t⌋ else ⌊t⌋ + 1

/-- Rounding to the nearest binary floating-point number with a significand of `p` bits, ties
to even: `x` is rounded to a multiple of `2^(e - p + 1)`, where `2^e ≤ |x| < 2^(e+1)`. -/
def fl_round {K : Type} [LinearOrderedField K] [FloorRing K] (p : Nat) (x : K) : K :=
  if x = 0 then 0
  else (round_even (x / pow2 (binade |x| - (p : Int) + 1)) : K)
    * pow2 (binade |x| - (p : Int) + 1)

/-- The result of an operation in `double`: 53 bits. -/
def fl64 {K : Type} [LinearOrderedField K] [FloorRing K] (x : K) : K := fl_round 53 x

/-- The result of an operation in `float`: 24 bits. -/
def fl32 {K : Type} [LinearOrderedField K] [FloorRing K] (x : K) : K := fl_round 24 x

/-! ## Tonemap -/

/-- The three lookup tables that `Tonemap` builds from its `TonemapConfig` with
`Pwl::GenerateLut` (`pwl.hpp` is not part of the sources): they are taken as given, indexed by
the low-pass sample. -/
structure TonemapLuts (K : Type) where
  tonemap_lut : Int → Int
  pos_strength_lut : Int → K
  neg_strength_lut : Int → K

/-- The variables of the loops of `Tonemap`: the sample vector and the chroma offsets. -/
structure TonemapState where
  pixels : List Int
  off_U : Nat
  off_V : Nat

/-- The value `Y_final` computed for one luma sample `p` with low-pass value `Y_lp_orig`:
`std::clamp(Y_lp_mapped + (int)(strength * Y_hp), 0, maxval)`, the product being a `double`. -/
def tonemap_Y_final {K : Type} [LinearOrderedField K] [FloorRing K]
    (luts : TonemapLuts K) (maxval : Int) (Y_lp_orig p : Int) : Int :=
  let Y_hp := p - Y_lp_orig
  let Y_lp_mapped := luts.tonemap_lut Y_lp_orig
  let strength : K :=
    if Y_hp > 0 then luts.pos_strength_lut Y_lp_orig else luts.neg_strength_lut Y_lp_orig
  clamp (Y_lp_mapped + trunc (fl64 (strength * (Y_hp : K)))) 0 maxval

/-- The body of the inner loop of `Tonemap` at column `x` of row `y`, with `off_Y = y * width + x`.
`Y_final` is stored as an `int16_t`.  The factor `f = (Y_final + 1) / (float)(Y_lp_orig + 1)` and
the products `U * f`, `V * f` are computed in `float` (the `int` operands are converted to
`float` first), truncated and stored as `int16_t` (reduced modulo `2^16`; a product outside the
`int16_t` range is undefined in C++). -/
def Tonemap_pixel {K : Type} [LinearOrderedField K] [FloorRing K]
    (lp : HdrImage) (luts : TonemapLuts K) (maxval : Int) (x y off_Y : Nat)
    (st : TonemapState) : TonemapState :=
  let Y_lp_orig := lp.P off_Y
  let Y_final := tonemap_Y_final luts maxval Y_lp_orig (st.pixels.getD off_Y 0)
  let px1 := st.pixels.set off_Y (wrap16 Y_final)
  if x % 2 = 0 ∧ y % 2 = 0 then
    let f : K := fl32 (fl32 ((Y_final + 1 : Int) : K) / fl32 ((Y_lp_orig + 1 : Int) : K))
    let U := px1.getD st.off_U 0
    let V := px1.getD st.off_V 0
    let px2 := px1.set st.off_U (wrap16 (trunc (fl32 (fl32 (U : K) * f))))
    let px3 := px2.set st.off_V (wrap16 (trunc (fl32 (fl32 (V : K) * f))))
    { pixels := px3, off_U := st.off_U + 1, off_V := st.off_V + 1 }
  else
    { st with pixels := px1 }

/-- The method `HdrImage::Tonemap(lp, config)`, the lookup tables of `config` being given. -/
def Tonemap {K : Type} [LinearOrderedField K] [FloorRing K]
    (img lp : HdrImage) (luts : TonemapLuts K) : HdrImage :=
  let maxval := img.dynamic_range - 1
  let px := forLoop (fun y px =>
      let off_U := y * img.width / 4 + img.width * img.height
      let off_V := off_U + img.width * img.height / 4
      (forLoop (fun x st => Tonemap_pixel lp luts maxval x y (y * img.width + x) st)
        img.width { pixels := px, off_U := off_U, off_V := off_V }).pixels)
    img.height img.pixels
  { img with pixels := px }

/-! ## Extract -/

/-- The variables of the loops of `Extract`: the output vector, the chroma read pointers (offsets
into `pixels`) and the chroma write pointers (offsets into `dest`). -/
structure ExtractState where
  dest : List (Option Nat)
  U_ptr : Nat
  V_ptr : Nat
  dest_u : Nat
  dest_v : Nat

/-- The `double ratio = dynamic_range / 256;` of `Extract`: the division is an `int` division. -/
def extract_ratio (dynamic_range : Int) : ℚ := ((Int.tdiv dynamic_range 256 : Int) : ℚ)

/-- The quotient `sample / ratio` converted to an integer; undefined when `ratio` is 0. -/
def div_ratio (sample : Int) (ratio : ℚ) : Option Int :=
  if ratio = 0 then none else some (trunc ((sample : ℚ) / ratio))

/-- The byte stored for a luma sample: `dest_y[x] = *(Y_ptr++) / ratio`. -/
def extract_luma (sample : Int) (ratio : ℚ) : Option Nat :=
  (div_ratio sample ratio).bind to_uint8

/-- The byte stored for a chroma sample: `std::clamp(U + 128, 0, 255)` with
`int U = *(U_ptr++) / ratio`. -/
def extract_chroma (sample : Int) (ratio : ℚ) : Option Nat :=
  (div_ratio sample ratio).map (fun U => (clamp (U + 128) 0 255).toNat)

/-- The body of the inner loop of `Extract` at column `x` of row `y`; `dest_y` is `y * stride`
and `Y_ptr` is `y * width + x`. -/
def Extract_pixel (img : HdrImage) (ratio : ℚ) (stride x y : Nat)
    (st : ExtractState) : ExtractState :=
  let d1 := st.dest.set (y * stride + x) (extract_luma (img.P (y * img.width + x)) ratio)
  if x % 2 = 0 ∧ y % 2 = 0 then
    let U := extract_chroma (img.P st.U_ptr) ratio
    let V := extract_chroma (img.P st.V_ptr) ratio
    let d2 := d1.set (st.dest_u + x / 2) U
    let d3 := d2.set (st.dest_v + x / 2) V
    { st with dest := d3, U_ptr := st.U_ptr + 1, V_ptr := st.V_ptr + 1 }
  else
    { st with dest := d1 }

/-- One row of `Extract`, with the pointer updates at its end. -/
def Extract_row (img : HdrImage) (ratio : ℚ) (stride y : Nat) (st : ExtractState) : ExtractState :=
  let st1 := forLoop (fun x st => Extract_pixel img ratio stride x y st) img.width st
  if y % 2 = 0 then
    { st1 with dest_u := st1.dest_u + stride / 2, dest_v := st1.dest_v + stride / 2 }
  else st1

/-- The state of `Extract` before its loops. -/
def Extract_init (img : HdrImage) (stride : Nat) : ExtractState :=
  { dest := List.replicate (stride * img.height * 3 / 2) (some 0),
    U_ptr := img.width * img.height,
    V_ptr := img.width * img.height + img.width * img.height / 4,
    dest_u := stride * img.height,
    dest_v := stride * img.height + stride * img.height / 4 }

/-- The method `HdrImage::Extract(stride)`: the output bytes, `none` where the stored value is
not defined. -/
def Extract (img : HdrImage) (stride : Nat) : List (Option Nat) :=
  (forLoop (fun y st => Extract_row img (extract_ratio img.dynamic_range) stride y st)
    img.height (Extract_init img stride)).dest

/-! ## LpFilter -/

/-- The type `LpFilterConfig`, with the threshold curve given by its lookup table
(`config.threshold.GenerateLut<double>()`), indexed by the raw sample. -/
structure LpFilterConfig (K : Type) where
  strength : K
  threshold : Int → K

/-- The buffers of one pass: `fwd_pixels` and `fwd_weight_sums`, or `rev_pixels` and
`rev_weight_sums`. -/
structure PassState (K : Type) where
  pixels : List K
  weight_sums : List K

/-- The weight of one neighbour: `idx = abs(P - pixel) * 10 / thresh` converted to `int`, and
`wt = idx >= weights.size() ? 0 : weights[idx]` with `weights.size() = 31`; the comparison is
unsigned, so a negative `idx` gives 0 too.  The table `weights[d] = exp(-d * d / 100.0)` is a
parameter. -/
def neighbour_weight {K : Type} [LinearOrderedField K] [FloorRing K]
    (weights : Nat → K) (P pixel thresh : K) : K :=
  let idx := trunc (|P - pixel| * 10 / thresh)
  if idx < 0 ∨ 31 ≤ idx then 0 else weights idx.toNat

/-- The loop over `deltas` at one pixel: the pair `(pixel_wt_sum, wt_sum)`. -/
def neighbour_sums {K : Type} [LinearOrderedField K] [FloorRing K]
    (weights : Nat → K) (thresh strength : K) (deltas : List Int) (pixel : Int) (off : Nat)
    (buf : List K) : K × K :=
  deltas.foldl (fun acc delta =>
      let P := buf.getD (Int.toNat ((off : Int) + delta)) 0
      let wt := neighbour_weight weights P (pixel : K) thresh
      (acc.1 + wt * P, acc.2 + wt))
    ((pixel : K) * strength, strength)

/-- The body of the pixel loop of a pass at offset `off`, where the input sample is `pixel`:
`pixels[off] = pixel_wt_sum / wt_sum` and `weight_sums[off] = wt_sum`, the sums and the quotient
in exact arithmetic (`filter_pixel_fl` rounds them).  The index `off + delta` of a neighbour is
never negative at a pixel that a pass visits. -/
def filter_pixel {K : Type} [LinearOrderedField K] [FloorRing K]
    (weights : Nat → K) (threshold : Int → K) (strength : K) (deltas : List Int)
    (pixel : Int) (off : Nat) (st : PassState K) : PassState K :=
  let sums := neighbour_sums weights (threshold pixel) strength deltas pixel off st.pixels
  { pixels := st.pixels.set off (sums.1 / sums.2),
    weight_sums := st.weight_sums.set off sums.2 }

/-- The zero-initialised buffers `std::vector<double>(width * height)` of a pass. -/
def PassState.init (K : Type) [LinearOrderedField K] (n : Nat) : PassState K :=
  { pixels := List.replicate n 0, weight_sums := List.replicate n 0 }

/-- The neighbour offsets of the forward pass: `{ -width - 1, -width, -width + 1, -1 }`. -/
def fwd_deltas (width : Nat) : List Int :=
  [-(width : Int) - 1, -(width : Int), -(width : Int) + 1, -1]

/-- The neighbour offsets of the reverse pass: `{ width + 1, width, width - 1, 1 }`. -/
def rev_deltas (width : Nat) : List Int :=
  [(width : Int) + 1, (width : Int), (width : Int) - 1, 1]

/-- The function `forward_pass`: `y` from `size` to `height - 1`, `x` from `size` to
`width - 1`, `off = y * width + x`. -/
def forward_pass {K : Type} [LinearOrderedField K] [FloorRing K]
    (fwd : PassState K) (img : HdrImage) (weights : Nat → K) (threshold : Int → K)
    (width height size : Nat) (strength : K) : PassState K :=
  forLoop (fun j st =>
    forLoop (fun i st =>
      let off := (size + j) * width + (size + i)
      filter_pixel weights threshold strength (fwd_deltas width) (img.P off) off st)
      (width - size) st)
    (height - size) fwd

/-- The reverse pass of `LpFilter`: `y` from `height - 1 - size` down to 0, `x` from
`width - 1 - size` down to 0, `off = y * width + x`. -/
def reverse_pass {K : Type} [LinearOrderedField K] [FloorRing K]
    (rev : PassState K) (img : HdrImage) (weights : Nat → K) (threshold : Int → K)
    (width height size : Nat) (strength : K) : PassState K :=
  forDown (fun y st =>
    forDown (fun x st =>
      let off := y * width + x
      filter_pixel weights threshold strength (rev_deltas width) (img.P off) off st)
      (width - size) st)
    (height - size) rev

/-- The denominator of the combine step at offset `off`. -/
def combine_denominator {K : Type} [LinearOrderedField K]
    (fwd rev : PassState K) (off : Nat) : K :=
  fwd.weight_sums.getD off 0 + rev.weight_sums.getD off 0

/-- The sample stored by the combine step at offset `off`, the weighted mean of the two passes
in exact arithmetic (`combine_fl` rounds it); undefined when the denominator is 0. -/
def combine {K : Type} [LinearOrderedField K] [FloorRing K]
    (fwd rev : PassState K) (off : Nat) : Option Int :=
  if combine_denominator fwd rev off = 0 then none
  else to_int16 ((fwd.pixels.getD off 0 * fwd.weight_sums.getD off 0
      + rev.pixels.getD off 0 * rev.weight_sums.getD off 0) / combine_denominator fwd rev off)

/-- The image returned by `LpFilter`: a sample is `none` where the combine step is undefined. -/
structure LpImage where
  width : Nat
  height : Nat
  pixels : List (Option Int)
  dynamic_range : Int

/-- The buffers `fwd_pixels`, `fwd_weight_sums` of `LpFilter` after the forward pass
(`size` is 1). -/
def LpFilter_fwd {K : Type} [LinearOrderedField K] [FloorRing K]
    (img : HdrImage) (weights : Nat → K) (config : LpFilterConfig K) : PassState K :=
  forward_pass (PassState.init K (img.width * img.height)) img weights
    config.threshold img.width img.height 1 config.strength

/-- The buffers `rev_pixels`, `rev_weight_sums` of `LpFilter` after the reverse pass
(`size` is 1). -/
def LpFilter_rev {K : Type} [LinearOrderedField K] [FloorRing K]
    (img : HdrImage) (weights : Nat → K) (config : LpFilterConfig K) : PassState K :=
  reverse_pass (PassState.init K (img.width * img.height)) img weights
    config.threshold img.width img.height 1 config.strength

/-- The method `HdrImage::LpFilter(config)`: the two passes, then the combine loop over all
pixels, in exact arithmetic (`LpFilter_fl` is the method in `double` arithmetic). -/
def LpFilter {K : Type} [LinearOrderedField K] [FloorRing K]
    (img : HdrImage) (weights : Nat → K) (config : LpFilterConfig K) : LpImage :=
  { width := img.width, height := img.height,
    pixels := forLoop (fun y px =>
        forLoop (fun x px =>
          px.set (y * img.width + x)
            (combine (LpFilter_fwd img weights config) (LpFilter_rev img weights config)
              (y * img.width + x)))
          img.width px)
      img.height (List.replicate (img.width * img.height) (some 0)),
    dynamic_range := img.dynamic_range }

/-- The accessor `P(offset)` of the image returned by `LpFilter`. -/
def LpImage.P (img : LpImage) (offset : Nat) : Option Int := img.pixels.getD offset (some 0)

/-- A rational stand-in for the table `weights[d] = exp(-d * d / 100.0)`, used to evaluate the
filter on examples: positive, decreasing, and exact at `d = 0` (the examples below read entry 0
only). -/
def weights_approx (d : Nat) : ℚ := 1 / (1 + (d : ℚ) ^ 2 / 100 + (d : ℚ) ^ 4 / 20000)

/-! ## LpFilter in `double` arithmetic

The same loops as above with the result of every `double` operation rounded (`fl64`), each
operation on its own, in the order in which the source writes them.  The definitions above
compute the same quantities in exact arithmetic. -/

/-- The table `weights[d] = exp(-d * d / 100.0)` of `LpFilter` for `0 ≤ d ≤ 30`: entry `d` is the
`double` nearest to `e^(-d²/100)` (`exp` is a function of the C library). -/
def weights_double (d : Nat) : ℚ :=
  ([1,
    4458788062350975 / 4503599627370496,
    8654021920295821 / 9007199254740992,
    4115980145429779 / 4503599627370496,
    479714306306789 / 562949953421312,
    7014813832872459 / 9007199254740992,
    392756855264839 / 562949953421312,
    2759024000566267 / 4503599627370496,
    2374713964435559 / 4503599627370496,
    2003462621274397 / 4503599627370496,
    828390857088487 / 2251799813685248,
    2685922313046673 / 9007199254740992,
    8536222125716243 / 36028797018963968,
    3324008237989631 / 18014398509481984,
    2537479727888059 / 18014398509481984,
    7594814535391223 / 72057594037927936,
    2785196802035341 / 36028797018963968,
    4004688166523817 / 72057594037927936,
    5644112107973611 / 144115188075855872,
    7797163997886685 / 288230376151711744,
    1319780871589693 / 72057594037927936,
    3503491622222517 / 288230376151711744,
    1139526581771347 / 144115188075855872,
    5812753824469931 / 1152921504606846976,
    908246081315663 / 288230376151711744,
    8902648349256647 / 4611686018427387904,
    5346000973448935 / 4611686018427387904,
    3146682740877367 / 4611686018427387904,
    3630956021353495 / 9223372036854775808,
    8213591987498641 / 36893488147419103232,
    2276509072173613 / 18446744073709551616] : List ℚ).getD d 0

/-- The weight of one neighbour in `double` arithmetic: `idx = abs(P - pixel) * 10 / thresh`,
the difference, the product and the quotient each rounded, converted to `int`, and
`wt = idx >= weights.size() ? 0 : weights[idx]` with `weights.size() = 31` (an unsigned
comparison, so a negative `idx` gives 0 too). -/
def neighbour_weight_fl {K : Type} [LinearOrderedField K] [FloorRing K]
    (weights : Nat → K) (P pixel thresh : K) : K :=
  let idx := trunc (fl64 (fl64 (|fl64 (P - pixel)| * 10) / thresh))
  if idx < 0 ∨ 31 ≤ idx then 0 else weights idx.toNat

/-- The loop over `deltas` at one pixel in `double` arithmetic: the pair
`(pixel_wt_sum, wt_sum)`, from `pixel_wt_sum = pixel * strength`, `wt_sum = strength` by
`pixel_wt_sum += wt * P` and `wt_sum += wt` for each neighbour. -/
def neighbour_sums_fl {K : Type} [LinearOrderedField K] [FloorRing K]
    (weights : Nat → K) (thresh strength : K) (deltas : List Int) (pixel : Int) (off : Nat)
    (buf : List K) : K × K :=
  deltas.foldl (fun acc delta =>
      let P := buf.getD (Int.toNat ((off : Int) + delta)) 0
      let wt := neighbour_weight_fl weights P (pixel : K) thresh
      (fl64 (acc.1 + fl64 (wt * P)), fl64 (acc.2 + wt)))
    (fl64 ((pixel : K) * strength), strength)

/-- The body of the pixel loop of a pass in `double` arithmetic:
`pixels[off] = pixel_wt_sum / wt_sum` (rounded) and `weight_sums[off] = wt_sum`. -/
def filter_pixel_fl {K : Type} [LinearOrderedField K] [FloorRing K]
    (weights : Nat → K) (threshold : Int → K) (strength : K) (deltas : List Int)
    (pixel : Int) (off : Nat) (st : PassState K) : PassState K :=
  let sums := neighbour_sums_fl weights (threshold pixel) strength deltas pixel off st.pixels
  { pixels := st.pixels.set off (fl64 (sums.1 / sums.2)),
    weight_sums := st.weight_sums.set off sums.2 }

/-- The function `forward_pass` in `double` arithmetic: `y` from `size` to `height - 1`, `x` from
`size` to `width - 1`, `off = y * width + x`. -/
def forward_pass_fl {K : Type} [LinearOrderedField K] [FloorRing K]
    (fwd : PassState K) (img : HdrImage) (weights : Nat → K) (threshold : Int → K)
    (width height size : Nat) (strength : K) : PassState K :=
  forLoop (fun j st =>
    forLoop (fun i st =>
      let off := (size + j) * width + (size + i)
      filter_pixel_fl weights threshold strength (fwd_deltas width) (img.P off) off st)
      (width - size) st)
    (height - size) fwd

/-- The reverse pass of `LpFilter` in `double` arithmetic: `y` from `height - 1 - size` down to
0, `x` from `width - 1 - size` down to 0, `off = y * width + x`. -/
def reverse_pass_fl {K : Type} [LinearOrderedField K] [FloorRing K]
    (rev : PassState K) (img : HdrImage) (weights : Nat → K) (threshold : Int → K)
    (width height size : Nat) (strength : K) : PassState K :=
  forDown (fun y st =>
    forDown (fun x st =>
      let off := y * width + x
      filter_pixel_fl weights threshold strength (rev_deltas width) (img.P off) off st)
      (width - size) st)
    (height - size) rev

/-- The denominator `fwd_weight_sums[off] + rev_weight_sums[off]` of the combine step, rounded. -/
def combine_denominator_fl {K : Type} [LinearOrderedField K] [FloorRing K]
    (fwd rev : PassState K) (off : Nat) : K :=
  fl64 (fwd.weight_sums.getD off 0 + rev.weight_sums.getD off 0)

/-- The sample stored by the combine step at offset `off` in `double` arithmetic: the two
products, their sum and the quotient each rounded, the quotient converted to `int16_t`;
undefined when the denominator is 0. -/
def combine_fl {K : Type} [LinearOrderedField K] [FloorRing K]
    (fwd rev : PassState K) (off : Nat) : Option Int :=
  if combine_denominator_fl fwd rev off = 0 then none
  else to_int16 (fl64 (fl64 (fl64 (fwd.pixels.getD off 0 * fwd.weight_sums.getD off 0)
      + fl64 (rev.pixels.getD off 0 * rev.weight_sums.getD off 0))
        / combine_denominator_fl fwd rev off))

/-- The buffers `fwd_pixels`, `fwd_weight_sums` of `LpFilter` after the forward pass in `double`
arithmetic (`size` is 1). -/
def LpFilter_fwd_fl {K : Type} [LinearOrderedField K] [FloorRing K]
    (img : HdrImage) (weights : Nat → K) (config : LpFilterConfig K) : PassState K :=
  forward_pass_fl (PassState.init K (img.width * img.height)) img weights
    config.threshold img.width img.height 1 config.strength

/-- The buffers `rev_pixels`, `rev_weight_sums` of `LpFilter` after the reverse pass in `double`
arithmetic (`size` is 1). -/
def LpFilter_rev_fl {K : Type} [LinearOrderedField K] [FloorRing K]
    (img : HdrImage) (weights : Nat → K) (config : LpFilterConfig K) : PassState K :=
  reverse_pass_fl (PassState.init K (img.width * img.height)) img weights
    config.threshold img.width img.height 1 config.strength

/-- The method `HdrImage::LpFilter(config)` in `double` arithmetic: the two passes, then the
combine loop over all pixels. -/
def LpFilter_fl {K : Type} [LinearOrderedField K] [FloorRing K]
    (img : HdrImage) (weights : Nat → K) (config : LpFilterConfig K) : LpImage :=
  { width := img.width, height := img.height,
    pixels := forLoop (fun y px =>
        forLoop (fun x px =>
          px.set (y * img.width + x)
            (combine_fl (LpFilter_fwd_fl img weights config) (LpFilter_rev_fl img weights config)
              (y * img.width + x)))
          img.width px)
      img.height (List.replicate (img.width * img.height) (some 0)),
    dynamic_range := img.dynamic_range }

/-- The closed forms of the pointers of `Extract` before iteration `n` of the pixel loop of row
`y`: `(y + 1) / 2` even rows and, in an even row, `(n + 1) / 2` even columns have been passed. -/
def ExtractPtrs (img : HdrImage) (stride y n : Nat) (st : ExtractState) : Prop :=
  st.dest.length = stride * img.height * 3 / 2 ∧
  st.dest_u = stride * img.height + (y + 1) / 2 * (stride / 2) ∧
  st.dest_v = stride * img.height + stride * img.height / 4 + (y + 1) / 2 * (stride / 2) ∧
  st.U_ptr = img.width * img.height + (y + 1) / 2 * ((img.width + 1) / 2)
    + (if y % 2 = 0 then (n + 1) / 2 else 0) ∧
  st.V_ptr = img.width * img.height + img.width * img.height / 4
    + (y + 1) / 2 * ((img.width + 1) / 2) + (if y % 2 = 0 then (n + 1) / 2 else 0)

/-- The buffers of a pass keep their length `n`. -/
def PassLen {K : Type} (n : Nat) (st : PassState K) : Prop :=
  st.pixels.length = n ∧ st.weight_sums.length = n

/-- The effect of one loop nest of `Accumulate` on a sample `p`: nothing, or the addition of a
contribution `v` followed by the store conversion `conv`. -/
def apply_delta (conv : Int → Int) (c : Option Int) (p : Int) : Int :=
  match c with
  | none => p
  | some v => conv (p + v)

/-! ## CalculateHistogram -/

/-- The method `HdrImage::CalculateHistogram()`: the array `bins` whose address and size
`dynamic_range` are handed to the constructor of `Histogram` (`histogram.hpp` is not part of
the sources).  A luma sample outside `[0, dynamic_range)` indexes outside `bins`, which is
undefined in C++; here it changes no bin.  The `uint32_t` counters do not wrap for images of
less than `2^32` pixels. -/
def CalculateHistogram (img : HdrImage) : List Nat :=
  forLoop (fun i bins =>
      if 0 ≤ img.P i then bins.set (img.P i).toNat (bins.getD (img.P i).toNat 0 + 1) else bins)
    (img.width * img.height) (List.replicate img.dynamic_range.toNat 0)

/-! ## Tonemap: chroma -/

/-- The chroma sample stored by `Tonemap` for the old sample `c` of a block whose top-left pixel
has the low-pass value `L` and the final luma `F`: `c * f` with `f = (F + 1) / (float)(L + 1)`,
both in `float`, converted to `int16_t`. -/
def tonemap_chroma {K : Type} [LinearOrderedField K] [FloorRing K] (c F L : Int) : Int :=
  wrap16 (trunc (fl32 (fl32 (c : K)
    * fl32 (fl32 ((F + 1 : Int) : K) / fl32 ((L + 1 : Int) : K)))))

/-- The closed forms of the variables of the pixel loop of `Tonemap` before iteration `n` of row
`y`, for a sample vector of `len` entries. -/
def TonemapPtrs (img : HdrImage) (len y n : Nat) (st : TonemapState) : Prop :=
  st.pixels.length = len ∧
  st.off_U = y * img.width / 4 + img.width * img.height
    + (if y % 2 = 0 then (n + 1) / 2 else 0) ∧
  st.off_V = y * img.width / 4 + img.width * img.height + img.width * img.height / 4
    + (if y % 2 = 0 then (n + 1) / 2 else 0)

/-! ## Scale -/

/-- The method `HdrImage::Scale(factor)`: `pixels[i] *= factor` for every sample (the product is
computed in `double` and converted back to `int16_t`) and `dynamic_range *= factor` (computed in
`double`, converted back to `int`). -/
def Scale {K : Type} [LinearOrderedField K] [FloorRing K] (img : HdrImage) (factor : K) :
    HdrImage :=
  { img with
    pixels := forLoop (fun i px => px.set i (wrap16 (trunc (fl64 ((px.getD i 0 : K) * factor)))))
      img.pixels.length img.pixels,
    dynamic_range := trunc (fl64 ((img.dynamic_range : K) * factor)) }

/-! ## The driver (`libcamera_hdr.cpp`) -/

/-- The constant `PREVIEW_FRAMES`. -/
def PREVIEW_FRAMES : Nat := 60

/-- The operations of the classes `Pwl` (`pwl.hpp`) and `Histogram` (`histogram.hpp`) that the
driver calls; the two headers are not part of the sources, so the operations are parameters.
`P` is the type of curves.  `Quantile bins q` stands for `Histogram(bins, n).Quantile(q)`, and
the two `GenerateLut` fields give the lookup tables as functions of the index. -/
structure CurveOps (P K : Type) where
  empty : P
  Append : P → K → K → P
  Eval : P → K → K
  GenerateLut_int : P → Int → Int
  GenerateLut_double : P → Int → K
  Quantile : List Nat → K → K

/-- The struct `HdrImage::TonemapConfig`. -/
structure TonemapConfig (P : Type) where
  tonemap : P
  pos_strength : P
  neg_strength : P

/-- The struct `HdrConfig`; the threshold curve of `lp_filter` is given by its lookup table. -/
structure HdrConfig (P K : Type) where
  num_frames : Nat
  lp_filter : LpFilterConfig K
  fixed_q : K
  q50_curve : P
  q25_factor : K
  tonemap : TonemapConfig P
  exposure_adjust : P

/-- The function `create_tonemap(im, hdr_config)`. -/
def create_tonemap {P K : Type} [LinearOrderedField K] (ops : CurveOps P K)
    (im : HdrImage) (hdr_config : HdrConfig P K) : P :=
  let maxval := im.dynamic_range - 1
  let histogram := CalculateHistogram im
  let q_fixed := ops.Quantile histogram hdr_config.fixed_q
  let target_fixed := q_fixed
  let q50 := ops.Quantile histogram (1 / 2)
  let target50 := ops.Eval hdr_config.q50_curve q50
  let q25 := ops.Quantile histogram (1 / 4)
  let target25 := target50 * hdr_config.q25_factor
  let tonemap := ops.empty
  let tonemap := ops.Append tonemap 0 0
  let tonemap := ops.Append tonemap q_fixed target_fixed
  let tonemap := ops.Append tonemap q25 target25
  let tonemap := ops.Append tonemap q50 target50
  let tonemap := ops.Append tonemap (maxval : K) (maxval : K)
  tonemap

/-- The lookup tables that `Tonemap` makes from its configuration. -/
def TonemapConfig.luts {P K : Type} (ops : CurveOps P K) (config : TonemapConfig P) :
    TonemapLuts K :=
  { tonemap_lut := ops.GenerateLut_int config.tonemap,
    pos_strength_lut := ops.GenerateLut_double config.pos_strength,
    neg_strength_lut := ops.GenerateLut_double config.neg_strength }

/-- The image that `LpFilter` returns, as an `HdrImage`: a sample whose conversion C++ leaves
undefined (the quotient `0 / 0`) reads as the value `nan16` that the platform produces. -/
def LpImage.toHdrImage (lp : LpImage) (nan16 : Int) : HdrImage :=
  { width := lp.width, height := lp.height,
    pixels := lp.pixels.map (fun p => p.getD nan16),
    dynamic_range := lp.dynamic_range }

/-- The merge step of `event_loop`, from `acc.Scale` to `acc.Extract`: the accumulator is scaled
by the `double` quotient `16.0 / num_frames`, filtered, the tone curve is made from the low-pass
image and stored in the configuration, the accumulator is tonemapped and the output bytes
extracted. -/
def merge {P K : Type} [LinearOrderedField K] [FloorRing K] (ops : CurveOps P K)
    (weights : Nat → K) (nan16 : Int) (cfg : HdrConfig P K) (acc : HdrImage) (stride : Nat) :
    List (Option Nat) :=
  let acc := Scale acc (fl64 ((16 : K) / (cfg.num_frames : K)))
  let lp := (LpFilter_fl acc weights cfg.lp_filter).toHdrImage nan16
  let tonemap_config := { cfg.tonemap with tonemap := create_tonemap ops lp cfg }
  let acc := Tonemap acc lp (tonemap_config.luts ops)
  Extract acc stride

/-- A message returned by `app.Wait()`: a completed request (with the mapped buffer of its
frame), `Quit`, or a message of any other type. -/
inductive Msg where
  | RequestComplete (frame : Nat → Nat)
  | Quit
  | Other

/-- What an iteration of `event_loop` does with its frame, in order: `ShowPreview`, the
metering branch (which saves `short.jpg` and creates the accumulator), `acc.Accumulate` (with
the frame counter), the start of the merge ("HDR processing starting", with the accumulator at
that point) and the `jpeg_save` of the extracted output as `hdr.jpg`. -/
inductive Event where
  | ShowPreview (count : Nat)
  | Metering (count : Nat)
  | Accumulate (count : Nat)
  | Merge (acc : HdrImage)
  | SaveHdr (output : List (Option Nat))

/-- The variables of `event_loop`, with the events so far. -/
structure LoopState where
  count : Nat
  w : Nat
  h : Nat
  stride : Nat
  acc : HdrImage
  log : List Event

/-- How `event_loop` ends: `return`, the exception "unrecognised message!", or, when the
messages given are used up, blocked in `app.Wait()`. -/
inductive Outcome where
  | returned (log : List Event)
  | threw (log : List Event)
  | waiting (log : List Event)

/-- The events of an outcome. -/
def Outcome.log : Outcome → List Event
  | Outcome.returned l => l
  | Outcome.threw l => l
  | Outcome.waiting l => l

/-- The frame counters of the `Accumulate` calls of a log. -/
def accumulated (log : List Event) : List Nat :=
  log.filterMap (fun e => match e with
    | Event.Accumulate c => some c
    | _ => none)

/-- The outputs saved as `hdr.jpg` in a log. -/
def outputs (log : List Event) : List (List (Option Nat)) :=
  log.filterMap (fun e => match e with
    | Event.SaveHdr o => some o
    | _ => none)

/-- The state of `event_loop` before its first iteration. -/
def LoopState.init : LoopState :=
  { count := 0, w := 0, h := 0, stride := 0,
    acc := { width := 0, height := 0, pixels := [], dynamic_range := 0 }, log := [] }

/-- One iteration of the loop of `event_loop` for the message `msg`: the next state, or the
outcome when the function is left.  `still` is what `app.StillStream(&w, &h, &stride)` reports.
The counter is an `unsigned int`, as is `PREVIEW_FRAMES + num_frames`.  The camera controls, the
preview and `short.jpg` do not enter the accumulator and are left out. -/
def event_loop_body {P K : Type} [LinearOrderedField K] [FloorRing K] (ops : CurveOps P K)
    (weights : Nat → K) (nan16 : Int) (cfg : HdrConfig P K) (still : Nat × Nat × Nat)
    (msg : Msg) (st : LoopState) : LoopState ⊕ Outcome :=
  match msg with
  | Msg.Quit => Sum.inr (Outcome.returned st.log)
  | Msg.Other => Sum.inr (Outcome.threw st.log)
  | Msg.RequestComplete frame =>
    if st.count < PREVIEW_FRAMES then
      Sum.inl { st with count := (st.count + 1) % 2 ^ 32,
                        log := st.log ++ [Event.ShowPreview st.count] }
    else if st.count = PREVIEW_FRAMES then
      Sum.inl { count := (st.count + 1) % 2 ^ 32,
                w := still.1, h := still.2.1, stride := still.2.2,
                acc := HdrImage.create still.1 still.2.1 (still.1 * still.2.1 * 3 / 2),
                log := st.log ++ [Event.Metering st.count] }
    else
      let acc := Accumulate st.acc frame st.stride
      let log := st.log ++ [Event.Accumulate st.count]
      if st.count = (PREVIEW_FRAMES + cfg.num_frames) % 2 ^ 32 then
        Sum.inr (Outcome.returned
          (log ++ [Event.Merge acc, Event.SaveHdr (merge ops weights nan16 cfg acc st.stride)]))
      else
        Sum.inl { st with count := (st.count + 1) % 2 ^ 32, acc := acc,
                          log := log ++ [Event.ShowPreview st.count] }

/-- The loop of `event_loop` from the state `st`, for the messages that `app.Wait()` returns. -/
def event_loop_from {P K : Type} [LinearOrderedField K] [FloorRing K] (ops : CurveOps P K)
    (weights : Nat → K) (nan16 : Int) (cfg : HdrConfig P K) (still : Nat × Nat × Nat) :
    List Msg → LoopState → Outcome
  | [], st => Outcome.waiting st.log
  | msg :: rest, st =>
    match event_loop_body ops weights nan16 cfg still msg st with
    | Sum.inl st1 => event_loop_from ops weights nan16 cfg still rest st1
    | Sum.inr out => out

/-- The function `event_loop`. -/
def event_loop {P K : Type} [LinearOrderedField K] [FloorRing K] (ops : CurveOps P K)
    (weights : Nat → K) (nan16 : Int) (cfg : HdrConfig P K) (still : Nat × Nat × Nat)
    (msgs : List Msg) : Outcome :=
  event_loop_from ops weights nan16 cfg still msgs LoopState.init

/-! ## The curves and the histogram, from the spec -/

/-- Modelled from the spec: the class `Pwl` (`pwl.hpp` is not part of the sources), an ordered
sequence of control points `(x_i, y_i)`. -/
structure Pwl (K : Type) where
  points : List (K × K)

/-- Modelled from the spec: `Pwl::Append(x, y)` (`pwl.hpp` is not part of the sources) puts the
control point `(x, y)` at the end of the sequence; the spec has no check of the order in it
(coinciding quantiles give an ill-formed curve). -/
def Pwl.Append {K : Type} (p : Pwl K) (x y : K) : Pwl K := { points := p.points ++ [(x, y)] }

/-- Modelled from the spec: the interpolation of `Pwl::Eval` (`pwl.hpp` is not part of the
sources) over the points from the first one on: the first `y` below the first `x`, the last `y`
above the last `x`, linear between two points that bracket `x`. -/
def Pwl.interpolate {K : Type} [LinearOrderedField K] : List (K × K) → K → K
  | [], _ => 0
  | [p], _ => p.2
  | p :: q :: rest, x =>
    if x ≤ p.1 then p.2
    else if x ≤ q.1 then p.2 + (x - p.1) * (q.2 - p.2) / (q.1 - p.1)
    else Pwl.interpolate (q :: rest) x

/-- Modelled from the spec: `Pwl::Eval(x)` (`pwl.hpp` is not part of the sources) clamps `x` to
`[x_0, x_n]` and interpolates linearly between the bracketing points. -/
def Pwl.Eval {K : Type} [LinearOrderedField K] (p : Pwl K) (x : K) : K :=
  Pwl.interpolate p.points x

/-- Modelled from the spec: `Histogram::Quantile(q)` (`histogram.hpp` is not part of the
sources), scanning the bins from `idx` on with `cum` items below: the first bin where the
cumulative count reaches `target`, plus the fraction of that bin needed to reach it. -/
def Quantile_from {K : Type} [LinearOrderedField K] (target : K) : List Nat → Nat → Nat → K
  | [], idx, _ => (idx : K)
  | b :: rest, idx, cum =>
    if target ≤ ((cum + b : Nat) : K) then
      (idx : K) + (if b = 0 then 0 else (target - (cum : K)) / (b : K))
    else Quantile_from target rest (idx + 1) (cum + b)

/-- Modelled from the spec: `Histogram::Quantile(q)` (`histogram.hpp` is not part of the
sources), the value at which the cumulative count first reaches `q` times the total count, with
linear interpolation within the bin. -/
def Quantile {K : Type} [LinearOrderedField K] (bins : List Nat) (q : K) : K :=
  Quantile_from (q * (bins.sum : K)) bins 0 0

/-- Modelled from the spec: the operations of `Pwl` and `Histogram` (`pwl.hpp` and
`histogram.hpp` are not part of the sources) as the driver uses them; `GenerateLut` tabulates
`Eval` at the integers, converted to `int` for `GenerateLut<int>`. -/
def Pwl.ops (K : Type) [LinearOrderedField K] [FloorRing K] : CurveOps (Pwl K) K :=
  { empty := { points := [] },
    Append := Pwl.Append,
    Eval := Pwl.Eval,
    GenerateLut_int := fun p i => trunc (Pwl.Eval p (i : K)),
    GenerateLut_double := fun p i => Pwl.Eval p (i : K),
    Quantile := Quantile }

/-- The configuration `HDR_CONFIG` of `libcamera_hdr.cpp`, its decimal constants read as
rationals. -/
def HDR_CONFIG : HdrConfig (Pwl ℚ) ℚ :=
  { num_frames := 8,
    lp_filter :=
      { strength := 2 / 10,
        threshold := (Pwl.ops ℚ).GenerateLut_double
          { points := [(0, 10), (2048, 2048 * (1 / 10)), (4095, 2048 * (1 / 10))] } },
    fixed_q := 3 / 100,
    q50_curve := { points := [(0, 400), (30, 500), (100, 600), (200, 800), (300, 1000),
                              (2048, 2048), (4095, 3072)] },
    q25_factor := 667 / 1000,
    tonemap :=
      { tonemap := { points := [] },
        pos_strength := { points := [(0, 6), (1024, 2), (4095, 2)] },
        neg_strength := { points := [(0, 4), (1024, 3 / 2), (4095, 3 / 2)] } },
    exposure_adjust := { points := [(0, 2), (2, 3 / 2), (8, 1)] } }

/-- A frame sequence for examples: every byte of every frame is 128 (flat grey). -/
def flat_frames : Nat → Nat → Nat := fun _ _ => 128

/-! ## LpFilter: the entries read -/

/-- The index `off + delta` at which a pass reads its buffer for the neighbour offset `delta`
(the expression in `fwd_pixels[off + delta]` and `rev_pixels[off + delta]`). -/
def neighbour_index (off : Nat) (delta : Int) : Nat := Int.toNat ((off : Int) + delta)

/-- The index of pixel `(x, y)` in an image `width` pixels wide (`y * width + x`), for a column
`x` inside the image; there is no pixel in a column `x ≥ width`. -/
def pixel_index (width x y : Nat) : Option Nat :=
  if x < width then some (y * width + x) else none

/-! ## Lemmas on lists and loops -/

theorem getD_set_eq (l : List Int) (j i : Nat) (a : Int) :
    (l.set j a).getD i 0 = if j = i ∧ i < l.length then a else l.getD i 0 := by
  simp only [List.getD_eq_getElem?_getD, List.getElem?_set]
  by_cases hji : j = i
  · subst hji
    by_cases hlt : j < l.length
    · simp [hlt]
    · have : l[j]? = none := List.getElem?_eq_none (by omega)
      simp [hlt, this]
  · simp [hji]

theorem wrap16_of_range (v : Int) (h1 : -32768 ≤ v) (h2 : v ≤ 32767) : wrap16 v = v := by
  unfold wrap16; omega

theorem wrap16_range (v : Int) : -32768 ≤ wrap16 v ∧ wrap16 v ≤ 32767 := by
  unfold wrap16; omega

theorem byteAt_range (f : Nat → Nat) (i : Nat) : 0 ≤ byteAt f i ∧ byteAt f i ≤ 255 := by
  unfold byteAt; omega

theorem add_row_length (conv : Int → Int) (bias : Int) (frame : Nat → Nat) (d s : Nat)
    (n : Nat) (px : List Int) :
    (forLoop (fun x px => px.set (d + x)
          (conv (px.getD (d + x) 0 + (byteAt frame (s + x) - bias)))) n px).length = px.length := by
  induction n with
  | zero => rfl
  | succ m ihm => simp only [forLoop, List.length_set, ihm]

/-- One row of `add_plane`: the samples `d .. d + n - 1` receive their byte, the others are kept. -/
theorem add_row_getD (conv : Int → Int) (bias : Int) (frame : Nat → Nat) (d s : Nat) :
    ∀ (n : Nat) (px : List Int) (i : Nat),
      (forLoop (fun x px => px.set (d + x)
          (conv (px.getD (d + x) 0 + (byteAt frame (s + x) - bias)))) n px).getD i 0
        = if d ≤ i ∧ i < d + n ∧ i < px.length
            then conv (px.getD i 0 + (byteAt frame (s + (i - d)) - bias))
            else px.getD i 0
  | 0, px, i => by
    have : ¬ (d ≤ i ∧ i < d + 0 ∧ i < px.length) := by omega
    simp only [forLoop, if_neg this]
  | n + 1, px, i => by
    have ih := add_row_getD conv bias frame d s n px
    simp only [forLoop]
    rw [getD_set_eq, add_row_length, ih, ih]
    by_cases h1 : d + n = i
    · subst h1
      by_cases h2 : d + n < px.length
      · have e : d + n - d = n := by omega
        have a1 : ¬ (d ≤ d + n ∧ d + n < d + n ∧ d + n < px.length) := by omega
        have a2 : (d ≤ d + n ∧ d + n < d + (n + 1) ∧ d + n < px.length) := by omega
        have a3 : (d + n = d + n ∧ d + n < px.length) := ⟨rfl, h2⟩
        rw [if_pos a3, if_neg a1, if_pos a2, e]
      · have a1 : ¬ (d ≤ d + n ∧ d + n < d + n ∧ d + n < px.length) := by omega
        have a2 : ¬ (d ≤ d + n ∧ d + n < d + (n + 1) ∧ d + n < px.length) := by omega
        have a3 : ¬ (d + n = d + n ∧ d + n < px.length) := by omega
        rw [if_neg a3, if_neg a1, if_neg a2]
    · have a3 : ¬ (d + n = i ∧ i < px.length) := by omega
      rw [if_neg a3]
      by_cases h3 : d ≤ i ∧ i < d + n ∧ i < px.length
      · have : d ≤ i ∧ i < d + (n + 1) ∧ i < px.length := ⟨h3.1, by omega, h3.2.2⟩
        rw [if_pos h3, if_pos this]
      · have : ¬ (d ≤ i ∧ i < d + (n + 1) ∧ i < px.length) := by omega
        rw [if_neg h3, if_neg this]

theorem add_plane_length (conv : Int → Int) (bias : Int) (frame : Nat → Nat)
    (d s w stride : Nat) (h : Nat) (px : List Int) :
    (add_plane conv bias frame d s w stride h px).length = px.length := by
  induction h with
  | zero => rfl
  | succ m ihm =>
    have := add_row_length conv bias frame (d + m * w) (s + m * stride) w
      (add_plane conv bias frame d s w stride m px)
    simp only [add_plane, forLoop, Nat.add_assoc] at *
    rw [this, ihm]

/-- Samples outside `[d, d + h * w)` are not touched by `add_plane`. -/
theorem add_plane_getD_out (conv : Int → Int) (bias : Int) (frame : Nat → Nat)
    (d s w stride : Nat) (h : Nat) (px : List Int) (i : Nat) (hi : i < d ∨ d + h * w ≤ i) :
    (add_plane conv bias frame d s w stride h px).getD i 0 = px.getD i 0 := by
  induction h with
  | zero => rfl
  | succ m ihm =>
    have hrow := add_row_getD conv bias frame (d + m * w) (s + m * stride) w
      (add_plane conv bias frame d s w stride m px) i
    have hm : i < d ∨ d + m * w ≤ i := by
      rcases hi with hi | hi
      · exact Or.inl hi
      · right; have : (m + 1) * w = m * w + w := by ring
        omega
    have hno : ¬ ((d + m * w) ≤ i ∧ i < (d + m * w) + w ∧
        i < (add_plane conv bias frame d s w stride m px).length) := by
      have : (m + 1) * w = m * w + w := by ring
      omega
    rw [if_neg hno, ihm hm] at hrow
    simp only [add_plane, forLoop, Nat.add_assoc] at *
    exact hrow

/-- The sample at row `y`, column `x` of the plane receives the frame byte of the same row and
column. -/
theorem add_plane_getD_in (conv : Int → Int) (bias : Int) (frame : Nat → Nat)
    (d s w stride : Nat) (h : Nat) (px : List Int) (y x : Nat) (hy : y < h) (hx : x < w)
    (hlen : d + y * w + x < px.length) :
    (add_plane conv bias frame d s w stride h px).getD (d + y * w + x) 0
      = conv (px.getD (d + y * w + x) 0 + (byteAt frame (s + y * stride + x) - bias)) := by
  induction h with
  | zero => omega
  | succ m ihm =>
    have hrow := add_row_getD conv bias frame (d + m * w) (s + m * stride) w
      (add_plane conv bias frame d s w stride m px) (d + y * w + x)
    rw [add_plane_length] at hrow
    by_cases hym : y = m
    · subst hym
      have hyes : (d + y * w) ≤ d + y * w + x ∧ d + y * w + x < (d + y * w) + w ∧
          d + y * w + x < px.length := by omega
      have e : d + y * w + x - (d + y * w) = x := by omega
      rw [if_pos hyes, e, add_plane_getD_out conv bias frame d s w stride y px _ (by omega)] at hrow
      simp only [add_plane, forLoop, Nat.add_assoc] at *
      exact hrow
    · have hlt : y < m := by omega
      have hmul : (y + 1) * w ≤ m * w := Nat.mul_le_mul_right w hlt
      have e2 : (y + 1) * w = y * w + w := by ring
      have hno : ¬ ((d + m * w) ≤ d + y * w + x ∧ d + y * w + x < (d + m * w) + w ∧
          d + y * w + x < px.length) := by omega
      rw [if_neg hno, ihm hlt] at hrow
      simp only [add_plane, forLoop, Nat.add_assoc] at *
      exact hrow

theorem add_Y_pixels_eq (frame : Nat → Nat) (d s w stride h : Nat) (px : List Int) :
    add_Y_pixels frame d s w stride h px = add_plane wrap16 0 frame d s w stride h px := by
  simp only [add_Y_pixels, add_plane, sub_zero]

theorem add_UV_pixels_eq (frame : Nat → Nat) (d s w stride h : Nat) (px : List Int) :
    add_UV_pixels frame d s w stride h px = add_plane wrap16 128 frame d s w stride h px := rfl

/-- Every index of a plane is a row and a column of it. -/
theorem plane_index_decomp (d w h i : Nat) (h1 : d ≤ i) (h2 : i < d + h * w) :
    ∃ y x, y < h ∧ x < w ∧ i = d + y * w + x := by
  have hw : 0 < w := by
    rcases Nat.eq_zero_or_pos w with h0 | h0
    · subst h0; simp at h2; omega
    · exact h0
  refine ⟨(i - d) / w, (i - d) % w, ?_, Nat.mod_lt _ hw, ?_⟩
  · rw [Nat.div_lt_iff_lt_mul hw]; omega
  · have := Nat.div_add_mod (i - d) w
    have e : (i - d) / w * w = w * ((i - d) / w) := Nat.mul_comm _ _
    omega

theorem row_index_lt (y x w h : Nat) (hy : y < h) (hx : x < w) : y * w + x < h * w := by
  have hmul : (y + 1) * w ≤ h * w := Nat.mul_le_mul_right w hy
  have e2 : (y + 1) * w = y * w + w := by ring
  omega

/-- What `add_plane` does to an arbitrary index: nothing, or the addition of one converted byte. -/
theorem add_plane_getD_cases (conv : Int → Int) (bias : Int) (frame : Nat → Nat)
    (d s w stride : Nat) (h : Nat) (px : List Int) (i : Nat) :
    (add_plane conv bias frame d s w stride h px).getD i 0 = px.getD i 0 ∨
    ∃ y x, y < h ∧ x < w ∧ i = d + y * w + x ∧ i < px.length ∧
      (add_plane conv bias frame d s w stride h px).getD i 0
        = conv (px.getD i 0 + (byteAt frame (s + y * stride + x) - bias)) := by
  by_cases hlen : i < px.length
  · by_cases hin : d ≤ i ∧ i < d + h * w
    · obtain ⟨y, x, hy, hx, rfl⟩ := plane_index_decomp d w h i hin.1 hin.2
      exact Or.inr ⟨y, x, hy, hx, rfl, hlen,
        add_plane_getD_in conv bias frame d s w stride h px y x hy hx hlen⟩
    · exact Or.inl (add_plane_getD_out conv bias frame d s w stride h px i (by omega))
  · left
    rw [List.getD_eq_default _ _ (by rw [add_plane_length]; omega),
      List.getD_eq_default _ _ (by omega)]

theorem Accumulate_pixels (img : HdrImage) (frame : Nat → Nat) (stride : Nat) :
    (Accumulate img frame stride).pixels = acc_pixels wrap16 img frame stride := by
  simp only [Accumulate, acc_pixels, add_Y_pixels_eq, add_UV_pixels_eq]

theorem AccumulateExact_pixels (img : HdrImage) (frame : Nat → Nat) (stride : Nat) :
    (AccumulateExact img frame stride).pixels = acc_pixels id img frame stride := rfl

theorem acc_pixels_length (conv : Int → Int) (img : HdrImage) (frame : Nat → Nat) (stride : Nat) :
    (acc_pixels conv img frame stride).length = img.pixels.length := by
  simp only [acc_pixels, add_plane_length]

/-- Luma rows `y < 2 * (height / 2)`: the sample receives the frame byte at `y * stride + x`. -/
theorem acc_pixels_luma (conv : Int → Int) (img : HdrImage) (frame : Nat → Nat) (stride : Nat)
    (x y : Nat) (hx : x < img.width) (hy : y < 2 * (img.height / 2))
    (hlen : y * img.width + x < img.pixels.length) :
    (acc_pixels conv img frame stride).getD (y * img.width + x) 0
      = conv (img.pixels.getD (y * img.width + x) 0 + byteAt frame (y * stride + x)) := by
  have hh : 2 * (img.height / 2) ≤ img.height := by omega
  have hlt : y * img.width + x < img.height * img.width :=
    row_index_lt y x img.width img.height (by omega) hx
  unfold acc_pixels
  rw [add_plane_getD_out _ _ _ _ _ _ _ _ _ _ (Or.inl (by rw [Nat.mul_comm img.width]; exact hlt))]
  by_cases hy1 : y < img.height / 2
  · have hlt1 := row_index_lt y x img.width (img.height / 2) hy1 hx
    rw [add_plane_getD_out _ _ _ _ _ _ _ _ _ _ (Or.inl (by rw [Nat.mul_comm img.width]; exact hlt1))]
    have := add_plane_getD_in conv 0 frame 0 0 img.width stride (img.height / 2) img.pixels
      y x hy1 hx (by omega)
    simp only [Nat.zero_add, sub_zero] at this
    exact this
  · obtain ⟨k, hk⟩ : ∃ k, y = img.height / 2 + k := ⟨y - img.height / 2, by omega⟩
    have e1 : img.width * (img.height / 2) + k * img.width + x = y * img.width + x := by
      rw [hk]; ring
    have e2 : stride * (img.height / 2) + k * stride + x = y * stride + x := by
      rw [hk]; ring
    have := add_plane_getD_in conv 0 frame (img.width * (img.height / 2))
      (stride * (img.height / 2)) img.width stride (img.height / 2)
      (add_plane conv 0 frame 0 0 img.width stride (img.height / 2) img.pixels)
      k x (by omega) hx (by rw [add_plane_length, e1]; exact hlen)
    rw [e1, e2, sub_zero] at this
    rw [this, add_plane_getD_out _ _ _ _ _ _ _ _ _ _ (Or.inr (by
      have : img.height / 2 * img.width ≤ y * img.width := Nat.mul_le_mul_right _ (by omega)
      omega))]

/-- Chroma rows: sample `(x, y)` of the `height × width/2` chroma area receives its byte minus
128. -/
theorem acc_pixels_chroma (conv : Int → Int) (img : HdrImage) (frame : Nat → Nat) (stride : Nat)
    (x y : Nat) (hx : x < img.width / 2) (hy : y < img.height)
    (hlen : img.width * img.height + y * (img.width / 2) + x < img.pixels.length) :
    (acc_pixels conv img frame stride).getD (img.width * img.height + y * (img.width / 2) + x) 0
      = conv (img.pixels.getD (img.width * img.height + y * (img.width / 2) + x) 0
          + (byteAt frame (stride * img.height + y * (stride / 2) + x) - 128)) := by
  unfold acc_pixels
  rw [add_plane_getD_in conv 128 frame _ _ _ _ _ _ y x hy hx
    (by rw [add_plane_length, add_plane_length]; exact hlen)]
  have hh : 2 * (img.height / 2) ≤ img.height := by omega
  have e : img.width * (img.height / 2) + img.height / 2 * img.width
      = img.width * (2 * (img.height / 2)) := by ring
  have hle : img.width * (2 * (img.height / 2)) ≤ img.width * img.height :=
    Nat.mul_le_mul_left _ hh
  rw [add_plane_getD_out _ _ _ _ _ _ _ _ _ _ (Or.inr (by omega)),
    add_plane_getD_out _ _ _ _ _ _ _ _ _ _ (Or.inr (by
      have : img.height / 2 * img.width ≤ img.width * (2 * (img.height / 2)) := by
        rw [← e]; omega
      omega))]

/-- Samples that are neither in a luma row `y < 2 * (height / 2)` nor in the chroma area are
kept. -/
theorem acc_pixels_other (conv : Int → Int) (img : HdrImage) (frame : Nat → Nat) (stride : Nat)
    (i : Nat) (h1 : img.width * (2 * (img.height / 2)) ≤ i)
    (h2 : i < img.width * img.height ∨ img.width * img.height + img.height * (img.width / 2) ≤ i) :
    (acc_pixels conv img frame stride).getD i 0 = img.pixels.getD i 0 := by
  unfold acc_pixels
  have e : img.width * (img.height / 2) + img.height / 2 * img.width
      = img.width * (2 * (img.height / 2)) := by ring
  have e0 : img.height / 2 * img.width ≤ img.width * (2 * (img.height / 2)) := by
    rw [← e]; omega
  rw [add_plane_getD_out _ _ _ _ _ _ _ _ _ _ (by omega),
    add_plane_getD_out _ _ _ _ _ _ _ _ _ _ (Or.inr (by omega)),
    add_plane_getD_out _ _ _ _ _ _ _ _ _ _ (Or.inr (by omega))]

/-- What one accumulation does to an arbitrary sample, whatever the store conversion: nothing, or
the addition of a luma byte (below `width * height`) or of a de-biased chroma byte (from
`width * height` on). -/
theorem acc_pixels_cases (img : HdrImage) (frame : Nat → Nat) (stride : Nat) (i : Nat) :
    (∀ conv, (acc_pixels conv img frame stride).getD i 0 = img.pixels.getD i 0) ∨
    ∃ c : Int, (i < img.width * img.height → 0 ≤ c ∧ c ≤ 255) ∧
      (img.width * img.height ≤ i → -128 ≤ c ∧ c ≤ 127) ∧
      ∀ conv, (acc_pixels conv img frame stride).getD i 0 = conv (img.pixels.getD i 0 + c) := by
  by_cases hl : i < img.width * (2 * (img.height / 2))
  · -- a luma row that is added
    have hh : 2 * (img.height / 2) ≤ img.height := by omega
    have hle : img.width * (2 * (img.height / 2)) ≤ img.width * img.height :=
      Nat.mul_le_mul_left _ hh
    by_cases hlen : i < img.pixels.length
    · obtain ⟨y, x, hy, hx, hi⟩ := plane_index_decomp 0 img.width (2 * (img.height / 2)) i
        (Nat.zero_le _) (by rw [Nat.mul_comm]; omega)
      rw [Nat.zero_add] at hi
      subst hi
      refine Or.inr ⟨byteAt frame (y * stride + x), fun _ => byteAt_range _ _, fun h => ?_,
        fun conv => acc_pixels_luma conv img frame stride x y hx hy hlen⟩
      omega
    · left
      intro conv
      rw [List.getD_eq_default _ _ (by rw [acc_pixels_length]; omega),
        List.getD_eq_default _ _ (by omega)]
  · by_cases hc : img.width * img.height ≤ i ∧
        i < img.width * img.height + img.height * (img.width / 2)
    · by_cases hlen : i < img.pixels.length
      · obtain ⟨y, x, hy, hx, hi⟩ := plane_index_decomp (img.width * img.height)
          (img.width / 2) img.height i hc.1 hc.2
        subst hi
        refine Or.inr ⟨byteAt frame (stride * img.height + y * (stride / 2) + x) - 128,
          fun h => ?_, fun _ => ?_,
          fun conv => acc_pixels_chroma conv img frame stride x y hx hy hlen⟩
        · omega
        · have := byteAt_range frame (stride * img.height + y * (stride / 2) + x)
          omega
      · left
        intro conv
        rw [List.getD_eq_default _ _ (by rw [acc_pixels_length]; omega),
          List.getD_eq_default _ _ (by omega)]
    · exact Or.inl (fun conv => acc_pixels_other conv img frame stride i (by omega) (by omega))

theorem list_eq_of_getD (l1 l2 : List Int) (hl : l1.length = l2.length)
    (h : ∀ i, l1.getD i 0 = l2.getD i 0) : l1 = l2 := by
  apply List.ext_getElem hl
  intro n h1 h2
  have := h n
  rwa [List.getD_eq_getElem _ _ h1, List.getD_eq_getElem _ _ h2] at this

theorem Accumulate_width (img : HdrImage) (frame : Nat → Nat) (stride : Nat) :
    (Accumulate img frame stride).width = img.width ∧
    (Accumulate img frame stride).height = img.height ∧
    (Accumulate img frame stride).dynamic_range = img.dynamic_range + 256 :=
  ⟨rfl, rfl, rfl⟩

/-- One accumulation keeps the range invariant and does not overflow, up to 128 frames. -/
theorem AccRange_step (k : Nat) (hk : k < 128) (img : HdrImage) (frame : Nat → Nat) (stride : Nat)
    (hinv : AccRange k img) :
    AccRange (k + 1) (Accumulate img frame stride) ∧
    Accumulate img frame stride = AccumulateExact img frame stride := by
  obtain ⟨hdr, hY, hC⟩ := hinv
  have hpt : ∀ i, (acc_pixels wrap16 img frame stride).getD i 0
      = (acc_pixels id img frame stride).getD i 0 ∧
      (i < img.width * img.height → 0 ≤ (acc_pixels wrap16 img frame stride).getD i 0 ∧
        (acc_pixels wrap16 img frame stride).getD i 0 ≤ 255 * ((k + 1 : Nat) : Int)) ∧
      (img.width * img.height ≤ i →
        -128 * ((k + 1 : Nat) : Int) ≤ (acc_pixels wrap16 img frame stride).getD i 0 ∧
        (acc_pixels wrap16 img frame stride).getD i 0 ≤ 127 * ((k + 1 : Nat) : Int)) := by
    intro i
    have hYi := hY i
    have hCi := hC i
    simp only [HdrImage.P] at hYi hCi
    rcases acc_pixels_cases img frame stride i with h0 | ⟨c, hc1, hc2, hconv⟩
    · rw [h0 wrap16, h0 id]
      refine ⟨rfl, fun h => ?_, fun h => ?_⟩
      · have := hYi h; push_cast; omega
      · have := hCi h; push_cast; omega
    · rw [hconv wrap16, hconv id]
      by_cases hi : i < img.width * img.height
      · have h1 := hYi hi
        have h2 := hc1 hi
        have hw : wrap16 (img.pixels.getD i 0 + c) = img.pixels.getD i 0 + c :=
          wrap16_of_range _ (by omega) (by omega)
        rw [hw]
        refine ⟨rfl, fun _ => ?_, fun h => ?_⟩
        · push_cast; omega
        · omega
      · have h1 := hCi (by omega)
        have h2 := hc2 (by omega)
        have hw : wrap16 (img.pixels.getD i 0 + c) = img.pixels.getD i 0 + c :=
          wrap16_of_range _ (by omega) (by omega)
        rw [hw]
        refine ⟨rfl, fun h => ?_, fun _ => ?_⟩
        · omega
        · push_cast; omega
  have hpx : (Accumulate img frame stride).pixels = (AccumulateExact img frame stride).pixels := by
    rw [Accumulate_pixels, AccumulateExact_pixels]
    exact list_eq_of_getD _ _ (by rw [acc_pixels_length, acc_pixels_length])
      (fun i => (hpt i).1)
  refine ⟨⟨?_, ?_, ?_⟩, ?_⟩
  · show img.dynamic_range + 256 = 256 * ((k + 1 : Nat) : Int)
    rw [hdr]; push_cast; ring
  · intro i hi
    have := (hpt i).2.1 hi
    simpa only [HdrImage.P, Accumulate_pixels] using this
  · intro i hi
    have := (hpt i).2.2 hi
    simpa only [HdrImage.P, Accumulate_pixels] using this
  · have e1 : Accumulate img frame stride
        = { img with pixels := (Accumulate img frame stride).pixels,
                     dynamic_range := img.dynamic_range + 256 } := rfl
    have e2 : AccumulateExact img frame stride
        = { img with pixels := (AccumulateExact img frame stride).pixels,
                     dynamic_range := img.dynamic_range + 256 } := rfl
    rw [e1, e2, hpx]

theorem AccRange_all (calls : List ((Nat → Nat) × Nat)) :
    ∀ (k : Nat) (img : HdrImage), AccRange k img → k + calls.length ≤ 128 →
      AccRange (k + calls.length) (accumulate_all img calls) ∧
      accumulate_all img calls = accumulate_all_exact img calls := by
  induction calls with
  | nil => intro k img hinv _; exact ⟨hinv, rfl⟩
  | cons c cs ih =>
    intro k img hinv hk
    simp only [List.length_cons] at hk
    obtain ⟨h1, h2⟩ := AccRange_step k (by omega) img c.1 c.2 hinv
    obtain ⟨h3, h4⟩ := ih (k + 1) (Accumulate img c.1 c.2) h1 (by omega)
    have e : k + (c :: cs).length = k + 1 + cs.length := by simp only [List.length_cons]; omega
    rw [e]
    refine ⟨h3, ?_⟩
    show accumulate_all (Accumulate img c.1 c.2) cs = accumulate_all_exact (AccumulateExact img c.1 c.2) cs
    rw [h4, h2]

theorem AccRange_create (w h n : Nat) : AccRange 0 (HdrImage.create w h n) := by
  have hP : ∀ i, (HdrImage.create w h n).P i = 0 := by
    intro i
    simp only [HdrImage.P, HdrImage.create, List.getD_eq_getElem?_getD]
    by_cases hi : i < n
    · simp [hi]
    · simp [List.getElem?_eq_none, hi]
  refine ⟨by simp [HdrImage.create], fun i _ => ?_, fun i _ => ?_⟩
  · rw [hP]; simp
  · rw [hP]; simp

/-! ## Rounding: the grid -/

theorem pow2_eq_zpow {K : Type} [LinearOrderedField K] (z : Int) : (pow2 z : K) = (2 : K) ^ z := by
  unfold pow2
  by_cases h : 0 ≤ z
  · rw [if_pos h]
    push_cast
    rw [← zpow_natCast, Int.toNat_of_nonneg h]
  · rw [if_neg h]
    push_cast
    rw [← zpow_natCast, Int.toNat_of_nonneg (by omega), zpow_neg, one_div, inv_inv]

theorem pow2_pos {K : Type} [LinearOrderedField K] (z : Int) : (0 : K) < pow2 z := by
  rw [pow2_eq_zpow]; exact zpow_pos (by norm_num) z

theorem pow2_add {K : Type} [LinearOrderedField K] (a b : Int) :
    (pow2 (a + b) : K) = pow2 a * pow2 b := by
  rw [pow2_eq_zpow, pow2_eq_zpow, pow2_eq_zpow, zpow_add₀ (by norm_num)]

theorem pow2_le {K : Type} [LinearOrderedField K] (a b : Int) (h : a ≤ b) :
    (pow2 a : K) ≤ pow2 b := by
  rw [pow2_eq_zpow, pow2_eq_zpow]; exact zpow_le_zpow_right₀ (by norm_num) h

theorem pow2_natCast {K : Type} [LinearOrderedField K] (n : Nat) :
    (pow2 (n : Int) : K) = (((2 : Int) ^ n : Int) : K) := by
  rw [pow2_eq_zpow, zpow_natCast]; push_cast; rfl

/-- Halving computes the integer part of the binary logarithm. -/
theorem log2_from_eq (fuel : Nat) : ∀ n, n ≤ fuel → log2_from fuel n = Nat.log2 n := by
  induction fuel with
  | zero =>
    intro n hn
    have : n = 0 := by omega
    subst this
    rw [Nat.log2]
    rfl
  | succ fuel ih =>
    intro n hn
    rw [Nat.log2]
    unfold log2_from
    by_cases h : n < 2
    · rw [if_pos h, if_neg (by omega)]
    · rw [if_neg h, if_pos (by omega), ih (n / 2) (by omega)]

theorem floor_log2_eq (n : Nat) : floor_log2 n = Nat.log2 n :=
  log2_from_eq n n (le_refl n)

/-- The exponent of a positive value brackets it. -/
theorem binade_spec {K : Type} [LinearOrderedField K] [FloorRing K] (x : K) (hx : 0 < x) :
    (pow2 (binade x) : K) ≤ x ∧ x < pow2 (binade x + 1) := by
  rw [pow2_eq_zpow, pow2_eq_zpow]
  unfold binade
  simp only [floor_log2_eq]
  by_cases h1 : 1 ≤ x
  · rw [if_pos h1]
    have hn : ⌊x⌋₊ ≠ 0 := by
      have := (Nat.one_le_floor_iff x).mpr h1
      omega
    have a := Nat.log2_self_le hn
    have b := @Nat.lt_log2_self ⌊x⌋₊
    have c := Nat.floor_le (le_of_lt hx)
    have d := Nat.lt_floor_add_one x
    constructor
    · rw [zpow_natCast]
      calc (2 : K) ^ (⌊x⌋₊).log2 = ((2 ^ (⌊x⌋₊).log2 : Nat) : K) := by push_cast; rfl
        _ ≤ (⌊x⌋₊ : K) := by exact_mod_cast a
        _ ≤ x := c
    · have e : ((⌊x⌋₊.log2 : Nat) : Int) + 1 = ((⌊x⌋₊.log2 + 1 : Nat) : Int) := by push_cast; rfl
      rw [e, zpow_natCast]
      calc x < (⌊x⌋₊ : K) + 1 := d
        _ ≤ ((2 ^ (⌊x⌋₊.log2 + 1) : Nat) : K) := by exact_mod_cast b
        _ = (2 : K) ^ (⌊x⌋₊.log2 + 1) := by push_cast; rfl
  · rw [if_neg h1]
    have hx1 : x < 1 := lt_of_not_le h1
    have hy : 1 < x⁻¹ := (one_lt_inv₀ hx).mpr hx1
    have hc : 2 ≤ ⌈x⁻¹⌉₊ := by
      have := Nat.le_ceil x⁻¹
      have h2 : (1 : K) < (⌈x⁻¹⌉₊ : K) := lt_of_lt_of_le hy this
      have h3 : 1 < ⌈x⁻¹⌉₊ := by exact_mod_cast h2
      omega
    have hm : ⌈x⁻¹⌉₊ - 1 ≠ 0 := by omega
    have a := Nat.log2_self_le hm
    have b := @Nat.lt_log2_self (⌈x⁻¹⌉₊ - 1)
    have c := Nat.le_ceil x⁻¹
    have d := Nat.ceil_lt_add_one (le_of_lt (inv_pos.mpr hx))
    -- 2^k' ≤ ceil - 1 < 1/x ≤ ceil ≤ 2^(k'+1)
    have hlow : ((2 ^ (⌈x⁻¹⌉₊ - 1).log2 : Nat) : K) < x⁻¹ := by
      have h5 : ((2 ^ (⌈x⁻¹⌉₊ - 1).log2 : Nat) : K) ≤ ((⌈x⁻¹⌉₊ - 1 : Nat) : K) := by
        exact_mod_cast a
      have h6 : ((⌈x⁻¹⌉₊ - 1 : Nat) : K) = (⌈x⁻¹⌉₊ : K) - 1 := by
        rw [Nat.cast_sub (by omega)]; simp
      rw [h6] at h5
      linarith
    have hhigh : x⁻¹ ≤ ((2 ^ ((⌈x⁻¹⌉₊ - 1).log2 + 1) : Nat) : K) := by
      have h5 : ⌈x⁻¹⌉₊ ≤ 2 ^ ((⌈x⁻¹⌉₊ - 1).log2 + 1) := by omega
      have h6 : (⌈x⁻¹⌉₊ : K) ≤ ((2 ^ ((⌈x⁻¹⌉₊ - 1).log2 + 1) : Nat) : K) := by
        exact_mod_cast h5
      linarith
    have hpl : (0 : K) < ((2 ^ (⌈x⁻¹⌉₊ - 1).log2 : Nat) : K) := by positivity
    have hph : (0 : K) < ((2 ^ ((⌈x⁻¹⌉₊ - 1).log2 + 1) : Nat) : K) := by positivity
    constructor
    · have e : -(((⌈x⁻¹⌉₊ - 1).log2 : Int) + 1) = -(((⌈x⁻¹⌉₊ - 1).log2 + 1 : Nat) : Int) := by
        push_cast; rfl
      rw [e, zpow_neg, zpow_natCast]
      have h7 : (2 : K) ^ ((⌈x⁻¹⌉₊ - 1).log2 + 1)
          = ((2 ^ ((⌈x⁻¹⌉₊ - 1).log2 + 1) : Nat) : K) := by push_cast; rfl
      rw [h7]
      exact (inv_le_comm₀ hph hx).mpr hhigh
    · have e : -(((⌈x⁻¹⌉₊ - 1).log2 : Int) + 1) + 1 = -(((⌈x⁻¹⌉₊ - 1).log2 : Nat) : Int) := by
        ring
      rw [e, zpow_neg, zpow_natCast]
      have h7 : (2 : K) ^ (⌈x⁻¹⌉₊ - 1).log2 = ((2 ^ (⌈x⁻¹⌉₊ - 1).log2 : Nat) : K) := by
        push_cast; rfl
      rw [h7]
      have := (inv_lt_inv₀ (inv_pos.mpr hx) hpl).mpr hlow
      rwa [inv_inv] at this

/-- The exponent is unique. -/
theorem binade_unique {K : Type} [LinearOrderedField K] [FloorRing K] (x : K) (hx : 0 < x)
    (e : Int) (h1 : (pow2 e : K) ≤ x) (h2 : x < pow2 (e + 1)) : binade x = e := by
  obtain ⟨a, b⟩ := binade_spec x hx
  rw [pow2_eq_zpow] at a b h1 h2
  have c1 : (2 : K) ^ e < 2 ^ (binade x + 1) := lt_of_le_of_lt h1 b
  have c2 : (2 : K) ^ (binade x) < 2 ^ (e + 1) := lt_of_le_of_lt a h2
  rw [zpow_lt_zpow_iff_right₀ (by norm_num)] at c1 c2
  omega

theorem binade_mono {K : Type} [LinearOrderedField K] [FloorRing K] (x y : K) (hx : 0 < x)
    (hxy : x ≤ y) : binade x ≤ binade y := by
  obtain ⟨a, _⟩ := binade_spec x hx
  obtain ⟨_, d⟩ := binade_spec y (lt_of_lt_of_le hx hxy)
  rw [pow2_eq_zpow] at a d
  have c : (2 : K) ^ (binade x) < 2 ^ (binade y + 1) := lt_of_le_of_lt a (lt_of_le_of_lt hxy d)
  rw [zpow_lt_zpow_iff_right₀ (by norm_num)] at c
  omega

/-! ## Rounding: to the nearest integer -/

theorem round_even_bounds {K : Type} [LinearOrderedField K] [FloorRing K] (t : K) :
    ⌊t⌋ ≤ round_even t ∧ round_even t ≤ ⌊t⌋ + 1 := by
  unfold round_even
  split_ifs <;> omega

/-- The rounded value is within one half of the argument. -/
theorem round_even_near {K : Type} [LinearOrderedField K] [FloorRing K] (t : K) :
    t - 1 / 2 ≤ (round_even t : K) ∧ (round_even t : K) ≤ t + 1 / 2 := by
  have a := Int.floor_le t
  have b := Int.lt_floor_add_one t
  unfold round_even
  split_ifs with h1 h2 h3
  · constructor <;> linarith
  · push_cast; constructor <;> linarith
  · have h4 : t - (⌊t⌋ : K) = 1 / 2 := le_antisymm (not_lt.mp h2) (not_lt.mp h1)
    constructor <;> linarith
  · have h4 : t - (⌊t⌋ : K) = 1 / 2 := le_antisymm (not_lt.mp h2) (not_lt.mp h1)
    push_cast; constructor <;> linarith

theorem round_even_intCast {K : Type} [LinearOrderedField K] [FloorRing K] (m : Int) :
    round_even (m : K) = m := by
  unfold round_even
  rw [Int.floor_intCast, sub_self, if_pos (by norm_num)]

/-- A value at least `m - 1/2` rounds to at least the integer `m`, provided that `m` is even when
the value is `m - 1/2` itself. -/
theorem round_even_ge {K : Type} [LinearOrderedField K] [FloorRing K] (t : K) (m : Int)
    (h : (m : K) - 1 / 2 ≤ t) (htie : t = (m : K) - 1 / 2 → m % 2 = 0) :
    m ≤ round_even t := by
  have hb := round_even_bounds t
  by_cases hm : (m : K) ≤ t
  · have : m ≤ ⌊t⌋ := Int.le_floor.mpr hm
    omega
  · -- m - 1/2 ≤ t < m, so the floor is m - 1
    have hlt : t < (m : K) := lt_of_not_le hm
    have hf : ⌊t⌋ = m - 1 := by
      rw [Int.floor_eq_iff]; push_cast; constructor <;> linarith
    unfold round_even
    rw [hf]
    push_cast
    by_cases h1 : t - ((m : K) - 1) < 1 / 2
    · exfalso; linarith
    · rw [if_neg h1]
      by_cases h2 : 1 / 2 < t - ((m : K) - 1)
      · rw [if_pos h2]; omega
      · rw [if_neg h2]
        have ht : t = (m : K) - 1 / 2 := by linarith
        have he := htie ht
        rw [if_neg (by omega)]; omega

/-- A value that rounds to at least the integer `m` is at least `m - 1/2`. -/
theorem round_even_ge_imp {K : Type} [LinearOrderedField K] [FloorRing K] (t : K) (m : Int)
    (h : m ≤ round_even t) : (m : K) - 1 / 2 ≤ t := by
  have a := (round_even_near t).2
  have b : (m : K) ≤ (round_even t : K) := by exact_mod_cast h
  linarith

theorem round_even_mono {K : Type} [LinearOrderedField K] [FloorRing K] (s t : K) (h : s ≤ t) :
    round_even s ≤ round_even t := by
  have hs := round_even_bounds s
  have ht := round_even_bounds t
  have hfl : ⌊s⌋ ≤ ⌊t⌋ := Int.floor_mono h
  by_cases hlt : ⌊s⌋ < ⌊t⌋
  · omega
  · have heq : ⌊s⌋ = ⌊t⌋ := by omega
    unfold round_even
    rw [heq]
    have hst : s - (⌊t⌋ : K) ≤ t - (⌊t⌋ : K) := by linarith
    split_ifs <;> first | omega | (exfalso; linarith)

theorem round_even_neg {K : Type} [LinearOrderedField K] [FloorRing K] (t : K) :
    round_even (-t) = -round_even t := by
  have a := Int.floor_le t
  have b := Int.lt_floor_add_one t
  by_cases hint : (⌊t⌋ : K) = t
  · rw [← hint, ← Int.cast_neg, round_even_intCast, round_even_intCast]
  · have hlt : (⌊t⌋ : K) < t := lt_of_le_of_ne a hint
    have hf : ⌊-t⌋ = -⌊t⌋ - 1 := by
      rw [Int.floor_eq_iff]; push_cast; constructor <;> linarith
    unfold round_even
    rw [hf]
    push_cast
    split_ifs <;> first | omega | (exfalso; linarith)

/-! ## Rounding: floating-point numbers -/

theorem fl_round_zero {K : Type} [LinearOrderedField K] [FloorRing K] (p : Nat) :
    fl_round p (0 : K) = 0 := by
  unfold fl_round; rw [if_pos rfl]

theorem fl_round_neg {K : Type} [LinearOrderedField K] [FloorRing K] (p : Nat) (x : K) :
    fl_round p (-x) = -fl_round p x := by
  unfold fl_round
  by_cases h : x = 0
  · rw [if_pos h, if_pos (by rw [h, neg_zero]), neg_zero]
  · rw [if_neg h, if_neg (by simpa using h), abs_neg, neg_div, round_even_neg]
    push_cast; ring

/-- The grid step of a positive value `x`: `2^(e - p + 1)` with `2^e ≤ x < 2^(e+1)`; `x` lies
between `2^(p-1)` and `2^p` steps. -/
theorem fl_grid {K : Type} [LinearOrderedField K] [FloorRing K] (p : Nat) (hp : 1 ≤ p) (x : K)
    (hx : 0 < x) :
    (((2 : Int) ^ (p - 1) : Int) : K) ≤ x / pow2 (binade x - (p : Int) + 1) ∧
    x / pow2 (binade x - (p : Int) + 1) < (((2 : Int) ^ p : Int) : K) := by
  obtain ⟨a, b⟩ := binade_spec x hx
  have hq : (0 : K) < pow2 (binade x - (p : Int) + 1) := pow2_pos _
  have e1 : (pow2 (binade x) : K)
      = (((2 : Int) ^ (p - 1) : Int) : K) * pow2 (binade x - (p : Int) + 1) := by
    rw [← pow2_natCast, ← pow2_add]
    congr 1
    have : ((p - 1 : Nat) : Int) = (p : Int) - 1 := by omega
    rw [this]; ring
  have e2 : (pow2 (binade x + 1) : K)
      = (((2 : Int) ^ p : Int) : K) * pow2 (binade x - (p : Int) + 1) := by
    rw [← pow2_natCast, ← pow2_add]
    congr 1; ring
  constructor
  · rw [le_div_iff₀ hq, ← e1]; exact a
  · rw [div_lt_iff₀ hq, ← e2]; exact b

/-- A positive value rounds to a value between the ends of its binade. -/
theorem fl_round_binade {K : Type} [LinearOrderedField K] [FloorRing K] (p : Nat) (hp : 1 ≤ p)
    (x : K) (hx : 0 < x) :
    (pow2 (binade x) : K) ≤ fl_round p x ∧ fl_round p x ≤ pow2 (binade x + 1) := by
  obtain ⟨a, b⟩ := fl_grid p hp x hx
  have hq : (0 : K) < pow2 (binade x - (p : Int) + 1) := pow2_pos _
  have e1 : (pow2 (binade x) : K)
      = (((2 : Int) ^ (p - 1) : Int) : K) * pow2 (binade x - (p : Int) + 1) := by
    rw [← pow2_natCast, ← pow2_add]
    congr 1
    have : ((p - 1 : Nat) : Int) = (p : Int) - 1 := by omega
    rw [this]; ring
  have e2 : (pow2 (binade x + 1) : K)
      = (((2 : Int) ^ p : Int) : K) * pow2 (binade x - (p : Int) + 1) := by
    rw [← pow2_natCast, ← pow2_add]
    congr 1; ring
  have r1 : (2 : Int) ^ (p - 1) ≤ round_even (x / pow2 (binade x - (p : Int) + 1)) := by
    have := round_even_mono _ _ a
    rwa [round_even_intCast] at this
  have r2 : round_even (x / pow2 (binade x - (p : Int) + 1)) ≤ (2 : Int) ^ p := by
    have := round_even_mono _ _ (le_of_lt b)
    rwa [round_even_intCast] at this
  unfold fl_round
  rw [if_neg (ne_of_gt hx), abs_of_pos hx, e1, e2]
  constructor
  · exact mul_le_mul_of_nonneg_right (by exact_mod_cast r1) (le_of_lt hq)
  · exact mul_le_mul_of_nonneg_right (by exact_mod_cast r2) (le_of_lt hq)

theorem fl_round_nonneg {K : Type} [LinearOrderedField K] [FloorRing K] (p : Nat) (hp : 1 ≤ p)
    (x : K) (hx : 0 ≤ x) : 0 ≤ fl_round p x := by
  rcases eq_or_lt_of_le hx with h | h
  · rw [← h, fl_round_zero]
  · exact le_trans (le_of_lt (pow2_pos _)) (fl_round_binade p hp x h).1

/-- Rounding is monotone. -/
theorem fl_round_mono {K : Type} [LinearOrderedField K] [FloorRing K] (p : Nat) (hp : 1 ≤ p)
    (x y : K) (hxy : x ≤ y) : fl_round p x ≤ fl_round p y := by
  have hpos : ∀ a b : K, 0 < a → a ≤ b → fl_round p a ≤ fl_round p b := by
    intro a b ha hab
    have hb : 0 < b := lt_of_lt_of_le ha hab
    have hm := binade_mono a b ha hab
    by_cases he : binade a = binade b
    · unfold fl_round
      rw [if_neg (ne_of_gt ha), if_neg (ne_of_gt hb), abs_of_pos ha, abs_of_pos hb, he]
      have hq : (0 : K) < pow2 (binade b - (p : Int) + 1) := pow2_pos _
      have := round_even_mono (a / pow2 (binade b - (p : Int) + 1))
        (b / pow2 (binade b - (p : Int) + 1)) (div_le_div_of_nonneg_right hab (le_of_lt hq))
      exact mul_le_mul_of_nonneg_right (by exact_mod_cast this) (le_of_lt hq)
    · have h1 := (fl_round_binade p hp a ha).2
      have h2 := (fl_round_binade p hp b hb).1
      exact le_trans h1 (le_trans (pow2_le _ _ (by omega)) h2)
  rcases lt_trichotomy x 0 with hx | hx | hx
  · rcases lt_trichotomy y 0 with hy | hy | hy
    · have := hpos (-y) (-x) (by linarith) (by linarith)
      rw [fl_round_neg, fl_round_neg] at this
      linarith
    · rw [hy, fl_round_zero]
      have := fl_round_nonneg p hp (-x) (by linarith)
      rw [fl_round_neg] at this
      linarith
    · have h1 := fl_round_nonneg p hp (-x) (by linarith)
      rw [fl_round_neg] at h1
      have h2 := fl_round_nonneg p hp y (le_of_lt hy)
      linarith
  · rw [hx, fl_round_zero]
    exact fl_round_nonneg p hp y (by rw [hx] at hxy; exact hxy)
  · exact hpos x y hx hxy

/-- A value that is a whole number of grid steps is not changed by rounding. -/
theorem fl_round_of_grid {K : Type} [LinearOrderedField K] [FloorRing K] (p : Nat) (x : K)
    (m : Int) (hm : x / pow2 (binade |x| - (p : Int) + 1) = (m : K)) : fl_round p x = x := by
  unfold fl_round
  by_cases h : x = 0
  · rw [if_pos h, h]
  · rw [if_neg h, hm, round_even_intCast, ← hm]
    exact div_mul_cancel₀ x (ne_of_gt (pow2_pos _))

/-- An integer of absolute value below `2^p` is not changed by rounding to `p` bits. -/
theorem fl_round_intCast {K : Type} [LinearOrderedField K] [FloorRing K] (p : Nat)
    (n : Int) (hn : |n| < 2 ^ p) : fl_round p (n : K) = (n : K) := by
  by_cases h0 : n = 0
  · rw [h0, Int.cast_zero, fl_round_zero]
  · have habs : (0 : K) < |(n : K)| := abs_pos.mpr (by exact_mod_cast h0)
    obtain ⟨a, b⟩ := binade_spec |(n : K)| habs
    have hlt : |(n : K)| < pow2 ((p : Nat) : Int) := by
      rw [pow2_natCast]
      have : ((|n| : Int) : K) < (((2 : Int) ^ p : Int) : K) := by exact_mod_cast hn
      rwa [Int.cast_abs] at this
    have he : binade |(n : K)| < (p : Int) := by
      have c := lt_of_le_of_lt a hlt
      rw [pow2_eq_zpow, pow2_eq_zpow, zpow_lt_zpow_iff_right₀ (by norm_num)] at c
      exact c
    obtain ⟨k, hk⟩ : ∃ k : Nat, (k : Int) = (p : Int) - 1 - binade |(n : K)| :=
      ⟨((p : Int) - 1 - binade |(n : K)|).toNat, Int.toNat_of_nonneg (by omega)⟩
    apply fl_round_of_grid p (n : K) (n * 2 ^ k)
    have e : binade |(n : K)| - (p : Int) + 1 = -(k : Int) := by omega
    rw [e, pow2_eq_zpow, zpow_neg, zpow_natCast, div_inv_eq_mul]
    push_cast; rfl

theorem pow2_lt_imp {K : Type} [LinearOrderedField K] (a b : Int)
    (h : (pow2 a : K) < pow2 b) : a < b := by
  rw [pow2_eq_zpow, pow2_eq_zpow, zpow_lt_zpow_iff_right₀ (by norm_num)] at h
  exact h

/-- A grid step `2^z` with `z ≤ 0` is the inverse of a power of two. -/
theorem pow2_nonpos {K : Type} [LinearOrderedField K] (z : Int) (hz : z ≤ 0) :
    (pow2 z : K) * (((2 : Int) ^ (-z).toNat : Int) : K) = 1 := by
  have h1 : (((2 : Int) ^ (-z).toNat : Int) : K) = pow2 (((-z).toNat : Nat) : Int) :=
    (pow2_natCast _).symm
  rw [h1, ← pow2_add]
  have : z + (((-z).toNat : Nat) : Int) = 0 := by omega
  rw [this]
  simp [pow2]

/-- Below `2^(p-1)` the grid step is at most one half: every integer is a whole, even number of
grid steps. -/
theorem fl_grid_int {K : Type} [LinearOrderedField K] [FloorRing K] (p : Nat) (x : K)
    (hx : 0 < x) (hlt : x < (((2 : Int) ^ (p - 1) : Int) : K)) (hp : 1 ≤ p) (n : Int) :
    ∃ m : Int, (n : K) = (m : K) * pow2 (binade x - (p : Int) + 1) ∧ m % 2 = 0 := by
  obtain ⟨a, _⟩ := binade_spec x hx
  have hb : binade x < ((p - 1 : Nat) : Int) := by
    apply @pow2_lt_imp K
    rw [pow2_natCast]
    exact lt_of_le_of_lt a hlt
  have hz : binade x - (p : Int) + 1 ≤ -1 := by omega
  obtain ⟨j, hj⟩ : ∃ j : Nat, (-(binade x - (p : Int) + 1)).toNat = j + 1 :=
    ⟨(-(binade x - (p : Int) + 1)).toNat - 1, by omega⟩
  refine ⟨n * 2 ^ (j + 1), ?_, ?_⟩
  · have h := @pow2_nonpos K _ (binade x - (p : Int) + 1) (by omega)
    rw [hj] at h
    push_cast at h ⊢
    rw [mul_assoc, mul_comm ((2 : K) ^ (j + 1)), h, mul_one]
  · rw [pow_succ, ← mul_assoc]
    exact Int.mul_emod_left _ 2

/-- Adding 1 raises the integer part of the rounded value: for `0 ≤ x` with `x + 1 < 2^(p-1)`,
an integer `n ≤ fl(x)` has `n + 1 ≤ fl(x + 1)`. -/
theorem fl_round_shift {K : Type} [LinearOrderedField K] [FloorRing K] (p : Nat) (hp : 1 ≤ p)
    (x : K) (hx : 0 ≤ x) (hlt : x + 1 < (((2 : Int) ^ (p - 1) : Int) : K)) (n : Int)
    (hn : (n : K) ≤ fl_round p x) : ((n + 1 : Int) : K) ≤ fl_round p (x + 1) := by
  have hy : (0 : K) < x + 1 := by linarith
  have hp2 : (2 : Int) ^ (p - 1) < 2 ^ p := by
    apply pow_lt_pow_right₀ (by norm_num); omega
  rcases eq_or_lt_of_le hx with h0 | h0
  · rw [← h0, fl_round_zero] at hn
    rw [← h0, zero_add]
    have h1 := @fl_round_intCast K _ _ p 1 (by
      have : (1 : Int) ≤ 2 ^ (p - 1) := one_le_pow₀ (by norm_num)
      rw [abs_one]; omega)
    rw [Int.cast_one] at h1
    rw [h1]
    have : n ≤ 0 := by exact_mod_cast hn
    exact_mod_cast (by omega : n + 1 ≤ 1)
  · -- the grids of x and of x + 1
    have hqx : (0 : K) < pow2 (binade x - (p : Int) + 1) := pow2_pos _
    have hqy : (0 : K) < pow2 (binade (x + 1) - (p : Int) + 1) := pow2_pos _
    have hq : (pow2 (binade x - (p : Int) + 1) : K) ≤ pow2 (binade (x + 1) - (p : Int) + 1) := by
      apply pow2_le
      have := binade_mono x (x + 1) h0 (by linarith)
      omega
    obtain ⟨m1, hm1, _⟩ := fl_grid_int p x h0 (by linarith) hp n
    obtain ⟨m2, hm2, heven⟩ := fl_grid_int p (x + 1) hy hlt hp (n + 1)
    -- from n ≤ fl x: x is at most half a step below n
    have hvx : fl_round p x = (round_even (x / pow2 (binade x - (p : Int) + 1)) : K)
        * pow2 (binade x - (p : Int) + 1) := by
      unfold fl_round
      rw [if_neg (ne_of_gt h0), abs_of_pos h0]
    have hvy : fl_round p (x + 1)
        = (round_even ((x + 1) / pow2 (binade (x + 1) - (p : Int) + 1)) : K)
          * pow2 (binade (x + 1) - (p : Int) + 1) := by
      unfold fl_round
      rw [if_neg (ne_of_gt hy), abs_of_pos hy]
    have h1 : m1 ≤ round_even (x / pow2 (binade x - (p : Int) + 1)) := by
      rw [hvx, hm1] at hn
      have := le_of_mul_le_mul_right hn hqx
      exact_mod_cast this
    have h2 := round_even_ge_imp _ _ h1
    have h3 : (n : K) - pow2 (binade x - (p : Int) + 1) / 2 ≤ x := by
      have := mul_le_mul_of_nonneg_right h2 (le_of_lt hqx)
      rw [div_mul_cancel₀ x (ne_of_gt hqx), sub_mul, ← hm1] at this
      linarith
    have h4 : (m2 : K) - 1 / 2 ≤ (x + 1) / pow2 (binade (x + 1) - (p : Int) + 1) := by
      rw [le_div_iff₀ hqy, sub_mul, ← hm2]
      push_cast
      linarith
    have h5 : m2 ≤ round_even ((x + 1) / pow2 (binade (x + 1) - (p : Int) + 1)) :=
      round_even_ge _ _ h4 (fun _ => heven)
    rw [hvy, hm2]
    exact mul_le_mul_of_nonneg_right (by exact_mod_cast h5) (le_of_lt hqy)

theorem accumulate_all_dims (calls : List ((Nat → Nat) × Nat)) :
    ∀ img : HdrImage, (accumulate_all img calls).width = img.width ∧
      (accumulate_all img calls).height = img.height := by
  induction calls with
  | nil => intro img; exact ⟨rfl, rfl⟩
  | cons c cs ih => intro img; exact ih (Accumulate img c.1 c.2)

/-! ## Accumulate: luma, chroma, range -/

/-- C1 (amended): `Accumulate` adds luma verbatim on the rows its two workers cover.  For every
image, frame and stride and every luma position `(x, y)` with `x < width` and
`y < 2 * (height / 2)` (every row when `height` is even), the sample at `y * width + x` becomes
its previous value plus the frame byte at `y * stride + x`, in signed 16-bit arithmetic. -/
theorem Accumulate_adds_luma (img : HdrImage) (frame : Nat → Nat) (stride x y : Nat)
    (hx : x < img.width) (hy : y < 2 * (img.height / 2))
    (hlen : img.width * img.height ≤ img.pixels.length) :
    (Accumulate img frame stride).P (y * img.width + x)
      = wrap16 (img.P (y * img.width + x) + byteAt frame (y * stride + x)) := by
  have hlt : y * img.width + x < img.height * img.width :=
    row_index_lt y x img.width img.height (by omega) hx
  rw [Nat.mul_comm img.height] at hlt
  simp only [HdrImage.P, Accumulate_pixels]
  exact acc_pixels_luma wrap16 img frame stride x y hx hy (by omega)

/-- Witness of C1: a 2×2 image, position `(1, 1)`. -/
theorem Accumulate_adds_luma_witness :
    (Accumulate (HdrImage.create 2 2 6) (fun _ => 200) 2).P (1 * 2 + 1)
      = wrap16 ((HdrImage.create 2 2 6).P (1 * 2 + 1) + byteAt (fun _ => 200) (1 * 2 + 1)) :=
  Accumulate_adds_luma (HdrImage.create 2 2 6) (fun _ => 200) 2 1 1
    (by decide) (by decide) (by decide)

/-- Counterexample to C1 as stated: with `width = 2`, `height = 3`, `stride = 2` and a frame of
bytes 200, the luma sample at position `(0, 2)` (index `2 * 2 + 0`) is still 0 after `Accumulate`,
whereas its previous value plus the frame byte is 200: each worker adds `height / 2 = 1` row. -/
theorem Accumulate_odd_height_last_row :
    (Accumulate (HdrImage.create 2 3 9) (fun _ => 200) 2).P (2 * 2 + 0) = 0 ∧
    wrap16 ((HdrImage.create 2 3 9).P (2 * 2 + 0) + byteAt (fun _ => 200) (2 * 2 + 0)) = 200 := by
  decide

/-- C2: `Accumulate` adds chroma de-biased.  For even `height` and a sample vector of
`width * height * 3 / 2` entries, the U sample `(cx, cy)` grows by
`frame[stride*height + cy*(stride/2) + cx] - 128`, the V sample `(cx, cy)` by
`frame[stride*height + (stride/2)*(height/2) + cy*(stride/2) + cx] - 128` (16-bit arithmetic),
and every index from `width * height` on that is neither is unchanged. -/
theorem Accumulate_adds_chroma (img : HdrImage) (frame : Nat → Nat) (stride : Nat)
    (hh : Even img.height)
    (hlen : img.width * img.height * 3 / 2 ≤ img.pixels.length) :
    (∀ cx cy, cx < img.width / 2 → cy < img.height / 2 →
      (Accumulate img frame stride).P (img.width * img.height + cy * (img.width / 2) + cx)
        = wrap16 (img.P (img.width * img.height + cy * (img.width / 2) + cx)
            + (byteAt frame (stride * img.height + cy * (stride / 2) + cx) - 128)) ∧
      (Accumulate img frame stride).P
          (img.width * img.height + (img.width / 2) * (img.height / 2) + cy * (img.width / 2) + cx)
        = wrap16 (img.P (img.width * img.height + (img.width / 2) * (img.height / 2)
              + cy * (img.width / 2) + cx)
            + (byteAt frame (stride * img.height + (stride / 2) * (img.height / 2)
                + cy * (stride / 2) + cx) - 128))) ∧
    (∀ i, img.width * img.height ≤ i →
      (∀ cx cy, cx < img.width / 2 → cy < img.height / 2 →
        i ≠ img.width * img.height + cy * (img.width / 2) + cx ∧
        i ≠ img.width * img.height + (img.width / 2) * (img.height / 2)
              + cy * (img.width / 2) + cx) →
      (Accumulate img frame stride).P i = img.P i) := by
  obtain ⟨m, hm⟩ := hh
  have hm2 : img.height / 2 = m := by omega
  have hhalf : img.width / 2 * img.height * 2 ≤ img.width * img.height := by
    have : img.width / 2 * 2 ≤ img.width := by omega
    calc img.width / 2 * img.height * 2 = (img.width / 2 * 2) * img.height := by ring
      _ ≤ img.width * img.height := Nat.mul_le_mul_right _ this
  have hcap : img.width * img.height + img.height * (img.width / 2) ≤ img.pixels.length := by
    have e : img.height * (img.width / 2) = img.width / 2 * img.height := Nat.mul_comm _ _
    omega
  refine ⟨fun cx cy hcx hcy => ⟨?_, ?_⟩, fun i hi hne => ?_⟩
  · have hlt := row_index_lt cy cx (img.width / 2) img.height (by omega) hcx
    simp only [HdrImage.P, Accumulate_pixels]
    exact acc_pixels_chroma wrap16 img frame stride cx cy hcx (by omega) (by omega)
  · have hlt := row_index_lt (m + cy) cx (img.width / 2) img.height (by omega) hcx
    have := acc_pixels_chroma wrap16 img frame stride cx (m + cy) hcx (by omega) (by omega)
    have e1 : img.width * img.height + (m + cy) * (img.width / 2) + cx
        = img.width * img.height + (img.width / 2) * (img.height / 2)
            + cy * (img.width / 2) + cx := by rw [hm2]; ring
    have e2 : stride * img.height + (m + cy) * (stride / 2) + cx
        = stride * img.height + (stride / 2) * (img.height / 2) + cy * (stride / 2) + cx := by
      rw [hm2]; ring
    rw [e1, e2] at this
    simp only [HdrImage.P, Accumulate_pixels]
    exact this
  · simp only [HdrImage.P, Accumulate_pixels]
    have hw2 : img.width * (2 * (img.height / 2)) = img.width * img.height := by
      rw [hm2]; congr 1; omega
    apply acc_pixels_other wrap16 img frame stride i (by omega)
    right
    by_contra hcon
    obtain ⟨y, x, hy, hx, hyx⟩ := plane_index_decomp (img.width * img.height)
      (img.width / 2) img.height i hi (by omega)
    by_cases hym : y < m
    · exact (hne x y hx (by omega)).1 hyx
    · obtain ⟨cy, hcy⟩ : ∃ cy, y = m + cy := ⟨y - m, by omega⟩
      apply (hne x cy hx (by omega)).2
      rw [hyx, hcy, hm2]; ring

/-- Witness of C2: the U sample `(0, 0)` of a 2×2 image with a 6-sample vector, stride 4. -/
theorem Accumulate_adds_chroma_witness :
    (Accumulate (HdrImage.create 2 2 6) (fun i => i) 4).P (2 * 2 + 0 * (2 / 2) + 0)
      = wrap16 ((HdrImage.create 2 2 6).P (2 * 2 + 0 * (2 / 2) + 0)
          + (byteAt (fun i => i) (4 * 2 + 0 * (4 / 2) + 0) - 128)) :=
  ((Accumulate_adds_chroma (HdrImage.create 2 2 6) (fun i => i) 4
    ⟨1, by decide⟩ (by decide)).1 0 0 (by decide) (by decide)).1

/-- C3: the accumulator range invariant.  Starting from a freshly constructed image (all samples
0, `dynamic_range` 0), after `k` calls of `Accumulate` with `1 ≤ k ≤ 128` (any frames, any
strides): `dynamic_range = 256 * k`, every luma sample lies in `[0, 255 * k]`, every chroma
sample in `[-128 * k, 127 * k]`, every sample is strictly below `dynamic_range`, and no 16-bit
overflow has occurred: the image equals the one computed with exact integer sums. -/
theorem Accumulate_range_invariant (w h n : Nat) (calls : List ((Nat → Nat) × Nat))
    (hk1 : 1 ≤ calls.length) (hk : calls.length ≤ 128) :
    (accumulate_all (HdrImage.create w h n) calls).dynamic_range = 256 * (calls.length : Int) ∧
    (∀ i, i < w * h →
      0 ≤ (accumulate_all (HdrImage.create w h n) calls).P i ∧
      (accumulate_all (HdrImage.create w h n) calls).P i ≤ 255 * (calls.length : Int)) ∧
    (∀ i, w * h ≤ i →
      -128 * (calls.length : Int) ≤ (accumulate_all (HdrImage.create w h n) calls).P i ∧
      (accumulate_all (HdrImage.create w h n) calls).P i ≤ 127 * (calls.length : Int)) ∧
    (∀ i, (accumulate_all (HdrImage.create w h n) calls).P i
      < (accumulate_all (HdrImage.create w h n) calls).dynamic_range) ∧
    accumulate_all (HdrImage.create w h n) calls
      = accumulate_all_exact (HdrImage.create w h n) calls := by
  obtain ⟨⟨hdr, hY, hC⟩, hex⟩ := AccRange_all calls 0 (HdrImage.create w h n)
    (AccRange_create w h n) (by omega)
  obtain ⟨hw, hh⟩ := accumulate_all_dims calls (HdrImage.create w h n)
  rw [hw, hh] at hY hC
  simp only [Nat.zero_add] at hdr hY hC
  have hw' : (HdrImage.create w h n).width = w := rfl
  have hh' : (HdrImage.create w h n).height = h := rfl
  rw [hw', hh'] at hY hC
  refine ⟨hdr, hY, hC, fun i => ?_, hex⟩
  rw [hdr]
  have hkpos : (1 : Int) ≤ (calls.length : Int) := by exact_mod_cast hk1
  by_cases hi : i < w * h
  · have := hY i hi; omega
  · have := hC i (by omega); omega

/-- Witness of C3: one frame of bytes 255 accumulated into a 2×2 image. -/
theorem Accumulate_range_invariant_witness :
    (accumulate_all (HdrImage.create 2 2 6) [(fun _ => 255, 2)]).dynamic_range
      = 256 * (([(fun _ => 255, 2)] : List ((Nat → Nat) × Nat)).length : Int) ∧
    (accumulate_all (HdrImage.create 2 2 6) [(fun _ => 255, 2)]).P 0
      < (accumulate_all (HdrImage.create 2 2 6) [(fun _ => 255, 2)]).dynamic_range :=
  ⟨(Accumulate_range_invariant 2 2 6 [(fun _ => 255, 2)] (by decide) (by decide)).1,
   (Accumulate_range_invariant 2 2 6 [(fun _ => 255, 2)] (by decide) (by decide)).2.2.2.1 0⟩

/-! ## Tonemap: the luma formula -/

theorem getD_set_ne (l : List Int) (j i : Nat) (a : Int) (h : j ≠ i) :
    (l.set j a).getD i 0 = l.getD i 0 := by
  rw [getD_set_eq, if_neg (by omega)]

/-- An invariant indexed by the iteration count holds after a `forLoop`. -/
theorem forLoop_inv {σ : Type} (I : Nat → σ → Prop) (body : Nat → σ → σ) (N : Nat) (s0 : σ)
    (h0 : I 0 s0) (hstep : ∀ n s, n < N → I n s → I (n + 1) (body n s)) :
    I N (forLoop body N s0) := by
  have key : ∀ k, k ≤ N → I k (forLoop body k s0) := by
    intro k
    induction k with
    | zero => intro _; exact h0
    | succ k ih => intro hk; exact hstep k _ (by omega) (ih (by omega))
  exact key N (Nat.le_refl N)

/-- A property established by iteration `j` of a `forLoop` and preserved by the others holds at
the end. -/
theorem forLoop_establish {σ : Type} (I : Nat → σ → Prop) (M : σ → Prop) (body : Nat → σ → σ)
    (N j : Nat) (hj : j < N) (s0 : σ) (h0 : I 0 s0)
    (hstep : ∀ n s, n < N → I n s → I (n + 1) (body n s))
    (hest : ∀ s, I j s → M (body j s))
    (hpres : ∀ n s, n < N → n ≠ j → I n s → M s → M (body n s)) :
    M (forLoop body N s0) := by
  have hI : ∀ k, k ≤ N → I k (forLoop body k s0) := by
    intro k
    induction k with
    | zero => intro _; exact h0
    | succ k ih => intro hk; exact hstep k _ (by omega) (ih (by omega))
  have key : ∀ k, j < k → k ≤ N → M (forLoop body k s0) := by
    intro k
    induction k with
    | zero => intro h; omega
    | succ k ih =>
      intro hjk hk
      by_cases hjk2 : j = k
      · subst hjk2; exact hest _ (hI j (by omega))
      · exact hpres k _ (by omega) (by omega) (hI k (by omega)) (ih (by omega) (by omega))
  exact key N hj (Nat.le_refl N)

/-- An invariant indexed by the number of remaining iterations holds after a `forDown`. -/
theorem forDown_inv {σ : Type} (I : Nat → σ → Prop) (body : Nat → σ → σ) :
    ∀ (N : Nat) (s0 : σ), I N s0 → (∀ n s, n < N → I (n + 1) s → I n (body n s)) →
      I 0 (forDown body N s0)
  | 0, _, h0, _ => h0
  | N + 1, s0, h0, hstep =>
    forDown_inv I body N (body N s0) (hstep N s0 (by omega) h0)
      (fun n s hn h => hstep n s (by omega) h)

/-- A property established by iteration `j` of a `forDown` and preserved by the others holds at
the end. -/
theorem forDown_establish {σ : Type} (I : Nat → σ → Prop) (M : σ → Prop) (body : Nat → σ → σ)
    (j : Nat) :
    ∀ (N : Nat) (s0 : σ), j < N → I N s0 →
      (∀ n s, n < N → I (n + 1) s → I n (body n s)) →
      (∀ s, I (j + 1) s → M (body j s)) →
      (∀ n s, n < N → n ≠ j → I (n + 1) s → M s → M (body n s)) →
      M (forDown body N s0)
  | 0, _, hj, _, _, _, _ => by omega
  | N + 1, s0, hj, h0, hstep, hest, hpres => by
    by_cases hjN : j = N
    · subst hjN
      have h1 : I j (body j s0) ∧ M (body j s0) := ⟨hstep j s0 (by omega) h0, hest s0 h0⟩
      exact (forDown_inv (fun n s => I n s ∧ M s) body j (body j s0) h1
        (fun n s hn h => ⟨hstep n s (by omega) h.1,
          hpres n s (by omega) (by omega) h.1 h.2⟩)).2
    · exact forDown_establish I M body j N (body N s0) (by omega)
        (hstep N s0 (by omega) h0) (fun n s hn h => hstep n s (by omega) h) hest
        (fun n s hn hne h hm => hpres n s (by omega) hne h hm)

/-- Rows of `w` columns in a buffer of row length `s ≥ w` do not overlap. -/
theorem row_col_unique (s y x y0 x0 : Nat) (hx : x < s) (hx0 : x0 < s)
    (h : y * s + x = y0 * s + x0) : y = y0 ∧ x = x0 := by
  have hy : y = y0 := by
    rcases Nat.lt_trichotomy y y0 with hlt | heq | hgt
    · exfalso
      have := Nat.mul_le_mul_right s (Nat.succ_le_of_lt hlt)
      have e : (y + 1) * s = y * s + s := by ring
      simp only [Nat.succ_eq_add_one] at this
      omega
    · exact heq
    · exfalso
      have := Nat.mul_le_mul_right s (Nat.succ_le_of_lt hgt)
      have e : (y0 + 1) * s = y0 * s + s := by ring
      simp only [Nat.succ_eq_add_one] at this
      omega
  subst hy
  exact ⟨rfl, by omega⟩

theorem getD_set_eq_gen {α : Type} (l : List α) (j i : Nat) (a d : α) :
    (l.set j a).getD i d = if j = i ∧ i < l.length then a else l.getD i d := by
  simp only [List.getD_eq_getElem?_getD, List.getElem?_set]
  by_cases hji : j = i
  · subst hji
    by_cases hlt : j < l.length
    · simp [hlt]
    · have : l[j]? = none := List.getElem?_eq_none (by omega)
      simp [hlt, this]
  · simp [hji]

/-! ## Extract -/

/-- What one iteration of the pixel loop of `Extract` does to the output vector. -/
theorem Extract_pixel_dest (img : HdrImage) (ratio : ℚ) (stride x y : Nat) (st : ExtractState)
    (j : Nat) :
    (Extract_pixel img ratio stride x y st).dest.getD j (some 0)
      = if (x % 2 = 0 ∧ y % 2 = 0) ∧ st.dest_v + x / 2 = j ∧ j < st.dest.length
          then extract_chroma (img.P st.V_ptr) ratio
        else if (x % 2 = 0 ∧ y % 2 = 0) ∧ st.dest_u + x / 2 = j ∧ j < st.dest.length
          then extract_chroma (img.P st.U_ptr) ratio
        else if y * stride + x = j ∧ j < st.dest.length
          then extract_luma (img.P (y * img.width + x)) ratio
        else st.dest.getD j (some 0) := by
  unfold Extract_pixel
  by_cases hc : x % 2 = 0 ∧ y % 2 = 0
  · simp only [hc, and_self, if_true, true_and, getD_set_eq_gen, List.length_set]
  · simp only [hc, if_false, false_and, getD_set_eq_gen]

theorem Extract_pixel_fields (img : HdrImage) (ratio : ℚ) (stride x y : Nat) (st : ExtractState) :
    (Extract_pixel img ratio stride x y st).dest.length = st.dest.length ∧
    (Extract_pixel img ratio stride x y st).dest_u = st.dest_u ∧
    (Extract_pixel img ratio stride x y st).dest_v = st.dest_v ∧
    (Extract_pixel img ratio stride x y st).U_ptr
      = st.U_ptr + (if x % 2 = 0 ∧ y % 2 = 0 then 1 else 0) ∧
    (Extract_pixel img ratio stride x y st).V_ptr
      = st.V_ptr + (if x % 2 = 0 ∧ y % 2 = 0 then 1 else 0) := by
  unfold Extract_pixel
  by_cases hc : x % 2 = 0 ∧ y % 2 = 0
  · simp only [if_pos hc, List.length_set, and_self]
  · simp only [if_neg hc, List.length_set, Nat.add_zero, and_self]

theorem ExtractPtrs_init (img : HdrImage) (stride : Nat) :
    ExtractPtrs img stride 0 0 (Extract_init img stride) := by
  simp [ExtractPtrs, Extract_init]

theorem Extract_pixel_ptrs (img : HdrImage) (ratio : ℚ) (stride y n : Nat) (st : ExtractState)
    (h : ExtractPtrs img stride y n st) :
    ExtractPtrs img stride y (n + 1) (Extract_pixel img ratio stride n y st) := by
  obtain ⟨h1, h2, h3, h4, h5⟩ := h
  obtain ⟨e1, e2, e3, e4, e5⟩ := Extract_pixel_fields img ratio stride n y st
  refine ⟨by rw [e1, h1], by rw [e2, h2], by rw [e3, h3], ?_, ?_⟩
  · rw [e4, h4]
    by_cases hy : y % 2 = 0
    · by_cases hn : n % 2 = 0
      · simp only [hy, hn, and_self, if_true]; omega
      · simp only [hy, hn, false_and, if_false, if_true]; omega
    · simp only [hy, and_false, if_false]
  · rw [e5, h5]
    by_cases hy : y % 2 = 0
    · by_cases hn : n % 2 = 0
      · simp only [hy, hn, and_self, if_true]; omega
      · simp only [hy, hn, false_and, if_false, if_true]; omega
    · simp only [hy, and_false, if_false]

theorem Extract_row_dest (img : HdrImage) (ratio : ℚ) (stride y : Nat) (st : ExtractState) :
    (Extract_row img ratio stride y st).dest
      = (forLoop (fun x st => Extract_pixel img ratio stride x y st) img.width st).dest := by
  unfold Extract_row
  by_cases hy : y % 2 = 0
  · simp only [hy, if_true]
  · simp only [hy, if_false]

theorem Extract_row_inner_ptrs (img : HdrImage) (ratio : ℚ) (stride y : Nat) (st : ExtractState)
    (h : ExtractPtrs img stride y 0 st) :
    ExtractPtrs img stride y img.width
      (forLoop (fun x st => Extract_pixel img ratio stride x y st) img.width st) :=
  forLoop_inv (fun n s => ExtractPtrs img stride y n s) _ img.width st h
    (fun n s _ hs => Extract_pixel_ptrs img ratio stride y n s hs)

theorem Extract_row_ptrs (img : HdrImage) (ratio : ℚ) (stride y : Nat) (st : ExtractState)
    (h : ExtractPtrs img stride y 0 st) :
    ExtractPtrs img stride (y + 1) 0 (Extract_row img ratio stride y st) := by
  obtain ⟨h1, h2, h3, h4, h5⟩ := Extract_row_inner_ptrs img ratio stride y st h
  unfold Extract_row
  by_cases hy : y % 2 = 0
  · have hy1 : ¬ ((y + 1) % 2 = 0) := by omega
    have e : (y + 1 + 1) / 2 = (y + 1) / 2 + 1 := by omega
    simp only [hy, if_true] at h4 h5 ⊢
    refine ⟨h1, ?_, ?_, ?_, ?_⟩
    · show _ + stride / 2 = _
      rw [h2, e]; ring
    · show _ + stride / 2 = _
      rw [h3, e]; ring
    · show (forLoop _ img.width st).U_ptr = _
      rw [h4, e, if_neg hy1]; ring
    · show (forLoop _ img.width st).V_ptr = _
      rw [h5, e, if_neg hy1]; ring
  · have hy1 : (y + 1) % 2 = 0 := by omega
    have e : (y + 1 + 1) / 2 = (y + 1) / 2 := by omega
    simp only [hy, if_false] at h4 h5 ⊢
    refine ⟨h1, ?_, ?_, ?_, ?_⟩
    · rw [h2, e]
    · rw [h3, e]
    · rw [h4, e, if_pos hy1]
    · rw [h5, e, if_pos hy1]

/-- An output byte that the writes of a row do not address is kept by the row. -/
theorem Extract_row_keep (img : HdrImage) (ratio : ℚ) (stride y j : Nat) (v : Option Nat)
    (st : ExtractState) (h : ExtractPtrs img stride y 0 st)
    (hno : ∀ x, x < img.width → y * stride + x ≠ j ∧
      (x % 2 = 0 ∧ y % 2 = 0 →
        stride * img.height + (y + 1) / 2 * (stride / 2) + x / 2 ≠ j ∧
        stride * img.height + stride * img.height / 4 + (y + 1) / 2 * (stride / 2) + x / 2 ≠ j))
    (hv : st.dest.getD j (some 0) = v) :
    (Extract_row img ratio stride y st).dest.getD j (some 0) = v := by
  rw [Extract_row_dest]
  have := forLoop_inv (fun n s => ExtractPtrs img stride y n s ∧ s.dest.getD j (some 0) = v)
    (fun x st => Extract_pixel img ratio stride x y st) img.width st ⟨h, hv⟩
    (fun n s hn hs => by
      refine ⟨Extract_pixel_ptrs img ratio stride y n s hs.1, ?_⟩
      rw [Extract_pixel_dest]
      obtain ⟨h1, h2, h3, -, -⟩ := hs.1
      obtain ⟨hn1, hn2⟩ := hno n hn
      have a1 : ¬ ((n % 2 = 0 ∧ y % 2 = 0) ∧ s.dest_v + n / 2 = j ∧ j < s.dest.length) := by
        rintro ⟨hc, hj, -⟩
        exact (hn2 hc).2 (by rw [← hj, h3])
      have a2 : ¬ ((n % 2 = 0 ∧ y % 2 = 0) ∧ s.dest_u + n / 2 = j ∧ j < s.dest.length) := by
        rintro ⟨hc, hj, -⟩
        exact (hn2 hc).1 (by rw [← hj, h2])
      have a3 : ¬ (y * stride + n = j ∧ j < s.dest.length) := fun hh => hn1 hh.1
      rw [if_neg a1, if_neg a2, if_neg a3]
      exact hs.2)
  exact this.2

theorem buffer_size (s h : Nat) : s * h + s * h / 4 ≤ s * h * 3 / 2 := by omega

/-- The luma byte of position `(x0, y0)` in the output of `Extract`, for `width ≤ stride`. -/
theorem Extract_luma_byte (img : HdrImage) (stride x0 y0 : Nat) (hws : img.width ≤ stride)
    (hx : x0 < img.width) (hy : y0 < img.height) :
    (Extract img stride).getD (y0 * stride + x0) (some 0)
      = extract_luma (img.P (y0 * img.width + x0)) (extract_ratio img.dynamic_range) := by
  have hj : y0 * stride + x0 < stride * img.height := by
    have := row_index_lt y0 x0 stride img.height hy (by omega)
    rw [Nat.mul_comm stride]; exact this
  have hbound : ∀ y x, y < img.height → x < img.width → y * stride + x < stride * img.height := by
    intro y x hy hx
    have := row_index_lt y x stride img.height hy (by omega)
    rw [Nat.mul_comm stride]; exact this
  unfold Extract
  apply forLoop_establish (fun y s => ExtractPtrs img stride y 0 s)
    (fun s => s.dest.getD (y0 * stride + x0) (some 0)
      = extract_luma (img.P (y0 * img.width + x0)) (extract_ratio img.dynamic_range))
    _ img.height y0 hy _ (ExtractPtrs_init img stride)
    (fun n s _ hs => Extract_row_ptrs img _ stride n s hs)
  · -- row `y0` stores the byte
    intro s hs
    show (Extract_row img _ stride y0 s).dest.getD _ _ = _
    rw [Extract_row_dest]
    apply forLoop_establish (fun n s => ExtractPtrs img stride y0 n s)
      (fun s => s.dest.getD (y0 * stride + x0) (some 0)
        = extract_luma (img.P (y0 * img.width + x0)) (extract_ratio img.dynamic_range))
      _ img.width x0 hx s hs
      (fun n s _ hs => Extract_pixel_ptrs img _ stride y0 n s hs)
    · intro s hs
      obtain ⟨h1, h2, h3, -, -⟩ := hs
      show (Extract_pixel img _ stride x0 y0 s).dest.getD _ _ = _
      rw [Extract_pixel_dest]
      have a1 : ¬ ((x0 % 2 = 0 ∧ y0 % 2 = 0) ∧ s.dest_v + x0 / 2 = y0 * stride + x0 ∧
          y0 * stride + x0 < s.dest.length) := by
        rintro ⟨-, hj2, -⟩; omega
      have a2 : ¬ ((x0 % 2 = 0 ∧ y0 % 2 = 0) ∧ s.dest_u + x0 / 2 = y0 * stride + x0 ∧
          y0 * stride + x0 < s.dest.length) := by
        rintro ⟨-, hj2, -⟩; omega
      have a3 : y0 * stride + x0 = y0 * stride + x0 ∧ y0 * stride + x0 < s.dest.length := by
        refine ⟨rfl, ?_⟩
        rw [h1]; omega
      rw [if_neg a1, if_neg a2, if_pos a3]
    · intro n s hn hne hs hm
      obtain ⟨h1, h2, h3, -, -⟩ := hs
      show (Extract_pixel img _ stride n y0 s).dest.getD _ _ = _
      rw [Extract_pixel_dest]
      have a1 : ¬ ((n % 2 = 0 ∧ y0 % 2 = 0) ∧ s.dest_v + n / 2 = y0 * stride + x0 ∧
          y0 * stride + x0 < s.dest.length) := by
        rintro ⟨-, hj2, -⟩; omega
      have a2 : ¬ ((n % 2 = 0 ∧ y0 % 2 = 0) ∧ s.dest_u + n / 2 = y0 * stride + x0 ∧
          y0 * stride + x0 < s.dest.length) := by
        rintro ⟨-, hj2, -⟩; omega
      have a3 : ¬ (y0 * stride + n = y0 * stride + x0 ∧ y0 * stride + x0 < s.dest.length) := by
        rintro ⟨hj2, -⟩; omega
      rw [if_neg a1, if_neg a2, if_neg a3]
      exact hm
  · -- the other rows keep it
    intro n s hn hne hs hm
    apply Extract_row_keep img _ stride n _ _ s hs _ hm
    intro x hx2
    refine ⟨fun hcon => ?_, fun _ => ⟨by omega, by omega⟩⟩
    exact hne (row_col_unique stride n x y0 x0 (by omega) (by omega) hcon).1

/-- The U byte of chroma position `(cx, cy)` in the output of `Extract`, for even dimensions. -/
theorem Extract_U_byte (img : HdrImage) (stride cx cy : Nat) (hws : img.width ≤ stride)
    (hw : Even img.width) (hh : Even img.height) (hs : Even stride)
    (hx : cx < img.width / 2) (hy : cy < img.height / 2) :
    (Extract img stride).getD (stride * img.height + cy * (stride / 2) + cx) (some 0)
      = extract_chroma (img.P (img.width * img.height + cy * (img.width / 2) + cx))
          (extract_ratio img.dynamic_range) := by
  obtain ⟨c, hc⟩ := hw
  obtain ⟨b, hb⟩ := hh
  obtain ⟨a, ha⟩ := hs
  have ha2 : stride / 2 = a := by omega
  have hb2 : img.height / 2 = b := by omega
  have hc2 : img.width / 2 = c := by omega
  have hc3 : (img.width + 1) / 2 = c := by omega
  have hSH : stride * img.height = 4 * (b * a) := by rw [ha, hb]; ring
  have hq : cy * a + cx < b * a := row_index_lt cy cx a b (by omega) (by omega)
  have hluma : ∀ y x, y < img.height → x < img.width → y * stride + x < stride * img.height := by
    intro y x hy hx
    have := row_index_lt y x stride img.height hy (by omega)
    rw [Nat.mul_comm stride]; exact this
  have hyrow : 2 * cy < img.height := by omega
  rw [ha2, hc2]
  unfold Extract
  apply forLoop_establish (fun y s => ExtractPtrs img stride y 0 s)
    (fun s => s.dest.getD (stride * img.height + cy * a + cx) (some 0)
      = extract_chroma (img.P (img.width * img.height + cy * c + cx))
          (extract_ratio img.dynamic_range))
    _ img.height (2 * cy) hyrow _ (ExtractPtrs_init img stride)
    (fun n s _ hs => Extract_row_ptrs img _ stride n s hs)
  · intro s hs
    show (Extract_row img _ stride (2 * cy) s).dest.getD _ _ = _
    rw [Extract_row_dest]
    have hrow : (2 * cy + 1) / 2 = cy := by omega
    have hev : (2 * cy) % 2 = 0 := by omega
    apply forLoop_establish (fun n s => ExtractPtrs img stride (2 * cy) n s)
      (fun s => s.dest.getD (stride * img.height + cy * a + cx) (some 0)
        = extract_chroma (img.P (img.width * img.height + cy * c + cx))
            (extract_ratio img.dynamic_range))
      _ img.width (2 * cx) (by omega) s hs
      (fun n s _ hs => Extract_pixel_ptrs img _ stride (2 * cy) n s hs)
    · intro s hs
      obtain ⟨h1, h2, h3, h4, -⟩ := hs
      rw [hrow, ha2] at h2 h3
      rw [hrow, hc3, if_pos hev] at h4
      show (Extract_pixel img _ stride (2 * cx) (2 * cy) s).dest.getD _ _ = _
      rw [Extract_pixel_dest]
      have a1 : ¬ (((2 * cx) % 2 = 0 ∧ (2 * cy) % 2 = 0) ∧
          s.dest_v + 2 * cx / 2 = stride * img.height + cy * a + cx ∧
          stride * img.height + cy * a + cx < s.dest.length) := by
        rintro ⟨-, hj2, -⟩; omega
      have a2 : ((2 * cx) % 2 = 0 ∧ (2 * cy) % 2 = 0) ∧
          s.dest_u + 2 * cx / 2 = stride * img.height + cy * a + cx ∧
          stride * img.height + cy * a + cx < s.dest.length := by
        refine ⟨⟨by omega, by omega⟩, by omega, ?_⟩
        rw [h1]; omega
      have e : s.U_ptr = img.width * img.height + cy * c + cx := by omega
      rw [if_neg a1, if_pos a2, e]
    · intro n s hn hne hs hm
      obtain ⟨h1, h2, h3, -, -⟩ := hs
      rw [hrow, ha2] at h2 h3
      show (Extract_pixel img _ stride n (2 * cy) s).dest.getD _ _ = _
      rw [Extract_pixel_dest]
      have := hluma (2 * cy) n hyrow hn
      have a1 : ¬ ((n % 2 = 0 ∧ (2 * cy) % 2 = 0) ∧
          s.dest_v + n / 2 = stride * img.height + cy * a + cx ∧
          stride * img.height + cy * a + cx < s.dest.length) := by
        rintro ⟨-, hj2, -⟩; omega
      have a2 : ¬ ((n % 2 = 0 ∧ (2 * cy) % 2 = 0) ∧
          s.dest_u + n / 2 = stride * img.height + cy * a + cx ∧
          stride * img.height + cy * a + cx < s.dest.length) := by
        rintro ⟨⟨hn2, -⟩, hj2, -⟩; omega
      have a3 : ¬ (2 * cy * stride + n = stride * img.height + cy * a + cx ∧
          stride * img.height + cy * a + cx < s.dest.length) := by
        rintro ⟨hj2, -⟩; omega
      rw [if_neg a1, if_neg a2, if_neg a3]
      exact hm
  · intro n s hn hne hs hm
    apply Extract_row_keep img _ stride n _ _ s hs _ hm
    intro x hx2
    have := hluma n x hn hx2
    refine ⟨by omega, fun hev => ⟨fun hcon => ?_, by omega⟩⟩
    rw [ha2] at hcon
    have hu := row_col_unique a ((n + 1) / 2) (x / 2) cy cx (by omega) (by omega) (by omega)
    omega

/-- The V byte of chroma position `(cx, cy)` in the output of `Extract`, for even dimensions. -/
theorem Extract_V_byte (img : HdrImage) (stride cx cy : Nat) (hws : img.width ≤ stride)
    (hw : Even img.width) (hh : Even img.height) (hs : Even stride)
    (hx : cx < img.width / 2) (hy : cy < img.height / 2) :
    (Extract img stride).getD
        (stride * img.height + stride * img.height / 4 + cy * (stride / 2) + cx) (some 0)
      = extract_chroma
          (img.P (img.width * img.height + img.width * img.height / 4 + cy * (img.width / 2) + cx))
          (extract_ratio img.dynamic_range) := by
  obtain ⟨c, hc⟩ := hw
  obtain ⟨b, hb⟩ := hh
  obtain ⟨a, ha⟩ := hs
  have ha2 : stride / 2 = a := by omega
  have hb2 : img.height / 2 = b := by omega
  have hc2 : img.width / 2 = c := by omega
  have hc3 : (img.width + 1) / 2 = c := by omega
  have hSH : stride * img.height = 4 * (b * a) := by rw [ha, hb]; ring
  have hq : cy * a + cx < b * a := row_index_lt cy cx a b (by omega) (by omega)
  have hluma : ∀ y x, y < img.height → x < img.width → y * stride + x < stride * img.height := by
    intro y x hy hx
    have := row_index_lt y x stride img.height hy (by omega)
    rw [Nat.mul_comm stride]; exact this
  have hyrow : 2 * cy < img.height := by omega
  have hba : a ≤ b * a := Nat.le_mul_of_pos_left a (by omega)
  rw [ha2, hc2]
  unfold Extract
  apply forLoop_establish (fun y s => ExtractPtrs img stride y 0 s)
    (fun s => s.dest.getD (stride * img.height + stride * img.height / 4 + cy * a + cx) (some 0)
      = extract_chroma
          (img.P (img.width * img.height + img.width * img.height / 4 + cy * c + cx))
          (extract_ratio img.dynamic_range))
    _ img.height (2 * cy) hyrow _ (ExtractPtrs_init img stride)
    (fun n s _ hs => Extract_row_ptrs img _ stride n s hs)
  · intro s hs
    show (Extract_row img _ stride (2 * cy) s).dest.getD _ _ = _
    rw [Extract_row_dest]
    have hrow : (2 * cy + 1) / 2 = cy := by omega
    have hev : (2 * cy) % 2 = 0 := by omega
    apply forLoop_establish (fun n s => ExtractPtrs img stride (2 * cy) n s)
      (fun s => s.dest.getD (stride * img.height + stride * img.height / 4 + cy * a + cx) (some 0)
        = extract_chroma
            (img.P (img.width * img.height + img.width * img.height / 4 + cy * c + cx))
            (extract_ratio img.dynamic_range))
      _ img.width (2 * cx) (by omega) s hs
      (fun n s _ hs => Extract_pixel_ptrs img _ stride (2 * cy) n s hs)
    · intro s hs
      obtain ⟨h1, h2, h3, -, h5⟩ := hs
      rw [hrow, ha2] at h2 h3
      rw [hrow, hc3, if_pos hev] at h5
      show (Extract_pixel img _ stride (2 * cx) (2 * cy) s).dest.getD _ _ = _
      rw [Extract_pixel_dest]
      have a1 : ((2 * cx) % 2 = 0 ∧ (2 * cy) % 2 = 0) ∧
          s.dest_v + 2 * cx / 2 = stride * img.height + stride * img.height / 4 + cy * a + cx ∧
          stride * img.height + stride * img.height / 4 + cy * a + cx < s.dest.length := by
        refine ⟨⟨by omega, by omega⟩, by omega, ?_⟩
        rw [h1]; omega
      have e : s.V_ptr = img.width * img.height + img.width * img.height / 4 + cy * c + cx := by
        omega
      rw [if_pos a1, e]
    · intro n s hn hne hs hm
      obtain ⟨h1, h2, h3, -, -⟩ := hs
      rw [hrow, ha2] at h2 h3
      show (Extract_pixel img _ stride n (2 * cy) s).dest.getD _ _ = _
      rw [Extract_pixel_dest]
      have := hluma (2 * cy) n hyrow hn
      have a1 : ¬ ((n % 2 = 0 ∧ (2 * cy) % 2 = 0) ∧
          s.dest_v + n / 2 = stride * img.height + stride * img.height / 4 + cy * a + cx ∧
          stride * img.height + stride * img.height / 4 + cy * a + cx < s.dest.length) := by
        rintro ⟨⟨hn2, -⟩, hj2, -⟩; omega
      have a2 : ¬ ((n % 2 = 0 ∧ (2 * cy) % 2 = 0) ∧
          s.dest_u + n / 2 = stride * img.height + stride * img.height / 4 + cy * a + cx ∧
          stride * img.height + stride * img.height / 4 + cy * a + cx < s.dest.length) := by
        rintro ⟨-, hj2, -⟩; omega
      have a3 : ¬ (2 * cy * stride + n
            = stride * img.height + stride * img.height / 4 + cy * a + cx ∧
          stride * img.height + stride * img.height / 4 + cy * a + cx < s.dest.length) := by
        rintro ⟨hj2, -⟩; omega
      rw [if_neg a1, if_neg a2, if_neg a3]
      exact hm
  · intro n s hn hne hs hm
    apply Extract_row_keep img _ stride n _ _ s hs _ hm
    intro x hx2
    have := hluma n x hn hx2
    refine ⟨by omega, fun hev => ⟨?_, fun hcon => ?_⟩⟩
    · rw [ha2]
      have := row_index_lt ((n + 1) / 2) (x / 2) a b (by omega) (by omega)
      omega
    · rw [ha2] at hcon
      have hu := row_col_unique a ((n + 1) / 2) (x / 2) cy cx (by omega) (by omega) (by omega)
      omega

theorem trunc_intCast {K : Type} [LinearOrderedField K] [FloorRing K] (z : Int) :
    trunc (z : K) = z := by
  unfold trunc
  split_ifs
  · exact Int.floor_intCast z
  · exact Int.ceil_intCast z

/-- Truncation of a non-negative value below an integer bound. -/
theorem trunc_nonneg_lt {K : Type} [LinearOrderedField K] [FloorRing K] (q : K) (n : Int)
    (h0 : 0 ≤ q) (h1 : q < (n : K)) : 0 ≤ trunc q ∧ trunc q < n := by
  unfold trunc
  rw [if_pos h0]
  exact ⟨Int.floor_nonneg.mpr h0, Int.floor_lt.mpr h1⟩

theorem extract_ratio_mul (k : Nat) : extract_ratio (256 * (k : Int)) = (k : ℚ) := by
  unfold extract_ratio
  have : Int.tdiv (256 * (k : Int)) 256 = (k : Int) := by
    rw [Int.tdiv_eq_ediv (by omega) (by omega)]
    omega
  rw [this]
  simp

theorem extract_luma_eq (s : Int) (r : ℚ) (hr : r ≠ 0) :
    extract_luma s r = to_uint8 (trunc ((s : ℚ) / r)) := by
  simp only [extract_luma, div_ratio, if_neg hr, Option.some_bind]

theorem extract_chroma_eq (s : Int) (r : ℚ) (hr : r ≠ 0) :
    extract_chroma s r = some (clamp (trunc ((s : ℚ) / r) + 128) 0 255).toNat := by
  simp only [extract_chroma, div_ratio, if_neg hr, Option.map_some']

/-! ## Extract: range, formula, round trip -/

/-- C5 (the code at the failing inputs).  A 2×2 image with `dynamic_range = 384` whose luma
samples lie in `[0, 383]`: the `int` division makes `ratio = 1`, the quotient of the sample 382
is 382, which no `uint8_t` holds, and the stored byte is undefined.  With `dynamic_range = 128`
the ratio is 0 and every division is a division by zero. -/
theorem Extract_luma_not_in_byte_range :
    (∀ i, i < 4 → 0 ≤ (HdrImage.mk 2 2 [382, 10, 20, 30, 0, 0] 384).P i ∧
      (HdrImage.mk 2 2 [382, 10, 20, 30, 0, 0] 384).P i ≤ 384 - 1) ∧
    extract_ratio 384 = 1 ∧
    div_ratio 382 (extract_ratio 384) = some 382 ∧
    (Extract (HdrImage.mk 2 2 [382, 10, 20, 30, 0, 0] 384) 2).getD 0 (some 0) = none ∧
    extract_ratio 128 = 0 ∧
    Extract (HdrImage.mk 2 2 [100, 10, 20, 30, 0, 0] 128) 2
      = [none, none, none, none, none, none] := by
  decide!

/-- C6: the sample formula of `Extract`.  For an image whose `dynamic_range` is `256 * k` with
`k ≥ 1` (so `r = k`), even `width`, `height` and `stride`, and `width ≤ stride`: the luma byte
of position `(x, y)` is `trunc(s / r)` converted to `uint8_t` for the luma sample `s` (and is
exactly `trunc(s / r)` when `0 ≤ s < dynamic_range`), the U and V bytes of chroma position
`(cx, cy)` are `clamp(trunc(c / r) + 128, 0, 255)` for their chroma sample `c`, and a chroma
sample 0 yields 128. -/
theorem Extract_sample_formula (img : HdrImage) (stride k : Nat) (hk : 1 ≤ k)
    (hdr : img.dynamic_range = 256 * (k : Int)) (hws : img.width ≤ stride)
    (hw : Even img.width) (hh : Even img.height) (hs : Even stride) :
    (∀ x y, x < img.width → y < img.height →
      (Extract img stride).getD (y * stride + x) (some 0)
        = to_uint8 (trunc ((img.P (y * img.width + x) : ℚ) / (k : ℚ))) ∧
      (0 ≤ img.P (y * img.width + x) → img.P (y * img.width + x) < img.dynamic_range →
        (Extract img stride).getD (y * stride + x) (some 0)
          = some (trunc ((img.P (y * img.width + x) : ℚ) / (k : ℚ))).toNat)) ∧
    (∀ cx cy, cx < img.width / 2 → cy < img.height / 2 →
      (Extract img stride).getD (stride * img.height + cy * (stride / 2) + cx) (some 0)
        = some (clamp (trunc ((img.P (img.width * img.height + cy * (img.width / 2) + cx) : ℚ)
            / (k : ℚ)) + 128) 0 255).toNat ∧
      (Extract img stride).getD
          (stride * img.height + stride * img.height / 4 + cy * (stride / 2) + cx) (some 0)
        = some (clamp (trunc ((img.P (img.width * img.height + img.width * img.height / 4
            + cy * (img.width / 2) + cx) : ℚ) / (k : ℚ)) + 128) 0 255).toNat ∧
      (img.P (img.width * img.height + cy * (img.width / 2) + cx) = 0 →
        (Extract img stride).getD (stride * img.height + cy * (stride / 2) + cx) (some 0)
          = some 128) ∧
      (img.P (img.width * img.height + img.width * img.height / 4
            + cy * (img.width / 2) + cx) = 0 →
        (Extract img stride).getD
            (stride * img.height + stride * img.height / 4 + cy * (stride / 2) + cx) (some 0)
          = some 128)) := by
  have hr : extract_ratio img.dynamic_range = (k : ℚ) := by rw [hdr]; exact extract_ratio_mul k
  have hk0 : (k : ℚ) ≠ 0 := by
    have : (0 : ℚ) < (k : ℚ) := by exact_mod_cast hk
    exact ne_of_gt this
  have hkpos : (0 : ℚ) < (k : ℚ) := by exact_mod_cast hk
  refine ⟨fun x y hx hy => ?_, fun cx cy hcx hcy => ?_⟩
  · have hL := Extract_luma_byte img stride x y hws hx hy
    rw [hr, extract_luma_eq _ _ hk0] at hL
    refine ⟨hL, fun h0 h1 => ?_⟩
    rw [hL]
    have hq0 : (0 : ℚ) ≤ (img.P (y * img.width + x) : ℚ) / (k : ℚ) :=
      div_nonneg (by exact_mod_cast h0) (le_of_lt hkpos)
    have hq1 : (img.P (y * img.width + x) : ℚ) / (k : ℚ) < ((256 : Int) : ℚ) := by
      rw [div_lt_iff₀ hkpos]
      have : img.P (y * img.width + x) < 256 * (k : Int) := by rw [← hdr]; exact h1
      exact_mod_cast this
    obtain ⟨t0, t1⟩ := trunc_nonneg_lt _ 256 hq0 hq1
    unfold to_uint8
    rw [if_pos ⟨t0, by omega⟩]
  · have hU := Extract_U_byte img stride cx cy hws hw hh hs hcx hcy
    have hV := Extract_V_byte img stride cx cy hws hw hh hs hcx hcy
    rw [hr, extract_chroma_eq _ _ hk0] at hU hV
    refine ⟨hU, hV, fun h0 => ?_, fun h0 => ?_⟩
    · rw [hU, h0]
      have : trunc (((0 : Int) : ℚ) / (k : ℚ)) = 0 := by
        rw [Int.cast_zero, zero_div]
        have := @trunc_intCast ℚ _ _ 0
        simpa using this
      rw [this]; rfl
    · rw [hV, h0]
      have : trunc (((0 : Int) : ℚ) / (k : ℚ)) = 0 := by
        rw [Int.cast_zero, zero_div]
        have := @trunc_intCast ℚ _ _ 0
        simpa using this
      rw [this]; rfl

/-- Witness of C6: a 2×2 image of range 512 extracted with stride 4. -/
theorem Extract_sample_formula_witness :
    (Extract (HdrImage.mk 2 2 [382, 10, 20, 30, -5, 7] 512) 4).getD (0 * 4 + 0) (some 0)
      = to_uint8 (trunc (((HdrImage.mk 2 2 [382, 10, 20, 30, -5, 7] 512).P (0 * 2 + 0) : ℚ)
          / ((2 : Nat) : ℚ))) :=
  ((Extract_sample_formula (HdrImage.mk 2 2 [382, 10, 20, 30, -5, 7] 512) 4 2
    (by decide) (by decide) (by decide) ⟨1, rfl⟩ ⟨1, rfl⟩ ⟨2, rfl⟩).1 0 0
    (by decide) (by decide)).1

/-- C7 (amended): `Extract` after one `Accumulate` returns a uniform frame on the rows that
`Accumulate` adds.  Starting from a zero-filled image with `dynamic_range` 0 and at least
`width * height` samples, after accumulating once a frame whose every luma byte is `v ≤ 255`,
`Extract(stride)` with `stride ≥ width` yields exactly `v` at `y * stride + x` for every
`x < width` and `y < 2 * (height / 2)` (every luma position when `height` is even). -/
theorem Extract_Accumulate_uniform (w h n stride v : Nat) (frame : Nat → Nat)
    (hv : v ≤ 255) (hws : w ≤ stride) (hn : w * h ≤ n)
    (hframe : ∀ x y, x < w → y < h → byteAt frame (y * stride + x) = (v : Int))
    (x y : Nat) (hx : x < w) (hy : y < 2 * (h / 2)) :
    (Extract (Accumulate (HdrImage.create w h n) frame stride) stride).getD
      (y * stride + x) (some 0) = some v := by
  have hyh : y < h := by omega
  have hL := Extract_luma_byte (Accumulate (HdrImage.create w h n) frame stride) stride x y
    hws hx hyh
  have hlt : y * w + x < h * w := row_index_lt y x w h hyh hx
  have hlen : y * w + x < (HdrImage.create w h n).pixels.length := by
    simp only [HdrImage.create, List.length_replicate]
    rw [Nat.mul_comm h] at hlt; omega
  have hP : (Accumulate (HdrImage.create w h n) frame stride).P (y * w + x) = (v : Int) := by
    have := acc_pixels_luma wrap16 (HdrImage.create w h n) frame stride x y hx hy hlen
    simp only [HdrImage.P, Accumulate_pixels]
    rw [show (HdrImage.create w h n).width = w from rfl] at this
    rw [this, hframe x y hx hyh]
    have h0 : (HdrImage.create w h n).pixels.getD (y * w + x) 0 = 0 := by
      have := (AccRange_create w h n).2.1 (y * w + x)
        (by show y * w + x < w * h; rw [Nat.mul_comm w]; exact hlt)
      simp only [HdrImage.P] at this
      omega
    rw [h0, zero_add]
    exact wrap16_of_range _ (by omega) (by omega)
  have hr : extract_ratio (Accumulate (HdrImage.create w h n) frame stride).dynamic_range = 1 := by
    show extract_ratio (0 + 256) = 1
    decide!
  rw [show (Accumulate (HdrImage.create w h n) frame stride).width = w from rfl, hP, hr,
    extract_luma_eq _ _ one_ne_zero, div_one, trunc_intCast] at hL
  rw [hL]
  unfold to_uint8
  rw [if_pos ⟨by omega, by omega⟩]
  simp

/-- Witness of C7: a 2×2 image and a frame of bytes 200, position `(1, 1)`. -/
theorem Extract_Accumulate_uniform_witness :
    (Extract (Accumulate (HdrImage.create 2 2 6) (fun _ => 200) 2) 2).getD (1 * 2 + 1) (some 0)
      = some 200 :=
  Extract_Accumulate_uniform 2 2 6 2 200 (fun _ => 200) (by decide) (by decide) (by decide)
    (fun _ _ _ _ => rfl) 1 1 (by decide) (by decide)

/-- Counterexample to C7 as stated: `width = 2`, `height = 3`, `stride = 2`, `v = 255`.  The
output byte of luma position `(0, 2)` is 0, not 255: the last row of an image of odd height is
not accumulated. -/
theorem Extract_Accumulate_odd_height :
    (Extract (Accumulate (HdrImage.create 2 3 9) (fun _ => 255) 2) 2).getD (2 * 2 + 0) (some 0)
      = some 0 := by
  decide!

/-! ## LpFilter: the two passes -/

/-- An invariant of every pixel step is an invariant of the forward pass. -/
theorem forward_pass_inv {K : Type} [LinearOrderedField K] [FloorRing K]
    (I : PassState K → Prop) (img : HdrImage) (weights : Nat → K) (threshold : Int → K)
    (width height size : Nat) (strength : K) (st0 : PassState K) (h0 : I st0)
    (hstep : ∀ x y, size ≤ x → x < width → size ≤ y → y < height → ∀ st, I st →
      I (filter_pixel weights threshold strength (fwd_deltas width)
          (img.P (y * width + x)) (y * width + x) st)) :
    I (forward_pass st0 img weights threshold width height size strength) := by
  unfold forward_pass
  apply forLoop_inv (fun _ s => I s) _ (height - size) st0 h0
  intro j s hj hs
  apply forLoop_inv (fun _ s => I s) _ (width - size) s hs
  intro i s2 hi hs2
  exact hstep (size + i) (size + j) (by omega) (by omega) (by omega) (by omega) s2 hs2

/-- A property established by the step of pixel `(x0, y0)` and preserved by the other steps holds
after the forward pass. -/
theorem forward_pass_establish {K : Type} [LinearOrderedField K] [FloorRing K]
    (I M : PassState K → Prop) (img : HdrImage) (weights : Nat → K) (threshold : Int → K)
    (width height size : Nat) (strength : K) (st0 : PassState K) (h0 : I st0)
    (x0 y0 : Nat) (hx0 : size ≤ x0) (hx1 : x0 < width) (hy0 : size ≤ y0) (hy1 : y0 < height)
    (hstep : ∀ x y, size ≤ x → x < width → size ≤ y → y < height → ∀ st, I st →
      I (filter_pixel weights threshold strength (fwd_deltas width)
          (img.P (y * width + x)) (y * width + x) st))
    (hest : ∀ st, I st →
      M (filter_pixel weights threshold strength (fwd_deltas width)
          (img.P (y0 * width + x0)) (y0 * width + x0) st))
    (hpres : ∀ x y, size ≤ x → x < width → size ≤ y → y < height → (x ≠ x0 ∨ y ≠ y0) →
      ∀ st, I st → M st →
      M (filter_pixel weights threshold strength (fwd_deltas width)
          (img.P (y * width + x)) (y * width + x) st)) :
    M (forward_pass st0 img weights threshold width height size strength) := by
  unfold forward_pass
  have hrowI : ∀ j s, j < height - size → I s →
      I (forLoop (fun i st => filter_pixel weights threshold strength (fwd_deltas width)
          (img.P ((size + j) * width + (size + i))) ((size + j) * width + (size + i)) st)
        (width - size) s) := by
    intro j s hj hs
    apply forLoop_inv (fun _ s => I s) _ (width - size) s hs
    intro i s2 hi hs2
    exact hstep (size + i) (size + j) (by omega) (by omega) (by omega) (by omega) s2 hs2
  apply forLoop_establish (fun _ s => I s) M _ (height - size) (y0 - size) (by omega) st0 h0
    (fun j s hj hs => hrowI j s hj hs)
  · intro s hs
    apply forLoop_establish (fun _ s => I s) M _ (width - size) (x0 - size) (by omega) s hs
    · intro i s2 hi hs2
      exact hstep (size + i) (size + (y0 - size)) (by omega) (by omega) (by omega) (by omega)
        s2 hs2
    · intro s2 hs2
      have e1 : size + (y0 - size) = y0 := by omega
      have e2 : size + (x0 - size) = x0 := by omega
      show M (filter_pixel _ _ _ _ _ _ _)
      rw [e1, e2]
      exact hest s2 hs2
    · intro i s2 hi hne hs2 hm
      exact hpres (size + i) (size + (y0 - size)) (by omega) (by omega) (by omega) (by omega)
        (Or.inl (by omega)) s2 hs2 hm
  · intro j s hj hne hs hm
    have := forLoop_inv (fun _ s => I s ∧ M s)
      (fun i st => filter_pixel weights threshold strength (fwd_deltas width)
          (img.P ((size + j) * width + (size + i))) ((size + j) * width + (size + i)) st)
      (width - size) s ⟨hs, hm⟩
      (fun i s2 hi hs2 =>
        ⟨hstep (size + i) (size + j) (by omega) (by omega) (by omega) (by omega) s2 hs2.1,
         hpres (size + i) (size + j) (by omega) (by omega) (by omega) (by omega)
          (Or.inr (by omega)) s2 hs2.1 hs2.2⟩)
    exact this.2

/-- An invariant of every pixel step is an invariant of the reverse pass. -/
theorem reverse_pass_inv {K : Type} [LinearOrderedField K] [FloorRing K]
    (I : PassState K → Prop) (img : HdrImage) (weights : Nat → K) (threshold : Int → K)
    (width height size : Nat) (strength : K) (st0 : PassState K) (h0 : I st0)
    (hstep : ∀ x y, x < width - size → y < height - size → ∀ st, I st →
      I (filter_pixel weights threshold strength (rev_deltas width)
          (img.P (y * width + x)) (y * width + x) st)) :
    I (reverse_pass st0 img weights threshold width height size strength) := by
  unfold reverse_pass
  apply forDown_inv (fun _ s => I s) _ (height - size) st0 h0
  intro y s hy hs
  apply forDown_inv (fun _ s => I s) _ (width - size) s hs
  intro x s2 hx hs2
  exact hstep x y hx hy s2 hs2

/-- A property established by the step of pixel `(x0, y0)` and preserved by the other steps holds
after the reverse pass. -/
theorem reverse_pass_establish {K : Type} [LinearOrderedField K] [FloorRing K]
    (I M : PassState K → Prop) (img : HdrImage) (weights : Nat → K) (threshold : Int → K)
    (width height size : Nat) (strength : K) (st0 : PassState K) (h0 : I st0)
    (x0 y0 : Nat) (hx1 : x0 < width - size) (hy1 : y0 < height - size)
    (hstep : ∀ x y, x < width - size → y < height - size → ∀ st, I st →
      I (filter_pixel weights threshold strength (rev_deltas width)
          (img.P (y * width + x)) (y * width + x) st))
    (hest : ∀ st, I st →
      M (filter_pixel weights threshold strength (rev_deltas width)
          (img.P (y0 * width + x0)) (y0 * width + x0) st))
    (hpres : ∀ x y, x < width - size → y < height - size → (x ≠ x0 ∨ y ≠ y0) →
      ∀ st, I st → M st →
      M (filter_pixel weights threshold strength (rev_deltas width)
          (img.P (y * width + x)) (y * width + x) st)) :
    M (reverse_pass st0 img weights threshold width height size strength) := by
  unfold reverse_pass
  apply forDown_establish (fun _ s => I s) M _ y0 (height - size) st0 hy1 h0
  · intro y s hy hs
    apply forDown_inv (fun _ s => I s) _ (width - size) s hs
    intro x s2 hx hs2
    exact hstep x y hx hy s2 hs2
  · intro s hs
    apply forDown_establish (fun _ s => I s) M _ x0 (width - size) s hx1 hs
    · intro x s2 hx hs2
      exact hstep x y0 hx hy1 s2 hs2
    · intro s2 hs2
      exact hest s2 hs2
    · intro x s2 hx hne hs2 hm
      exact hpres x y0 hx hy1 (Or.inl hne) s2 hs2 hm
  · intro y s hy hne hs hm
    have := forDown_inv (fun _ s => I s ∧ M s)
      (fun x st => filter_pixel weights threshold strength (rev_deltas width)
          (img.P (y * width + x)) (y * width + x) st)
      (width - size) s ⟨hs, hm⟩
      (fun x s2 hx hs2 => ⟨hstep x y hx hy s2 hs2.1,
        hpres x y hx hy (Or.inr hne) s2 hs2.1 hs2.2⟩)
    exact this.2

/-! ## LpFilter: one pixel step -/

theorem neighbour_weight_nonneg {K : Type} [LinearOrderedField K] [FloorRing K]
    (weights : Nat → K) (hw : ∀ d, 0 ≤ weights d) (P pixel thresh : K) :
    0 ≤ neighbour_weight weights P pixel thresh := by
  unfold neighbour_weight
  simp only
  split_ifs
  · exact le_refl 0
  · exact hw _

/-- The weight sum of a pixel is at least `strength`: every neighbour weight is non-negative. -/
theorem neighbour_sums_snd_ge {K : Type} [LinearOrderedField K] [FloorRing K]
    (weights : Nat → K) (hw : ∀ d, 0 ≤ weights d) (thresh strength : K) (deltas : List Int)
    (pixel : Int) (off : Nat) (buf : List K) :
    strength ≤ (neighbour_sums weights thresh strength deltas pixel off buf).2 := by
  unfold neighbour_sums
  have key : ∀ (ds : List Int) (acc : K × K), strength ≤ acc.2 →
      strength ≤ (ds.foldl (fun acc delta =>
        (acc.1 + neighbour_weight weights (buf.getD (Int.toNat ((off : Int) + delta)) 0)
            (pixel : K) thresh * buf.getD (Int.toNat ((off : Int) + delta)) 0,
          acc.2 + neighbour_weight weights (buf.getD (Int.toNat ((off : Int) + delta)) 0)
            (pixel : K) thresh)) acc).2 := by
    intro ds
    induction ds with
    | nil => intro acc h; exact h
    | cons d ds ih =>
      intro acc h
      simp only [List.foldl_cons]
      apply ih
      have := neighbour_weight_nonneg weights hw
        (buf.getD (Int.toNat ((off : Int) + d)) 0) (pixel : K) thresh
      show strength ≤ acc.2 + _
      linarith
  exact key deltas _ (le_refl strength)

theorem filter_pixel_lengths {K : Type} [LinearOrderedField K] [FloorRing K]
    (weights : Nat → K) (threshold : Int → K) (strength : K) (deltas : List Int)
    (pixel : Int) (off : Nat) (st : PassState K) :
    (filter_pixel weights threshold strength deltas pixel off st).pixels.length
      = st.pixels.length ∧
    (filter_pixel weights threshold strength deltas pixel off st).weight_sums.length
      = st.weight_sums.length := by
  simp only [filter_pixel, List.length_set, and_self]

theorem filter_pixel_ws {K : Type} [LinearOrderedField K] [FloorRing K]
    (weights : Nat → K) (threshold : Int → K) (strength : K) (deltas : List Int)
    (pixel : Int) (off : Nat) (st : PassState K) (i : Nat) :
    (filter_pixel weights threshold strength deltas pixel off st).weight_sums.getD i 0
      = if off = i ∧ i < st.weight_sums.length
          then (neighbour_sums weights (threshold pixel) strength deltas pixel off st.pixels).2
          else st.weight_sums.getD i 0 := by
  simp only [filter_pixel, getD_set_eq_gen]

theorem filter_pixel_px {K : Type} [LinearOrderedField K] [FloorRing K]
    (weights : Nat → K) (threshold : Int → K) (strength : K) (deltas : List Int)
    (pixel : Int) (off : Nat) (st : PassState K) (i : Nat) :
    (filter_pixel weights threshold strength deltas pixel off st).pixels.getD i 0
      = if off = i ∧ i < st.pixels.length
          then (neighbour_sums weights (threshold pixel) strength deltas pixel off st.pixels).1
            / (neighbour_sums weights (threshold pixel) strength deltas pixel off st.pixels).2
          else st.pixels.getD i 0 := by
  simp only [filter_pixel, getD_set_eq_gen]

theorem PassLen_init (K : Type) [LinearOrderedField K] (n : Nat) :
    PassLen n (PassState.init K n) := by
  simp [PassLen, PassState.init]

theorem PassLen_step {K : Type} [LinearOrderedField K] [FloorRing K]
    (weights : Nat → K) (threshold : Int → K) (strength : K) (deltas : List Int)
    (pixel : Int) (off n : Nat) (st : PassState K) (h : PassLen n st) :
    PassLen n (filter_pixel weights threshold strength deltas pixel off st) := by
  obtain ⟨h1, h2⟩ := filter_pixel_lengths weights threshold strength deltas pixel off st
  exact ⟨by rw [h1]; exact h.1, by rw [h2]; exact h.2⟩

/-- The step of pixel `off0` makes its weight sum at least `strength`, and no step undoes it. -/
theorem filter_pixel_ws_ge {K : Type} [LinearOrderedField K] [FloorRing K]
    (weights : Nat → K) (hw : ∀ d, 0 ≤ weights d) (threshold : Int → K) (strength : K)
    (deltas : List Int) (pixel : Int) (off off0 n : Nat) (st : PassState K)
    (hlen : PassLen n st) (h0 : off0 < n)
    (h : off = off0 ∨ strength ≤ st.weight_sums.getD off0 0) :
    strength ≤ (filter_pixel weights threshold strength deltas pixel off st).weight_sums.getD
      off0 0 := by
  rw [filter_pixel_ws]
  by_cases hc : off = off0 ∧ off0 < st.weight_sums.length
  · rw [if_pos hc]
    exact neighbour_sums_snd_ge weights hw _ strength deltas pixel off st.pixels
  · rw [if_neg hc]
    rcases h with h | h
    · exfalso; apply hc; exact ⟨h, by rw [hlen.2]; exact h0⟩
    · exact h

/-- After the forward pass the weight sum of every pixel it visits is at least `strength`. -/
theorem forward_pass_ws_ge {K : Type} [LinearOrderedField K] [FloorRing K]
    (img : HdrImage) (weights : Nat → K) (hw : ∀ d, 0 ≤ weights d) (config : LpFilterConfig K)
    (x y : Nat) (hx0 : 1 ≤ x) (hx1 : x < img.width) (hy0 : 1 ≤ y) (hy1 : y < img.height) :
    config.strength ≤ (LpFilter_fwd img weights config).weight_sums.getD (y * img.width + x) 0 := by
  have hoff : y * img.width + x < img.width * img.height := by
    rw [Nat.mul_comm img.width]; exact row_index_lt y x img.width img.height hy1 hx1
  unfold LpFilter_fwd
  apply forward_pass_establish (PassLen (img.width * img.height))
    (fun st => config.strength ≤ st.weight_sums.getD (y * img.width + x) 0)
    img weights config.threshold img.width img.height 1 config.strength _
    (PassLen_init K _) x y hx0 hx1 hy0 hy1
  · intro x2 y2 _ _ _ _ st hst
    exact PassLen_step _ _ _ _ _ _ _ st hst
  · intro st hst
    exact filter_pixel_ws_ge weights hw _ _ _ _ _ _ _ st hst hoff (Or.inl rfl)
  · intro x2 y2 _ _ _ _ _ st hst hm
    exact filter_pixel_ws_ge weights hw _ _ _ _ _ _ _ st hst hoff (Or.inr hm)

/-- After the reverse pass the weight sum of every pixel it visits is at least `strength`. -/
theorem reverse_pass_ws_ge {K : Type} [LinearOrderedField K] [FloorRing K]
    (img : HdrImage) (weights : Nat → K) (hw : ∀ d, 0 ≤ weights d) (config : LpFilterConfig K)
    (x y : Nat) (hx1 : x + 1 < img.width) (hy1 : y + 1 < img.height) :
    config.strength ≤ (LpFilter_rev img weights config).weight_sums.getD (y * img.width + x) 0 := by
  have hoff : y * img.width + x < img.width * img.height := by
    rw [Nat.mul_comm img.width]
    exact row_index_lt y x img.width img.height (by omega) (by omega)
  unfold LpFilter_rev
  apply reverse_pass_establish (PassLen (img.width * img.height))
    (fun st => config.strength ≤ st.weight_sums.getD (y * img.width + x) 0)
    img weights config.threshold img.width img.height 1 config.strength _
    (PassLen_init K _) x y (by omega) (by omega)
  · intro x2 y2 _ _ st hst
    exact PassLen_step _ _ _ _ _ _ _ st hst
  · intro st hst
    exact filter_pixel_ws_ge weights hw _ _ _ _ _ _ _ st hst hoff (Or.inl rfl)
  · intro x2 y2 _ _ _ st hst hm
    exact filter_pixel_ws_ge weights hw _ _ _ _ _ _ _ st hst hoff (Or.inr hm)

/-- C8: the combine step of `LpFilter` does not divide by zero on the interior.  For every image
with `width ≥ 3` and `height ≥ 3`, every `strength > 0`, every threshold table and every
non-negative weight table (as `exp(-d²/100)` is), at every interior pixel
(`1 ≤ x ≤ width - 2`, `1 ≤ y ≤ height - 2`) each pass contributes a weight sum of at least
`strength`, and the denominator `fwd_weight_sums + rev_weight_sums` is strictly positive. -/
theorem LpFilter_interior_denominator_pos {K : Type} [LinearOrderedField K] [FloorRing K]
    (img : HdrImage) (weights : Nat → K) (config : LpFilterConfig K)
    (hw : ∀ d, 0 ≤ weights d) (hs : 0 < config.strength)
    (hW : 3 ≤ img.width) (hH : 3 ≤ img.height) (x y : Nat)
    (hx0 : 1 ≤ x) (hx1 : x ≤ img.width - 2) (hy0 : 1 ≤ y) (hy1 : y ≤ img.height - 2) :
    config.strength ≤ (LpFilter_fwd img weights config).weight_sums.getD (y * img.width + x) 0 ∧
    config.strength ≤ (LpFilter_rev img weights config).weight_sums.getD (y * img.width + x) 0 ∧
    0 < combine_denominator (LpFilter_fwd img weights config) (LpFilter_rev img weights config)
          (y * img.width + x) := by
  have h1 := forward_pass_ws_ge img weights hw config x y hx0 (by omega) hy0 (by omega)
  have h2 := reverse_pass_ws_ge img weights hw config x y (by omega) (by omega)
  refine ⟨h1, h2, ?_⟩
  unfold combine_denominator
  linarith

/-- Witness of C8: the centre of a 3×3 image. -/
theorem LpFilter_interior_denominator_pos_witness :
    0 < combine_denominator
          (LpFilter_fwd (HdrImage.mk 3 3 (List.replicate 13 100) 256) weights_approx
            { strength := 1 / 5, threshold := fun _ => 10 })
          (LpFilter_rev (HdrImage.mk 3 3 (List.replicate 13 100) 256) weights_approx
            { strength := 1 / 5, threshold := fun _ => 10 })
          (1 * 3 + 1) :=
  (LpFilter_interior_denominator_pos (HdrImage.mk 3 3 (List.replicate 13 100) 256)
    weights_approx { strength := 1 / 5, threshold := fun _ => 10 }
    (fun d => by unfold weights_approx; positivity) (by norm_num)
    (by decide) (by decide) 1 1 (by decide) (by decide) (by decide) (by decide)).2.2

theorem getD_replicate_same {α : Type} (n i : Nat) (a : α) :
    (List.replicate n a).getD i a = a := by
  rw [List.getD_eq_getElem?_getD]
  by_cases h : i < n
  · rw [List.getElem?_eq_getElem (by simpa using h)]
    simp
  · rw [List.getElem?_eq_none (by simpa using h)]
    rfl

/-- The forward pass never writes row 0 or column 0; the reverse pass never writes the last row
or the last column. -/
theorem pass_border_untouched {K : Type} [LinearOrderedField K] [FloorRing K]
    (img : HdrImage) (weights : Nat → K) (config : LpFilterConfig K)
    (x y : Nat) (hx : x < img.width) :
    ((x = 0 ∨ y = 0) →
      (LpFilter_fwd img weights config).pixels.getD (y * img.width + x) 0 = 0 ∧
      (LpFilter_fwd img weights config).weight_sums.getD (y * img.width + x) 0 = 0) ∧
    ((x + 1 = img.width ∨ y + 1 = img.height) →
      (LpFilter_rev img weights config).pixels.getD (y * img.width + x) 0 = 0 ∧
      (LpFilter_rev img weights config).weight_sums.getD (y * img.width + x) 0 = 0) := by
  constructor
  · intro hb
    unfold LpFilter_fwd
    apply forward_pass_inv
      (fun st => st.pixels.getD (y * img.width + x) 0 = 0 ∧
        st.weight_sums.getD (y * img.width + x) 0 = 0)
    · exact ⟨getD_replicate_same _ _ _, getD_replicate_same _ _ _⟩
    · intro x2 y2 hx2 hx3 hy2 _ st hst
      have hne : ¬ (y2 * img.width + x2 = y * img.width + x) := by
        intro hcon
        have := row_col_unique img.width y2 x2 y x hx3 hx hcon
        omega
      rw [filter_pixel_px, filter_pixel_ws, if_neg (fun h => hne h.1), if_neg (fun h => hne h.1)]
      exact hst
  · intro hb
    unfold LpFilter_rev
    apply reverse_pass_inv
      (fun st => st.pixels.getD (y * img.width + x) 0 = 0 ∧
        st.weight_sums.getD (y * img.width + x) 0 = 0)
    · exact ⟨getD_replicate_same _ _ _, getD_replicate_same _ _ _⟩
    · intro x2 y2 hx2 hy2 st hst
      have hne : ¬ (y2 * img.width + x2 = y * img.width + x) := by
        intro hcon
        have := row_col_unique img.width y2 x2 y x (by omega) hx hcon
        omega
      rw [filter_pixel_px, filter_pixel_ws, if_neg (fun h => hne h.1), if_neg (fun h => hne h.1)]
      exact hst

/-- C9 (amended): each pass of `LpFilter` leaves its own leading border at the zero initial
value.  For every image and configuration and every pixel `(x, y)` of the image: if `x = 0` or
`y = 0`, the entries of `fwd_pixels` and `fwd_weight_sums` at `y * width + x` are 0 after the
forward pass; if `x = width - 1` or `y = height - 1`, the entries of `rev_pixels` and
`rev_weight_sums` are 0 after the reverse pass. -/
theorem LpFilter_pass_border_zero {K : Type} [LinearOrderedField K] [FloorRing K]
    (img : HdrImage) (weights : Nat → K) (config : LpFilterConfig K)
    (x y : Nat) (hx : x < img.width) (hy : y < img.height) :
    ((x = 0 ∨ y = 0) →
      (LpFilter_fwd img weights config).pixels.getD (y * img.width + x) 0 = 0 ∧
      (LpFilter_fwd img weights config).weight_sums.getD (y * img.width + x) 0 = 0) ∧
    ((x = img.width - 1 ∨ y = img.height - 1) →
      (LpFilter_rev img weights config).pixels.getD (y * img.width + x) 0 = 0 ∧
      (LpFilter_rev img weights config).weight_sums.getD (y * img.width + x) 0 = 0) := by
  obtain ⟨h1, h2⟩ := pass_border_untouched img weights config x y hx
  exact ⟨h1, fun hb => h2 (by omega)⟩

/-- Witness of C9: the top-left pixel of a 3×3 image. -/
theorem LpFilter_pass_border_zero_witness :
    (LpFilter_fwd (HdrImage.mk 3 3 (List.replicate 13 100) 256) weights_approx
        { strength := 1 / 5, threshold := fun _ => 1 }).pixels.getD (0 * 3 + 0) 0 = 0 ∧
    (LpFilter_fwd (HdrImage.mk 3 3 (List.replicate 13 100) 256) weights_approx
        { strength := 1 / 5, threshold := fun _ => 1 }).weight_sums.getD (0 * 3 + 0) 0 = 0 :=
  (LpFilter_pass_border_zero (HdrImage.mk 3 3 (List.replicate 13 100) 256) weights_approx
    { strength := 1 / 5, threshold := fun _ => 1 } 0 0 (by decide) (by decide)).1 (Or.inl rfl)

/-- Counterexample to C9 as stated: a 3×3 image with every sample 100, `strength = 1/5` and a
threshold table of constant value 1.  The returned sample of the border pixel `(0, 0)` is 100,
not 0: the forward pass leaves it at zero with weight sum zero, so the combine step returns the
value of the reverse pass. -/
theorem LpFilter_border_not_zero :
    (LpFilter (HdrImage.mk 3 3 (List.replicate 13 100) 256) weights_approx
        { strength := 1 / 5, threshold := fun _ => 1 }).P (0 * 3 + 0) = some 100 := by
  decide!

/-! ## LpFilter in `double` arithmetic: the loops -/

/-- The weight sums of a pass are never negative. -/
theorem filter_pixel_ws_nonneg {K : Type} [LinearOrderedField K] [FloorRing K]
    (weights : Nat → K) (hw : ∀ d, 0 ≤ weights d) (threshold : Int → K) (strength : K)
    (hs : 0 < strength) (deltas : List Int) (pixel : Int) (off : Nat) (st : PassState K)
    (h : ∀ i, 0 ≤ st.weight_sums.getD i 0) (i : Nat) :
    0 ≤ (filter_pixel weights threshold strength deltas pixel off st).weight_sums.getD i 0 := by
  rw [filter_pixel_ws]
  by_cases hc : off = i ∧ i < st.weight_sums.length
  · rw [if_pos hc]
    exact le_trans (le_of_lt hs)
      (neighbour_sums_snd_ge weights hw _ strength deltas pixel off st.pixels)
  · rw [if_neg hc]; exact h i

theorem pass_ws_nonneg {K : Type} [LinearOrderedField K] [FloorRing K]
    (img : HdrImage) (weights : Nat → K) (hw : ∀ d, 0 ≤ weights d) (config : LpFilterConfig K)
    (hs : 0 < config.strength) (i : Nat) :
    0 ≤ (LpFilter_fwd img weights config).weight_sums.getD i 0 ∧
    0 ≤ (LpFilter_rev img weights config).weight_sums.getD i 0 := by
  have h0 : ∀ i, (0 : K) ≤ (PassState.init K (img.width * img.height)).weight_sums.getD i 0 := by
    intro i
    show (0 : K) ≤ (List.replicate _ 0).getD i 0
    rw [getD_replicate_same]
  constructor
  · unfold LpFilter_fwd
    exact forward_pass_inv (fun st => ∀ i, 0 ≤ st.weight_sums.getD i 0) img weights
      config.threshold img.width img.height 1 config.strength _ h0
      (fun x y _ _ _ _ st hst i =>
        filter_pixel_ws_nonneg weights hw _ _ hs _ _ _ st hst i) i
  · unfold LpFilter_rev
    exact reverse_pass_inv (fun st => ∀ i, 0 ≤ st.weight_sums.getD i 0) img weights
      config.threshold img.width img.height 1 config.strength _ h0
      (fun x y _ _ st hst i =>
        filter_pixel_ws_nonneg weights hw _ _ hs _ _ _ st hst i) i

/-- C20: where the combine denominator of `LpFilter` vanishes.  For every image with
`width ≥ 2` and `height ≥ 2`, every `strength > 0` (and a non-negative weight table, as
`exp(-d²/100)` is), at a pixel `(x, y)` of the image the denominator
`fwd_weight_sums + rev_weight_sums` is zero exactly when the pixel is the top-right corner
`(width - 1, 0)` or the bottom-left corner `(0, height - 1)`; there both passes have left
their entries at the zero initial value (neither visits the pixel); at every other pixel the
denominator is strictly positive. -/
theorem LpFilter_denominator_zero_corners {K : Type} [LinearOrderedField K] [FloorRing K]
    (img : HdrImage) (weights : Nat → K) (config : LpFilterConfig K)
    (hw : ∀ d, 0 ≤ weights d) (hs : 0 < config.strength)
    (hW : 2 ≤ img.width) (hH : 2 ≤ img.height)
    (x y : Nat) (hx : x < img.width) (hy : y < img.height) :
    (combine_denominator (LpFilter_fwd img weights config) (LpFilter_rev img weights config)
        (y * img.width + x) = 0
      ↔ (x = img.width - 1 ∧ y = 0) ∨ (x = 0 ∧ y = img.height - 1)) ∧
    ((x = img.width - 1 ∧ y = 0) ∨ (x = 0 ∧ y = img.height - 1) →
      (LpFilter_fwd img weights config).pixels.getD (y * img.width + x) 0 = 0 ∧
      (LpFilter_fwd img weights config).weight_sums.getD (y * img.width + x) 0 = 0 ∧
      (LpFilter_rev img weights config).pixels.getD (y * img.width + x) 0 = 0 ∧
      (LpFilter_rev img weights config).weight_sums.getD (y * img.width + x) 0 = 0) ∧
    (¬ ((x = img.width - 1 ∧ y = 0) ∨ (x = 0 ∧ y = img.height - 1)) →
      0 < combine_denominator (LpFilter_fwd img weights config)
            (LpFilter_rev img weights config) (y * img.width + x)) := by
  obtain ⟨hbf, hbr⟩ := pass_border_untouched img weights config x y hx
  obtain ⟨hnf, hnr⟩ := pass_ws_nonneg img weights hw config hs (y * img.width + x)
  have hcorner : (x = img.width - 1 ∧ y = 0) ∨ (x = 0 ∧ y = img.height - 1) →
      (LpFilter_fwd img weights config).pixels.getD (y * img.width + x) 0 = 0 ∧
      (LpFilter_fwd img weights config).weight_sums.getD (y * img.width + x) 0 = 0 ∧
      (LpFilter_rev img weights config).pixels.getD (y * img.width + x) 0 = 0 ∧
      (LpFilter_rev img weights config).weight_sums.getD (y * img.width + x) 0 = 0 := by
    intro hc
    have h1 := hbf (by omega)
    have h2 := hbr (by omega)
    exact ⟨h1.1, h1.2, h2.1, h2.2⟩
  have hpos : ¬ ((x = img.width - 1 ∧ y = 0) ∨ (x = 0 ∧ y = img.height - 1)) →
      0 < combine_denominator (LpFilter_fwd img weights config)
            (LpFilter_rev img weights config) (y * img.width + x) := by
    intro hc
    unfold combine_denominator
    by_cases hv : 1 ≤ x ∧ 1 ≤ y
    · have := forward_pass_ws_ge img weights hw config x y hv.1 hx hv.2 hy
      linarith
    · have := reverse_pass_ws_ge img weights hw config x y (by omega) (by omega)
      linarith
  refine ⟨⟨fun h0 => ?_, fun hc => ?_⟩, hcorner, hpos⟩
  · by_contra hc
    exact absurd h0 (ne_of_gt (hpos hc))
  · obtain ⟨-, h2, -, h4⟩ := hcorner hc
    unfold combine_denominator
    rw [h2, h4, add_zero]

/-- Witness of C20: the top-right corner of a 3×3 image. -/
theorem LpFilter_denominator_zero_corners_witness :
    combine_denominator
        (LpFilter_fwd (HdrImage.mk 3 3 (List.replicate 13 100) 256) weights_approx
          { strength := 1 / 5, threshold := fun _ => 10 })
        (LpFilter_rev (HdrImage.mk 3 3 (List.replicate 13 100) 256) weights_approx
          { strength := 1 / 5, threshold := fun _ => 10 })
        (0 * 3 + 2) = 0 :=
  (LpFilter_denominator_zero_corners (HdrImage.mk 3 3 (List.replicate 13 100) 256)
    weights_approx { strength := 1 / 5, threshold := fun _ => 10 }
    (fun d => by unfold weights_approx; positivity) (by norm_num)
    (by decide) (by decide) 2 0 (by decide) (by decide)).1.mpr (Or.inl ⟨rfl, rfl⟩)

/-! ## LpFilter in `double` arithmetic: a step edge -/

/-- At the boundary value 31 of the threshold condition the edge is not isolated: in a 4×3 image
with left half 0 and right half 217, the threshold 70 (`217 * 10 / 70 = 31`), the `double`
nearest to 0.7 as strength and the table of `exp(-d²/100)`, the value of the reverse pass at the
pixel `(2, 1)` right of the edge is a little below 217, its quantised distance from 0 is 30, and
it enters the average of the pixel `(1, 1)` left of the edge with the weight `weights[30]`: that
entry of the reverse pass is not 0. -/
theorem LpFilter_step_edge_boundary :
    (LpFilter_rev_fl (HdrImage.mk 4 3 [0, 0, 217, 217, 0, 0, 217, 217, 0, 0, 217, 217,
          0, 0, 0, 0, 0, 0] 256)
        weights_double { strength := fl64 (7 / 10), threshold := fun _ => 70 }).pixels.getD
        (1 * 4 + (4 / 2 - 1)) 0 ≠ 0 ∧
    (217 : ℚ) * 10 / 70 = 31 := by
  decide!

/-! ## Accumulate: order of frames, order of loops -/

/-- What `add_plane` does at index `i` depends on the sample at `i` alone: nothing, or the
addition of a contribution that is fixed by the frame and the shape of the plane. -/
theorem add_plane_uniform (bias : Int) (frame : Nat → Nat) (d s w stride h len i : Nat) :
    ∃ c : Option Int, (c ≠ none → d ≤ i ∧ i < d + h * w ∧ i < len) ∧
      ∀ (conv : Int → Int) (px : List Int), px.length = len →
        (add_plane conv bias frame d s w stride h px).getD i 0
          = apply_delta conv c (px.getD i 0) := by
  by_cases hin : (d ≤ i ∧ i < d + h * w) ∧ i < len
  · obtain ⟨y, x, hy, hx, rfl⟩ := plane_index_decomp d w h i hin.1.1 hin.1.2
    refine ⟨some (byteAt frame (s + y * stride + x) - bias), fun _ => ⟨hin.1.1, hin.1.2, hin.2⟩,
      fun conv px hpx => ?_⟩
    exact add_plane_getD_in conv bias frame d s w stride h px y x hy hx (by omega)
  · refine ⟨none, fun h => absurd rfl h, fun conv px hpx => ?_⟩
    show _ = px.getD i 0
    by_cases hlen : i < len
    · exact add_plane_getD_out conv bias frame d s w stride h px i (by omega)
    · rw [List.getD_eq_default _ _ (by rw [add_plane_length]; omega),
        List.getD_eq_default _ _ (by omega)]

/-- Two loop nests over disjoint index ranges commute. -/
theorem add_plane_comm (conv : Int → Int) (bias1 bias2 : Int) (frame1 frame2 : Nat → Nat)
    (d1 s1 w1 stride1 h1 d2 s2 w2 stride2 h2 : Nat)
    (hdisj : d1 + h1 * w1 ≤ d2 ∨ d2 + h2 * w2 ≤ d1) (px : List Int) :
    add_plane conv bias1 frame1 d1 s1 w1 stride1 h1
        (add_plane conv bias2 frame2 d2 s2 w2 stride2 h2 px)
      = add_plane conv bias2 frame2 d2 s2 w2 stride2 h2
        (add_plane conv bias1 frame1 d1 s1 w1 stride1 h1 px) := by
  apply list_eq_of_getD
  · simp only [add_plane_length]
  · intro i
    obtain ⟨c1, hc1, e1⟩ := add_plane_uniform bias1 frame1 d1 s1 w1 stride1 h1 px.length i
    obtain ⟨c2, hc2, e2⟩ := add_plane_uniform bias2 frame2 d2 s2 w2 stride2 h2 px.length i
    rw [e1 conv _ (add_plane_length _ _ _ _ _ _ _ _ _), e2 conv px rfl,
      e2 conv _ (add_plane_length _ _ _ _ _ _ _ _ _), e1 conv px rfl]
    cases c1 with
    | none => rfl
    | some v1 =>
      cases c2 with
      | none => rfl
      | some v2 =>
        exfalso
        have a1 := hc1 (by simp)
        have a2 := hc2 (by simp)
        omega

theorem luma_ranges_below_chroma (w h : Nat) :
    w * (h / 2) + h / 2 * w ≤ w * h := by
  have hh : 2 * (h / 2) ≤ h := by omega
  calc w * (h / 2) + h / 2 * w = w * (2 * (h / 2)) := by ring
    _ ≤ w * h := Nat.mul_le_mul_left _ hh

/-- What one accumulation does at index `i` depends on the sample at `i` alone, for all images
of the same shape. -/
theorem acc_pixels_uniform (w h len : Nat) (frame : Nat → Nat) (stride i : Nat) :
    ∃ c : Option Int, ∀ (conv : Int → Int) (img : HdrImage),
      img.width = w → img.height = h → img.pixels.length = len →
      (acc_pixels conv img frame stride).getD i 0 = apply_delta conv c (img.pixels.getD i 0) := by
  obtain ⟨c1, hc1, e1⟩ := add_plane_uniform 0 frame 0 0 w stride (h / 2) len i
  obtain ⟨c2, hc2, e2⟩ := add_plane_uniform 0 frame (w * (h / 2)) (stride * (h / 2)) w stride
    (h / 2) len i
  obtain ⟨c3, hc3, e3⟩ := add_plane_uniform 128 frame (w * h) (stride * h) (w / 2) (stride / 2)
    h len i
  have hb := luma_ranges_below_chroma w h
  have hcm : h / 2 * w = w * (h / 2) := Nat.mul_comm _ _
  have key : ∀ (conv : Int → Int) (img : HdrImage),
      img.width = w → img.height = h → img.pixels.length = len →
      (acc_pixels conv img frame stride).getD i 0
        = apply_delta conv c3 (apply_delta conv c2 (apply_delta conv c1 (img.pixels.getD i 0))) := by
    intro conv img hw hh hl
    unfold acc_pixels
    rw [hw, hh, e3 conv _ (by rw [add_plane_length, add_plane_length]; exact hl),
      e2 conv _ (by rw [add_plane_length]; exact hl), e1 conv _ hl]
  cases c1 with
  | some v1 =>
    have a1 := hc1 (by simp)
    have n2 : c2 = none := by
      by_contra hn; have := hc2 hn; omega
    have n3 : c3 = none := by
      by_contra hn; have := hc3 hn; omega
    exact ⟨some v1, fun conv img hw hh hl => by rw [key conv img hw hh hl, n2, n3]; rfl⟩
  | none =>
    cases c2 with
    | some v2 =>
      have a2 := hc2 (by simp)
      have n3 : c3 = none := by
        by_contra hn; have := hc3 hn; omega
      exact ⟨some v2, fun conv img hw hh hl => by rw [key conv img hw hh hl, n3]; rfl⟩
    | none =>
      exact ⟨c3, fun conv img hw hh hl => by rw [key conv img hw hh hl]; rfl⟩

theorem wrap16_add_comm (p a b : Int) :
    wrap16 (wrap16 (p + a) + b) = wrap16 (wrap16 (p + b) + a) := by
  unfold wrap16; omega

/-- C16: `Accumulate` is order-independent.  For every image and every two frames `A` and `B`
accumulated with the same stride, accumulating `A` then `B` yields the same image (the same
samples, computed with 16-bit wrap-around, the same `dynamic_range`, width and height) as
accumulating `B` then `A`. -/
theorem Accumulate_order_independent (img : HdrImage) (A B : Nat → Nat) (stride : Nat) :
    Accumulate (Accumulate img A stride) B stride
      = Accumulate (Accumulate img B stride) A stride := by
  have hpx : (Accumulate (Accumulate img A stride) B stride).pixels
      = (Accumulate (Accumulate img B stride) A stride).pixels := by
    rw [Accumulate_pixels, Accumulate_pixels]
    apply list_eq_of_getD
    · rw [acc_pixels_length, acc_pixels_length, Accumulate_pixels, Accumulate_pixels,
        acc_pixels_length, acc_pixels_length]
    · intro i
      obtain ⟨cA, eA⟩ := acc_pixels_uniform img.width img.height img.pixels.length A stride i
      obtain ⟨cB, eB⟩ := acc_pixels_uniform img.width img.height img.pixels.length B stride i
      have lA : (Accumulate img A stride).pixels.length = img.pixels.length := by
        rw [Accumulate_pixels, acc_pixels_length]
      have lB : (Accumulate img B stride).pixels.length = img.pixels.length := by
        rw [Accumulate_pixels, acc_pixels_length]
      rw [eB wrap16 (Accumulate img A stride) rfl rfl lA,
        eA wrap16 (Accumulate img B stride) rfl rfl lB,
        Accumulate_pixels, Accumulate_pixels, eA wrap16 img rfl rfl rfl,
        eB wrap16 img rfl rfl rfl]
      cases cA with
      | none => rfl
      | some a =>
        cases cB with
        | none => rfl
        | some b => exact wrap16_add_comm _ a b
  have e1 : Accumulate (Accumulate img A stride) B stride
      = { img with pixels := (Accumulate (Accumulate img A stride) B stride).pixels,
                   dynamic_range := img.dynamic_range + 256 + 256 } := rfl
  have e2 : Accumulate (Accumulate img B stride) A stride
      = { img with pixels := (Accumulate (Accumulate img B stride) A stride).pixels,
                   dynamic_range := img.dynamic_range + 256 + 256 } := rfl
  rw [e1, e2, hpx]

/-- C19: the three loops of `Accumulate` have no data dependency.  For every width and height,
the index ranges written by the first luma worker `[0, width*(height/2))`, by the second luma
worker `[width*(height/2), 2*width*(height/2))` and by the chroma loop
`[width*height, width*height + (width/2)*height)` are pairwise disjoint and lie within
`width*height*3/2` samples; each loop leaves every sample outside its range unchanged; and the
result of `Accumulate` equals the three loops run one after the other in any of the six
orders. -/
theorem Accumulate_workers_independent (img : HdrImage) (frame : Nat → Nat) (stride : Nat) :
    (2 * img.width * (img.height / 2) ≤ img.width * img.height ∧
     img.width * img.height + img.width / 2 * img.height ≤ img.width * img.height * 3 / 2) ∧
    (∀ i, ¬ (i < img.width * (img.height / 2) ∧
          (img.width * (img.height / 2) ≤ i ∧ i < 2 * img.width * (img.height / 2))) ∧
        ¬ (i < img.width * (img.height / 2) ∧
          (img.width * img.height ≤ i ∧
            i < img.width * img.height + img.width / 2 * img.height)) ∧
        ¬ ((img.width * (img.height / 2) ≤ i ∧ i < 2 * img.width * (img.height / 2)) ∧
          (img.width * img.height ≤ i ∧
            i < img.width * img.height + img.width / 2 * img.height))) ∧
    (∀ (px : List Int) (i : Nat),
      (¬ i < img.width * (img.height / 2) →
        (add_Y_pixels frame 0 0 img.width stride (img.height / 2) px).getD i 0 = px.getD i 0) ∧
      (¬ (img.width * (img.height / 2) ≤ i ∧ i < 2 * img.width * (img.height / 2)) →
        (add_Y_pixels frame (img.width * (img.height / 2)) (stride * (img.height / 2))
          img.width stride (img.height / 2) px).getD i 0 = px.getD i 0) ∧
      (¬ (img.width * img.height ≤ i ∧
          i < img.width * img.height + img.width / 2 * img.height) →
        (add_UV_pixels frame (img.width * img.height) (stride * img.height)
          (img.width / 2) (stride / 2) img.height px).getD i 0 = px.getD i 0)) ∧
    (Accumulate img frame stride).pixels
      = add_UV_pixels frame (img.width * img.height) (stride * img.height)
          (img.width / 2) (stride / 2) img.height
          (add_Y_pixels frame 0 0 img.width stride (img.height / 2)
            (add_Y_pixels frame (img.width * (img.height / 2)) (stride * (img.height / 2))
              img.width stride (img.height / 2) img.pixels)) ∧
    (Accumulate img frame stride).pixels
      = add_Y_pixels frame (img.width * (img.height / 2)) (stride * (img.height / 2))
          img.width stride (img.height / 2)
          (add_UV_pixels frame (img.width * img.height) (stride * img.height)
            (img.width / 2) (stride / 2) img.height
            (add_Y_pixels frame 0 0 img.width stride (img.height / 2) img.pixels)) ∧
    (Accumulate img frame stride).pixels
      = add_Y_pixels frame (img.width * (img.height / 2)) (stride * (img.height / 2))
          img.width stride (img.height / 2)
          (add_Y_pixels frame 0 0 img.width stride (img.height / 2)
            (add_UV_pixels frame (img.width * img.height) (stride * img.height)
              (img.width / 2) (stride / 2) img.height img.pixels)) ∧
    (Accumulate img frame stride).pixels
      = add_Y_pixels frame 0 0 img.width stride (img.height / 2)
          (add_UV_pixels frame (img.width * img.height) (stride * img.height)
            (img.width / 2) (stride / 2) img.height
            (add_Y_pixels frame (img.width * (img.height / 2)) (stride * (img.height / 2))
              img.width stride (img.height / 2) img.pixels)) ∧
    (Accumulate img frame stride).pixels
      = add_Y_pixels frame 0 0 img.width stride (img.height / 2)
          (add_Y_pixels frame (img.width * (img.height / 2)) (stride * (img.height / 2))
            img.width stride (img.height / 2)
            (add_UV_pixels frame (img.width * img.height) (stride * img.height)
              (img.width / 2) (stride / 2) img.height img.pixels)) := by
  have hb := luma_ranges_below_chroma img.width img.height
  have hcm : img.height / 2 * img.width = img.width * (img.height / 2) := Nat.mul_comm _ _
  have h2 : 2 * img.width * (img.height / 2)
      = img.width * (img.height / 2) + img.width * (img.height / 2) := by ring
  have hcc : img.height * (img.width / 2) = img.width / 2 * img.height := Nat.mul_comm _ _
  have hhalf : img.width / 2 * img.height * 2 ≤ img.width * img.height := by
    have : img.width / 2 * 2 ≤ img.width := by omega
    calc img.width / 2 * img.height * 2 = (img.width / 2 * 2) * img.height := by ring
      _ ≤ img.width * img.height := Nat.mul_le_mul_right _ this
  -- pairwise commutation of the three loops
  have c12 : ∀ px, add_plane wrap16 0 frame 0 0 img.width stride (img.height / 2)
        (add_plane wrap16 0 frame (img.width * (img.height / 2)) (stride * (img.height / 2))
          img.width stride (img.height / 2) px)
      = add_plane wrap16 0 frame (img.width * (img.height / 2)) (stride * (img.height / 2))
          img.width stride (img.height / 2)
          (add_plane wrap16 0 frame 0 0 img.width stride (img.height / 2) px) :=
    fun px => add_plane_comm wrap16 0 0 frame frame _ _ _ _ _ _ _ _ _ _ (Or.inl (by omega)) px
  have c13 : ∀ px, add_plane wrap16 0 frame 0 0 img.width stride (img.height / 2)
        (add_plane wrap16 128 frame (img.width * img.height) (stride * img.height)
          (img.width / 2) (stride / 2) img.height px)
      = add_plane wrap16 128 frame (img.width * img.height) (stride * img.height)
          (img.width / 2) (stride / 2) img.height
          (add_plane wrap16 0 frame 0 0 img.width stride (img.height / 2) px) :=
    fun px => add_plane_comm wrap16 0 128 frame frame _ _ _ _ _ _ _ _ _ _ (Or.inl (by omega)) px
  have c23 : ∀ px, add_plane wrap16 0 frame (img.width * (img.height / 2))
        (stride * (img.height / 2)) img.width stride (img.height / 2)
        (add_plane wrap16 128 frame (img.width * img.height) (stride * img.height)
          (img.width / 2) (stride / 2) img.height px)
      = add_plane wrap16 128 frame (img.width * img.height) (stride * img.height)
          (img.width / 2) (stride / 2) img.height
          (add_plane wrap16 0 frame (img.width * (img.height / 2)) (stride * (img.height / 2))
            img.width stride (img.height / 2) px) :=
    fun px => add_plane_comm wrap16 0 128 frame frame _ _ _ _ _ _ _ _ _ _ (Or.inl (by omega)) px
  have hA : (Accumulate img frame stride).pixels
      = add_plane wrap16 128 frame (img.width * img.height) (stride * img.height)
          (img.width / 2) (stride / 2) img.height
          (add_plane wrap16 0 frame (img.width * (img.height / 2)) (stride * (img.height / 2))
            img.width stride (img.height / 2)
            (add_plane wrap16 0 frame 0 0 img.width stride (img.height / 2) img.pixels)) := by
    rw [Accumulate_pixels]; rfl
  refine ⟨⟨by omega, by omega⟩, fun i => ⟨by omega, by omega, by omega⟩,
    fun px i => ⟨fun h => ?_, fun h => ?_, fun h => ?_⟩, ?_, ?_, ?_, ?_, ?_⟩
  · rw [add_Y_pixels_eq]
    exact add_plane_getD_out wrap16 0 frame 0 0 img.width stride _ px i (by omega)
  · rw [add_Y_pixels_eq]
    exact add_plane_getD_out wrap16 0 frame _ _ img.width stride _ px i (by omega)
  · rw [add_UV_pixels_eq]
    exact add_plane_getD_out wrap16 128 frame _ _ _ _ _ px i (by omega)
  · simp only [add_Y_pixels_eq, add_UV_pixels_eq]
    rw [hA, c12]
  · simp only [add_Y_pixels_eq, add_UV_pixels_eq]
    rw [hA, c23]
  · simp only [add_Y_pixels_eq, add_UV_pixels_eq]
    rw [hA, c13, c23]
  · simp only [add_Y_pixels_eq, add_UV_pixels_eq]
    rw [hA, c13, c12]
  · simp only [add_Y_pixels_eq, add_UV_pixels_eq]
    rw [hA, c23, c13, c12]

/-! ## Extract: the shape of the output -/

theorem Extract_length (img : HdrImage) (stride : Nat) :
    (Extract img stride).length = stride * img.height * 3 / 2 := by
  unfold Extract
  exact (forLoop_inv (fun y s => ExtractPtrs img stride y 0 s) _ img.height _
    (ExtractPtrs_init img stride)
    (fun n s _ hs => Extract_row_ptrs img _ stride n s hs)).1

/-- An output byte that no write of `Extract` addresses keeps the initial value 0. -/
theorem Extract_untouched (img : HdrImage) (stride j : Nat)
    (hw : Even img.width) (hh : Even img.height)
    (hluma : ∀ x y, x < img.width → y < img.height → j ≠ y * stride + x)
    (hchroma : ∀ cx cy, cx < img.width / 2 → cy < img.height / 2 →
      j ≠ stride * img.height + cy * (stride / 2) + cx ∧
      j ≠ stride * img.height + stride * img.height / 4 + cy * (stride / 2) + cx) :
    (Extract img stride).getD j (some 0) = some 0 := by
  unfold Extract
  have := forLoop_inv
    (fun y s => ExtractPtrs img stride y 0 s ∧ s.dest.getD j (some 0) = some 0)
    (fun y st => Extract_row img (extract_ratio img.dynamic_range) stride y st)
    img.height (Extract_init img stride)
    ⟨ExtractPtrs_init img stride, getD_replicate_same _ _ _⟩
    (fun y s hy hs => by
      refine ⟨Extract_row_ptrs img _ stride y s hs.1, ?_⟩
      apply Extract_row_keep img _ stride y j (some 0) s hs.1 _ hs.2
      intro x hx
      refine ⟨fun hcon => hluma x y hx hy hcon.symm, fun hev => ?_⟩
      obtain ⟨c, hc⟩ := hw
      obtain ⟨b, hb⟩ := hh
      have e : (y + 1) / 2 = y / 2 := by omega
      have h1 := hchroma (x / 2) (y / 2) (by omega) (by omega)
      rw [e]
      exact ⟨fun hcon => h1.1 hcon.symm, fun hcon => h1.2 hcon.symm⟩)
  exact this.2

/-- C17: the output shape of `Extract`.  For even `width`, `height` and `stride ≥ width`,
`Extract(stride)` returns exactly `stride * height * 3 / 2` bytes; the byte of luma sample
`(x, y)` is at `y * stride + x`, the byte of U sample `(cx, cy)` at
`stride * height + cy * (stride / 2) + cx`, the byte of V sample `(cx, cy)` at
`stride * height + stride * height / 4 + cy * (stride / 2) + cx`; each of these addresses lies
inside the buffer; every other byte is 0. -/
theorem Extract_output_shape (img : HdrImage) (stride : Nat)
    (hw : Even img.width) (hh : Even img.height) (hs : Even stride)
    (hws : img.width ≤ stride) :
    (Extract img stride).length = stride * img.height * 3 / 2 ∧
    (∀ x y, x < img.width → y < img.height →
      y * stride + x < stride * img.height * 3 / 2 ∧
      (Extract img stride).getD (y * stride + x) (some 0)
        = extract_luma (img.P (y * img.width + x)) (extract_ratio img.dynamic_range)) ∧
    (∀ cx cy, cx < img.width / 2 → cy < img.height / 2 →
      stride * img.height + cy * (stride / 2) + cx < stride * img.height * 3 / 2 ∧
      (Extract img stride).getD (stride * img.height + cy * (stride / 2) + cx) (some 0)
        = extract_chroma (img.P (img.width * img.height + cy * (img.width / 2) + cx))
            (extract_ratio img.dynamic_range) ∧
      stride * img.height + stride * img.height / 4 + cy * (stride / 2) + cx
        < stride * img.height * 3 / 2 ∧
      (Extract img stride).getD
          (stride * img.height + stride * img.height / 4 + cy * (stride / 2) + cx) (some 0)
        = extract_chroma
            (img.P (img.width * img.height + img.width * img.height / 4
              + cy * (img.width / 2) + cx))
            (extract_ratio img.dynamic_range)) ∧
    (∀ j, (∀ x y, x < img.width → y < img.height → j ≠ y * stride + x) →
      (∀ cx cy, cx < img.width / 2 → cy < img.height / 2 →
        j ≠ stride * img.height + cy * (stride / 2) + cx ∧
        j ≠ stride * img.height + stride * img.height / 4 + cy * (stride / 2) + cx) →
      (Extract img stride).getD j (some 0) = some 0) := by
  refine ⟨Extract_length img stride, fun x y hx hy => ⟨?_, ?_⟩,
    fun cx cy hcx hcy => ⟨?_, ?_, ?_, ?_⟩,
    fun j h1 h2 => Extract_untouched img stride j hw hh h1 h2⟩
  · have := row_index_lt y x stride img.height hy (by omega)
    rw [Nat.mul_comm img.height] at this
    omega
  · exact Extract_luma_byte img stride x y hws hx hy
  · obtain ⟨b, hb⟩ := hh
    obtain ⟨a, ha⟩ := hs
    have ha2 : stride / 2 = a := by omega
    have hSH : stride * img.height = 4 * (b * a) := by rw [ha, hb]; ring
    have hq : cy * a + cx < b * a := row_index_lt cy cx a b (by omega) (by omega)
    rw [ha2]; omega
  · exact Extract_U_byte img stride cx cy hws hw hh hs hcx hcy
  · obtain ⟨b, hb⟩ := hh
    obtain ⟨a, ha⟩ := hs
    have ha2 : stride / 2 = a := by omega
    have hSH : stride * img.height = 4 * (b * a) := by rw [ha, hb]; ring
    have hq : cy * a + cx < b * a := row_index_lt cy cx a b (by omega) (by omega)
    rw [ha2]; omega
  · exact Extract_V_byte img stride cx cy hws hw hh hs hcx hcy

/-- Witness of C17: a 2×2 image extracted with stride 4 gives 12 bytes. -/
theorem Extract_output_shape_witness :
    (Extract (HdrImage.mk 2 2 [382, 10, 20, 30, -5, 7] 512) 4).length = 4 * 2 * 3 / 2 :=
  (Extract_output_shape (HdrImage.mk 2 2 [382, 10, 20, 30, -5, 7] 512) 4
    ⟨1, rfl⟩ ⟨1, rfl⟩ ⟨2, rfl⟩ (by decide)).1

/-! ## CalculateHistogram -/

theorem sum_set_succ (l : List Nat) (i : Nat) (hi : i < l.length) :
    (l.set i (l.getD i 0 + 1)).sum = l.sum + 1 := by
  induction l generalizing i with
  | nil => simp at hi
  | cons a l ih =>
    cases i with
    | zero => simp [List.getD]; omega
    | succ i =>
      have hi2 : i < l.length := by simpa using hi
      have := ih i hi2
      simp only [List.set_cons_succ, List.sum_cons, List.getD_cons_succ] at this ⊢
      omega

/-- The bins after the first `n` luma samples have been counted. -/
theorem histogram_prefix (img : HdrImage) (m : Nat)
    (hrange : ∀ i, i < m → 0 ≤ img.P i ∧ img.P i < img.dynamic_range) (n : Nat) (hn : n ≤ m) :
    (forLoop (fun i bins =>
        if 0 ≤ img.P i then bins.set (img.P i).toNat (bins.getD (img.P i).toNat 0 + 1)
        else bins) n (List.replicate img.dynamic_range.toNat 0)).length
      = img.dynamic_range.toNat ∧
    (forLoop (fun i bins =>
        if 0 ≤ img.P i then bins.set (img.P i).toNat (bins.getD (img.P i).toNat 0 + 1)
        else bins) n (List.replicate img.dynamic_range.toNat 0)).sum = n ∧
    ∀ v : Nat, v < img.dynamic_range.toNat →
      (forLoop (fun i bins =>
        if 0 ≤ img.P i then bins.set (img.P i).toNat (bins.getD (img.P i).toNat 0 + 1)
        else bins) n (List.replicate img.dynamic_range.toNat 0)).getD v 0
      = (List.range n).countP (fun i => decide (img.P i = (v : Int))) := by
  induction n with
  | zero =>
    refine ⟨List.length_replicate _ _, ?_, fun v _ => ?_⟩
    · simp [forLoop]
    · simp only [forLoop, List.range_zero, List.countP_nil]
      exact getD_replicate_same _ _ _
  | succ n ih =>
    obtain ⟨hl, hsum, hcnt⟩ := ih (by omega)
    obtain ⟨h0, h1⟩ := hrange n (by omega)
    have hidx : (img.P n).toNat < img.dynamic_range.toNat := by omega
    simp only [forLoop, if_pos h0]
    refine ⟨by rw [List.length_set]; exact hl, ?_, fun v hv => ?_⟩
    · rw [sum_set_succ _ _ (by rw [hl]; exact hidx), hsum]
    · rw [getD_set_eq_gen, hl, List.range_succ, List.countP_append, hcnt v hv]
      by_cases hc : (img.P n).toNat = v
      · have e : img.P n = (v : Int) := by omega
        rw [if_pos ⟨hc, hv⟩, ← hc, hcnt _ hidx, hc]
        simp [e]
      · have e : ¬ img.P n = (v : Int) := by omega
        rw [if_neg (fun h => hc h.1)]
        simp [e]

/-- The histogram reads the luma samples only. -/
theorem histogram_congr (img img2 : HdrImage) (hdr : img2.dynamic_range = img.dynamic_range)
    (n : Nat) (hP : ∀ i, i < n → img2.P i = img.P i) :
    forLoop (fun i bins =>
        if 0 ≤ img2.P i then bins.set (img2.P i).toNat (bins.getD (img2.P i).toNat 0 + 1)
        else bins) n (List.replicate img2.dynamic_range.toNat 0)
    = forLoop (fun i bins =>
        if 0 ≤ img.P i then bins.set (img.P i).toNat (bins.getD (img.P i).toNat 0 + 1)
        else bins) n (List.replicate img.dynamic_range.toNat 0) := by
  induction n with
  | zero => simp only [forLoop, hdr]
  | succ n ih =>
    simp only [forLoop]
    rw [ih (fun i hi => hP i (by omega)), hP n (by omega)]

/-- C18: `CalculateHistogram` counts luma only.  For every image with `dynamic_range ≥ 0` whose
luma samples all lie in `[0, dynamic_range)`, the bin array handed to `Histogram` has exactly
`dynamic_range` bins, bin `v` is the number of luma indices `i < width * height` with
`P(i) = v`, the bins sum to `width * height`, and the chroma samples contribute to no bin: an
image with the same shape, range and luma samples has the same bins. -/
theorem CalculateHistogram_counts_luma (img : HdrImage) (hdr : 0 ≤ img.dynamic_range)
    (hrange : ∀ i, i < img.width * img.height → 0 ≤ img.P i ∧ img.P i < img.dynamic_range) :
    ((CalculateHistogram img).length : Int) = img.dynamic_range ∧
    (∀ v : Nat, (v : Int) < img.dynamic_range →
      (CalculateHistogram img).getD v 0
        = (List.range (img.width * img.height)).countP
            (fun i => decide (img.P i = (v : Int)))) ∧
    (CalculateHistogram img).sum = img.width * img.height ∧
    (∀ img2 : HdrImage, img2.width = img.width → img2.height = img.height →
      img2.dynamic_range = img.dynamic_range →
      (∀ i, i < img.width * img.height → img2.P i = img.P i) →
      CalculateHistogram img2 = CalculateHistogram img) := by
  obtain ⟨hl, hsum, hcnt⟩ := histogram_prefix img (img.width * img.height) hrange
    (img.width * img.height) (Nat.le_refl _)
  refine ⟨?_, fun v hv => hcnt v (by omega), hsum, fun img2 hw hh hd hP => ?_⟩
  · unfold CalculateHistogram; rw [hl]; omega
  · unfold CalculateHistogram
    rw [hw, hh]
    exact histogram_congr img img2 hd _ hP

/-- Witness of C18: a 2×2 image of range 4 with luma samples 1, 3, 1, 0 and two chroma
samples. -/
theorem CalculateHistogram_counts_luma_witness :
    (CalculateHistogram (HdrImage.mk 2 2 [1, 3, 1, 0, -7, 9] 4)).sum = 2 * 2 :=
  (CalculateHistogram_counts_luma (HdrImage.mk 2 2 [1, 3, 1, 0, -7, 9] 4) (by decide)
    (by decide)).2.2.1

/-! ## Tonemap: the chroma rescale -/

/-- What one iteration of the pixel loop of `Tonemap` does to the sample vector, when the chroma
offsets differ from the luma offset. -/
theorem Tonemap_pixel_getD {K : Type} [LinearOrderedField K] [FloorRing K]
    (lp : HdrImage) (luts : TonemapLuts K) (maxval : Int) (x y off_Y : Nat)
    (st : TonemapState) (hU : off_Y ≠ st.off_U) (hV : off_Y ≠ st.off_V) (j : Nat) :
    (Tonemap_pixel lp luts maxval x y off_Y st).pixels.getD j 0
      = if (x % 2 = 0 ∧ y % 2 = 0) ∧ st.off_V = j ∧ j < st.pixels.length
          then @tonemap_chroma K _ _ (st.pixels.getD st.off_V 0)
            (tonemap_Y_final luts maxval (lp.P off_Y) (st.pixels.getD off_Y 0)) (lp.P off_Y)
        else if (x % 2 = 0 ∧ y % 2 = 0) ∧ st.off_U = j ∧ j < st.pixels.length
          then @tonemap_chroma K _ _ (st.pixels.getD st.off_U 0)
            (tonemap_Y_final luts maxval (lp.P off_Y) (st.pixels.getD off_Y 0)) (lp.P off_Y)
        else if off_Y = j ∧ j < st.pixels.length
          then wrap16 (tonemap_Y_final luts maxval (lp.P off_Y) (st.pixels.getD off_Y 0))
        else st.pixels.getD j 0 := by
  unfold Tonemap_pixel
  by_cases hc : x % 2 = 0 ∧ y % 2 = 0
  · simp only [hc, and_self, if_true, true_and, getD_set_eq, List.length_set,
      getD_set_ne _ _ _ _ hU, getD_set_ne _ _ _ _ hV, tonemap_chroma]
  · simp only [hc, if_false, false_and, getD_set_eq]

theorem Tonemap_pixel_ptrs {K : Type} [LinearOrderedField K] [FloorRing K]
    (img lp : HdrImage) (luts : TonemapLuts K) (maxval : Int) (len y n off_Y : Nat)
    (st : TonemapState) (h : TonemapPtrs img len y n st) :
    TonemapPtrs img len y (n + 1) (Tonemap_pixel lp luts maxval n y off_Y st) := by
  obtain ⟨h1, h2, h3⟩ := h
  unfold Tonemap_pixel
  by_cases hy : y % 2 = 0
  · by_cases hn : n % 2 = 0
    · simp only [hy, hn, and_self, if_true]
      refine ⟨by simp only [List.length_set]; exact h1, ?_, ?_⟩
      · show st.off_U + 1 = _
        rw [h2]; simp only [hy, if_true]; omega
      · show st.off_V + 1 = _
        rw [h3]; simp only [hy, if_true]; omega
    · simp only [hy, hn, false_and, if_false, if_true]
      refine ⟨by simp only [List.length_set]; exact h1, ?_, ?_⟩
      · show st.off_U = _
        rw [h2]; simp only [hy, if_true]; omega
      · show st.off_V = _
        rw [h3]; simp only [hy, if_true]; omega
  · simp only [hy, and_false, if_false]
    refine ⟨by simp only [List.length_set]; exact h1, ?_, ?_⟩
    · show st.off_U = _
      rw [h2, if_neg hy, if_neg hy]
    · show st.off_V = _
      rw [h3, if_neg hy, if_neg hy]

/-- A sample that iteration `n` of row `y` of `Tonemap` does not address is kept. -/
theorem Tonemap_pixel_keep {K : Type} [LinearOrderedField K] [FloorRing K]
    (img lp : HdrImage) (luts : TonemapLuts K) (maxval : Int) (len y n j : Nat)
    (st : TonemapState) (h : TonemapPtrs img len y n st)
    (hy : y < img.height) (hn : n < img.width)
    (hno : y * img.width + n ≠ j ∧ (n % 2 = 0 ∧ y % 2 = 0 →
      y * img.width / 4 + img.width * img.height + n / 2 ≠ j ∧
      y * img.width / 4 + img.width * img.height + img.width * img.height / 4 + n / 2 ≠ j)) :
    (Tonemap_pixel lp luts maxval n y (y * img.width + n) st).pixels.getD j 0
      = st.pixels.getD j 0 := by
  obtain ⟨h1, h2, h3⟩ := h
  have hlt : y * img.width + n < img.width * img.height := by
    rw [Nat.mul_comm img.width]; exact row_index_lt y n img.width img.height hy hn
  rw [Tonemap_pixel_getD lp luts maxval n y _ st (by omega) (by omega)]
  have a1 : ¬ ((n % 2 = 0 ∧ y % 2 = 0) ∧ st.off_V = j ∧ j < st.pixels.length) := by
    rintro ⟨hc, hj, -⟩
    apply (hno.2 hc).2
    rw [← hj, h3, if_pos hc.2]
    have := hc.1
    omega
  have a2 : ¬ ((n % 2 = 0 ∧ y % 2 = 0) ∧ st.off_U = j ∧ j < st.pixels.length) := by
    rintro ⟨hc, hj, -⟩
    apply (hno.2 hc).1
    rw [← hj, h2, if_pos hc.2]
    have := hc.1
    omega
  have a3 : ¬ (y * img.width + n = j ∧ j < st.pixels.length) := fun hh => hno.1 hh.1
  rw [if_neg a1, if_neg a2, if_neg a3]

theorem TonemapPtrs_row_init (img : HdrImage) (y : Nat) (px : List Int) :
    TonemapPtrs img px.length y 0
      { pixels := px, off_U := y * img.width / 4 + img.width * img.height,
        off_V := y * img.width / 4 + img.width * img.height + img.width * img.height / 4 } := by
  refine ⟨rfl, ?_, ?_⟩
  · show _ = _ + (if y % 2 = 0 then (0 + 1) / 2 else 0)
    split_ifs <;> simp
  · show _ = _ + (if y % 2 = 0 then (0 + 1) / 2 else 0)
    split_ifs <;> simp

/-- A sample that no iteration of row `y` of `Tonemap` addresses is kept by the row, and the row
keeps the length of the sample vector. -/
theorem Tonemap_row_keep {K : Type} [LinearOrderedField K] [FloorRing K]
    (img lp : HdrImage) (luts : TonemapLuts K) (maxval : Int) (y : Nat) (px : List Int)
    (hy : y < img.height) :
    (forLoop (fun x st => Tonemap_pixel lp luts maxval x y (y * img.width + x) st) img.width
      { pixels := px, off_U := y * img.width / 4 + img.width * img.height,
        off_V := y * img.width / 4 + img.width * img.height
          + img.width * img.height / 4 }).pixels.length = px.length ∧
    ∀ (j : Nat) (v : Int),
      (∀ x, x < img.width → y * img.width + x ≠ j ∧ (x % 2 = 0 ∧ y % 2 = 0 →
        y * img.width / 4 + img.width * img.height + x / 2 ≠ j ∧
        y * img.width / 4 + img.width * img.height + img.width * img.height / 4 + x / 2 ≠ j)) →
      px.getD j 0 = v →
      (forLoop (fun x st => Tonemap_pixel lp luts maxval x y (y * img.width + x) st) img.width
        { pixels := px, off_U := y * img.width / 4 + img.width * img.height,
          off_V := y * img.width / 4 + img.width * img.height
            + img.width * img.height / 4 }).pixels.getD j 0 = v := by
  constructor
  · exact (forLoop_inv (fun n s => TonemapPtrs img px.length y n s) _ img.width _
      (TonemapPtrs_row_init img y px)
      (fun n s _ hs => Tonemap_pixel_ptrs img lp luts maxval _ y n _ s hs)).1
  · intro j v hno hv
    exact (forLoop_inv (fun n s => TonemapPtrs img px.length y n s ∧ s.pixels.getD j 0 = v)
      (fun x st => Tonemap_pixel lp luts maxval x y (y * img.width + x) st) img.width _
      ⟨TonemapPtrs_row_init img y px, hv⟩
      (fun n s hn hs => ⟨Tonemap_pixel_ptrs img lp luts maxval _ y n _ s hs.1, by
        rw [Tonemap_pixel_keep img lp luts maxval _ y n j s hs.1 hy hn (hno n hn)]
        exact hs.2⟩)).2

/-- The chroma samples of block `(bx, bj)` after the loops of `Tonemap`: each is the rescaled
original sample, the factor being taken from the top-left pixel `(2 bx, 2 bj)` of the block. -/
theorem Tonemap_block {K : Type} [LinearOrderedField K] [FloorRing K]
    (img lp : HdrImage) (luts : TonemapLuts K) (maxval : Int)
    (hw : Even img.width) (hh : Even img.height)
    (hlen : img.width * img.height * 3 / 2 ≤ img.pixels.length)
    (bx bj : Nat) (hbx : bx < img.width / 2) (hbj : bj < img.height / 2) :
    (forLoop (fun y px =>
        (forLoop (fun x st => Tonemap_pixel lp luts maxval x y (y * img.width + x) st)
          img.width { pixels := px, off_U := y * img.width / 4 + img.width * img.height,
                      off_V := y * img.width / 4 + img.width * img.height
                        + img.width * img.height / 4 }).pixels)
        img.height img.pixels).getD
        (img.width * img.height + bj * (img.width / 2) + bx) 0
      = @tonemap_chroma K _ _
          (img.pixels.getD (img.width * img.height + bj * (img.width / 2) + bx) 0)
          (tonemap_Y_final luts maxval (lp.P (2 * bj * img.width + 2 * bx))
            (img.pixels.getD (2 * bj * img.width + 2 * bx) 0))
          (lp.P (2 * bj * img.width + 2 * bx)) ∧
    (forLoop (fun y px =>
        (forLoop (fun x st => Tonemap_pixel lp luts maxval x y (y * img.width + x) st)
          img.width { pixels := px, off_U := y * img.width / 4 + img.width * img.height,
                      off_V := y * img.width / 4 + img.width * img.height
                        + img.width * img.height / 4 }).pixels)
        img.height img.pixels).getD
        (img.width * img.height + img.width * img.height / 4 + bj * (img.width / 2) + bx) 0
      = @tonemap_chroma K _ _
          (img.pixels.getD
            (img.width * img.height + img.width * img.height / 4 + bj * (img.width / 2) + bx) 0)
          (tonemap_Y_final luts maxval (lp.P (2 * bj * img.width + 2 * bx))
            (img.pixels.getD (2 * bj * img.width + 2 * bx) 0))
          (lp.P (2 * bj * img.width + 2 * bx)) := by
  obtain ⟨c, hc⟩ := hw
  obtain ⟨b, hb⟩ := hh
  have hc2 : img.width / 2 = c := by omega
  have hb2 : img.height / 2 = b := by omega
  have hN : img.width * img.height = 4 * (b * c) := by rw [hc, hb]; ring
  have hq : bj * c + bx < b * c := row_index_lt bj bx c b (by omega) (by omega)
  have hrowU : ∀ y x, y < img.height → x < img.width → y * img.width + x
      < img.width * img.height := by
    intro y x hy hx
    rw [Nat.mul_comm img.width]; exact row_index_lt y x img.width img.height hy hx
  -- the quarter-row offset of an even row
  have heven : ∀ y, y % 2 = 0 → y * img.width / 4 = y / 2 * c := by
    intro y hy
    have e1 : y = 2 * (y / 2) := by omega
    have e2 : y * img.width = 4 * (y / 2 * c) := by
      rw [hc]; nth_rewrite 1 [e1]; ring
    omega
  have hjY : 2 * bj * img.width + 2 * bx < img.width * img.height :=
    hrowU (2 * bj) (2 * bx) (by omega) (by omega)
  rw [hc2]
  -- the writes of an iteration outside the block miss the three samples of the block
  have hmiss : ∀ y x, y < img.height → x < img.width → (y ≠ 2 * bj ∨ x ≠ 2 * bx) →
      ∀ j, (j = img.width * img.height + bj * c + bx ∨
            j = img.width * img.height + img.width * img.height / 4 + bj * c + bx ∨
            j = 2 * bj * img.width + 2 * bx) →
      y * img.width + x ≠ j ∧ (x % 2 = 0 ∧ y % 2 = 0 →
        y * img.width / 4 + img.width * img.height + x / 2 ≠ j ∧
        y * img.width / 4 + img.width * img.height + img.width * img.height / 4 + x / 2 ≠ j) := by
    intro y x hy hx hne j hj
    have hl := hrowU y x hy hx
    refine ⟨fun hcon => ?_, fun hev => ?_⟩
    · rcases hj with hj | hj | hj
      · omega
      · omega
      · have := row_col_unique img.width y x (2 * bj) (2 * bx) hx (by omega) (by omega)
        omega
    · rw [heven y hev.2]
      have hq2 : y / 2 * c + x / 2 < b * c := row_index_lt (y / 2) (x / 2) c b (by omega) (by omega)
      refine ⟨fun hcon => ?_, fun hcon => ?_⟩
      · rcases hj with hj | hj | hj
        · have := row_col_unique c (y / 2) (x / 2) bj bx (by omega) (by omega) (by omega)
          omega
        · omega
        · omega
      · rcases hj with hj | hj | hj
        · omega
        · have := row_col_unique c (y / 2) (x / 2) bj bx (by omega) (by omega) (by omega)
          omega
        · omega
  have key := forLoop_establish
    (fun y (px : List Int) => px.length = img.pixels.length ∧ (y ≤ 2 * bj →
      px.getD (img.width * img.height + bj * c + bx) 0
        = img.pixels.getD (img.width * img.height + bj * c + bx) 0 ∧
      px.getD (img.width * img.height + img.width * img.height / 4 + bj * c + bx) 0
        = img.pixels.getD (img.width * img.height + img.width * img.height / 4 + bj * c + bx) 0 ∧
      px.getD (2 * bj * img.width + 2 * bx) 0
        = img.pixels.getD (2 * bj * img.width + 2 * bx) 0))
    (fun (px : List Int) =>
      px.getD (img.width * img.height + bj * c + bx) 0
        = @tonemap_chroma K _ _ (img.pixels.getD (img.width * img.height + bj * c + bx) 0)
          (tonemap_Y_final luts maxval (lp.P (2 * bj * img.width + 2 * bx))
            (img.pixels.getD (2 * bj * img.width + 2 * bx) 0))
          (lp.P (2 * bj * img.width + 2 * bx)) ∧
      px.getD (img.width * img.height + img.width * img.height / 4 + bj * c + bx) 0
        = @tonemap_chroma K _ _
          (img.pixels.getD (img.width * img.height + img.width * img.height / 4 + bj * c + bx) 0)
          (tonemap_Y_final luts maxval (lp.P (2 * bj * img.width + 2 * bx))
            (img.pixels.getD (2 * bj * img.width + 2 * bx) 0))
          (lp.P (2 * bj * img.width + 2 * bx)))
    (fun y px =>
        (forLoop (fun x st => Tonemap_pixel lp luts maxval x y (y * img.width + x) st)
          img.width { pixels := px, off_U := y * img.width / 4 + img.width * img.height,
                      off_V := y * img.width / 4 + img.width * img.height
                        + img.width * img.height / 4 }).pixels)
    img.height (2 * bj) (by omega) img.pixels ⟨rfl, fun _ => ⟨rfl, rfl, rfl⟩⟩
    (fun y px hy hI => by
      obtain ⟨hl, hkeep⟩ := Tonemap_row_keep img lp luts maxval y px hy
      refine ⟨by rw [hl]; exact hI.1, fun hle => ?_⟩
      obtain ⟨u1, u2, u3⟩ := hI.2 (by omega)
      exact ⟨hkeep _ _ (fun x hx => hmiss y x hy hx (Or.inl (by omega)) _ (Or.inl rfl)) u1,
        hkeep _ _ (fun x hx => hmiss y x hy hx (Or.inl (by omega)) _ (Or.inr (Or.inl rfl))) u2,
        hkeep _ _ (fun x hx => hmiss y x hy hx (Or.inl (by omega)) _ (Or.inr (Or.inr rfl))) u3⟩)
    (fun px hI => by
      obtain ⟨hl, hun⟩ := hI
      obtain ⟨u1, u2, u3⟩ := hun (Nat.le_refl _)
      have hy0 : 2 * bj < img.height := by omega
      have hev0 : (2 * bj) % 2 = 0 := by omega
      have hrow0 : 2 * bj * img.width / 4 = bj * c := by
        rw [heven _ hev0]; congr 1; omega
      apply forLoop_establish
        (fun n (s : TonemapState) => TonemapPtrs img px.length (2 * bj) n s ∧ (n ≤ 2 * bx →
          s.pixels.getD (img.width * img.height + bj * c + bx) 0
            = img.pixels.getD (img.width * img.height + bj * c + bx) 0 ∧
          s.pixels.getD (img.width * img.height + img.width * img.height / 4 + bj * c + bx) 0
            = img.pixels.getD
                (img.width * img.height + img.width * img.height / 4 + bj * c + bx) 0 ∧
          s.pixels.getD (2 * bj * img.width + 2 * bx) 0
            = img.pixels.getD (2 * bj * img.width + 2 * bx) 0))
        (fun (s : TonemapState) =>
          s.pixels.getD (img.width * img.height + bj * c + bx) 0
            = @tonemap_chroma K _ _ (img.pixels.getD (img.width * img.height + bj * c + bx) 0)
              (tonemap_Y_final luts maxval (lp.P (2 * bj * img.width + 2 * bx))
                (img.pixels.getD (2 * bj * img.width + 2 * bx) 0))
              (lp.P (2 * bj * img.width + 2 * bx)) ∧
          s.pixels.getD (img.width * img.height + img.width * img.height / 4 + bj * c + bx) 0
            = @tonemap_chroma K _ _
              (img.pixels.getD
                (img.width * img.height + img.width * img.height / 4 + bj * c + bx) 0)
              (tonemap_Y_final luts maxval (lp.P (2 * bj * img.width + 2 * bx))
                (img.pixels.getD (2 * bj * img.width + 2 * bx) 0))
              (lp.P (2 * bj * img.width + 2 * bx)))
        _ img.width (2 * bx) (by omega) _
        ⟨TonemapPtrs_row_init img (2 * bj) px, fun _ => ⟨u1, u2, u3⟩⟩
      · intro n s hn hs
        refine ⟨Tonemap_pixel_ptrs img lp luts maxval _ _ n _ s hs.1, fun hle => ?_⟩
        obtain ⟨v1, v2, v3⟩ := hs.2 (by omega)
        rw [Tonemap_pixel_keep img lp luts maxval _ _ n _ s hs.1 hy0 hn
            (hmiss _ n hy0 hn (Or.inr (by omega)) _ (Or.inl rfl)),
          Tonemap_pixel_keep img lp luts maxval _ _ n _ s hs.1 hy0 hn
            (hmiss _ n hy0 hn (Or.inr (by omega)) _ (Or.inr (Or.inl rfl))),
          Tonemap_pixel_keep img lp luts maxval _ _ n _ s hs.1 hy0 hn
            (hmiss _ n hy0 hn (Or.inr (by omega)) _ (Or.inr (Or.inr rfl)))]
        exact ⟨v1, v2, v3⟩
      · intro s hs
        obtain ⟨⟨p1, p2, p3⟩, hun2⟩ := hs
        obtain ⟨v1, v2, v3⟩ := hun2 (Nat.le_refl _)
        rw [if_pos hev0, hrow0] at p2 p3
        have eU : s.off_U = img.width * img.height + bj * c + bx := by omega
        have eV : s.off_V = img.width * img.height + img.width * img.height / 4 + bj * c + bx := by
          omega
        show (Tonemap_pixel lp luts maxval (2 * bx) (2 * bj) _ s).pixels.getD _ 0 = _ ∧
          (Tonemap_pixel lp luts maxval (2 * bx) (2 * bj) _ s).pixels.getD _ 0 = _
        rw [Tonemap_pixel_getD lp luts maxval _ _ _ s (by omega) (by omega),
          Tonemap_pixel_getD lp luts maxval _ _ _ s (by omega) (by omega)]
        have c1 : ¬ (((2 * bx) % 2 = 0 ∧ (2 * bj) % 2 = 0) ∧
            s.off_V = img.width * img.height + bj * c + bx ∧
            img.width * img.height + bj * c + bx < s.pixels.length) := by
          rintro ⟨-, hj, -⟩; omega
        have c2 : ((2 * bx) % 2 = 0 ∧ (2 * bj) % 2 = 0) ∧
            s.off_U = img.width * img.height + bj * c + bx ∧
            img.width * img.height + bj * c + bx < s.pixels.length :=
          ⟨⟨by omega, by omega⟩, eU, by omega⟩
        have c3 : ((2 * bx) % 2 = 0 ∧ (2 * bj) % 2 = 0) ∧
            s.off_V = img.width * img.height + img.width * img.height / 4 + bj * c + bx ∧
            img.width * img.height + img.width * img.height / 4 + bj * c + bx
              < s.pixels.length :=
          ⟨⟨by omega, by omega⟩, eV, by omega⟩
        rw [if_neg c1, if_pos c2, if_pos c3, eU, eV, v1, v2, v3]
        exact ⟨rfl, rfl⟩
      · intro n s hn hne hs hm
        rw [Tonemap_pixel_keep img lp luts maxval _ _ n _ s hs.1 hy0 hn
            (hmiss _ n hy0 hn (Or.inr hne) _ (Or.inl rfl)),
          Tonemap_pixel_keep img lp luts maxval _ _ n _ s hs.1 hy0 hn
            (hmiss _ n hy0 hn (Or.inr hne) _ (Or.inr (Or.inl rfl)))]
        exact hm)
    (fun y px hy hne hI hm => by
      obtain ⟨hl, hkeep⟩ := Tonemap_row_keep img lp luts maxval y px hy
      exact ⟨hkeep _ _ (fun x hx => hmiss y x hy hx (Or.inl hne) _ (Or.inl rfl)) hm.1,
        hkeep _ _ (fun x hx => hmiss y x hy hx (Or.inl hne) _ (Or.inr (Or.inl rfl))) hm.2⟩)
  exact key

theorem tonemap_chroma_zero {K : Type} [LinearOrderedField K] [FloorRing K] (F L : Int) :
    @tonemap_chroma K _ _ 0 F L = 0 := by
  unfold tonemap_chroma fl32
  rw [Int.cast_zero, fl_round_zero, zero_mul, fl_round_zero]
  have h : trunc (0 : K) = 0 := by
    have := @trunc_intCast K _ _ 0
    rwa [Int.cast_zero] at this
  rw [h]; rfl

/-- C12 (amended): the chroma rescale of `Tonemap`.  For even width and height (and a sample
vector of `width * height * 3 / 2` entries), for every 2×2 luma block `(bx, bj)` with
`bx < width / 2` and `bj < height / 2`, whose top-left pixel `(2 bx, 2 bj)` has the low-pass luma
`L` with `L + 1 ≠ 0` and the final tonemapped luma `F`: the U sample at index
`width * height + bj * (width / 2) + bx` and the V sample at that index plus `width * height / 4`
are, after `Tonemap`, the values `trunc(old * f)` of the original samples `old` stored as
`int16_t` (the value itself when it is representable), so each has been rescaled exactly once.
Here `f` is the single-precision quotient of `F + 1` and `L + 1` and `old * f` the
single-precision product, each rounded to the nearest `float`; a sample 0 stays 0. -/
theorem Tonemap_chroma_rescale {K : Type} [LinearOrderedField K] [FloorRing K]
    (img lp : HdrImage) (luts : TonemapLuts K)
    (hw : Even img.width) (hh : Even img.height)
    (hlen : img.width * img.height * 3 / 2 ≤ img.pixels.length)
    (bx bj : Nat) (hbx : bx < img.width / 2) (hbj : bj < img.height / 2)
    (_ : lp.P (2 * bj * img.width + 2 * bx) + 1 ≠ 0) :
    (Tonemap img lp luts).P (img.width * img.height + bj * (img.width / 2) + bx)
      = wrap16 (trunc (fl32
          (fl32 (img.P (img.width * img.height + bj * (img.width / 2) + bx) : K)
            * fl32 (fl32 ((tonemap_Y_final luts (img.dynamic_range - 1)
                  (lp.P (2 * bj * img.width + 2 * bx))
                  (img.P (2 * bj * img.width + 2 * bx)) + 1 : Int) : K)
              / fl32 ((lp.P (2 * bj * img.width + 2 * bx) + 1 : Int) : K))))) ∧
    (Tonemap img lp luts).P
        (img.width * img.height + img.width * img.height / 4 + bj * (img.width / 2) + bx)
      = wrap16 (trunc (fl32
          (fl32 (img.P (img.width * img.height + img.width * img.height / 4
                + bj * (img.width / 2) + bx) : K)
            * fl32 (fl32 ((tonemap_Y_final luts (img.dynamic_range - 1)
                  (lp.P (2 * bj * img.width + 2 * bx))
                  (img.P (2 * bj * img.width + 2 * bx)) + 1 : Int) : K)
              / fl32 ((lp.P (2 * bj * img.width + 2 * bx) + 1 : Int) : K))))) ∧
    (∀ t : Int, -32768 ≤ t → t ≤ 32767 →
      (trunc (fl32
          (fl32 (img.P (img.width * img.height + bj * (img.width / 2) + bx) : K)
            * fl32 (fl32 ((tonemap_Y_final luts (img.dynamic_range - 1)
                  (lp.P (2 * bj * img.width + 2 * bx))
                  (img.P (2 * bj * img.width + 2 * bx)) + 1 : Int) : K)
              / fl32 ((lp.P (2 * bj * img.width + 2 * bx) + 1 : Int) : K)))) = t →
        (Tonemap img lp luts).P (img.width * img.height + bj * (img.width / 2) + bx) = t) ∧
      (trunc (fl32
          (fl32 (img.P (img.width * img.height + img.width * img.height / 4
                + bj * (img.width / 2) + bx) : K)
            * fl32 (fl32 ((tonemap_Y_final luts (img.dynamic_range - 1)
                  (lp.P (2 * bj * img.width + 2 * bx))
                  (img.P (2 * bj * img.width + 2 * bx)) + 1 : Int) : K)
              / fl32 ((lp.P (2 * bj * img.width + 2 * bx) + 1 : Int) : K)))) = t →
        (Tonemap img lp luts).P
          (img.width * img.height + img.width * img.height / 4 + bj * (img.width / 2) + bx)
            = t)) ∧
    (img.P (img.width * img.height + bj * (img.width / 2) + bx) = 0 →
      (Tonemap img lp luts).P (img.width * img.height + bj * (img.width / 2) + bx) = 0) ∧
    (img.P (img.width * img.height + img.width * img.height / 4 + bj * (img.width / 2) + bx) = 0 →
      (Tonemap img lp luts).P
        (img.width * img.height + img.width * img.height / 4 + bj * (img.width / 2) + bx) = 0) := by
  have hb := Tonemap_block img lp luts (img.dynamic_range - 1) hw hh hlen bx bj hbx hbj
  have hU : (Tonemap img lp luts).P (img.width * img.height + bj * (img.width / 2) + bx)
      = @tonemap_chroma K _ _
          (img.P (img.width * img.height + bj * (img.width / 2) + bx))
          (tonemap_Y_final luts (img.dynamic_range - 1) (lp.P (2 * bj * img.width + 2 * bx))
            (img.P (2 * bj * img.width + 2 * bx)))
          (lp.P (2 * bj * img.width + 2 * bx)) := hb.1
  have hV : (Tonemap img lp luts).P
        (img.width * img.height + img.width * img.height / 4 + bj * (img.width / 2) + bx)
      = @tonemap_chroma K _ _
          (img.P (img.width * img.height + img.width * img.height / 4
            + bj * (img.width / 2) + bx))
          (tonemap_Y_final luts (img.dynamic_range - 1) (lp.P (2 * bj * img.width + 2 * bx))
            (img.P (2 * bj * img.width + 2 * bx)))
          (lp.P (2 * bj * img.width + 2 * bx)) := hb.2
  refine ⟨by rw [hU]; rfl, by rw [hV]; rfl, ?_, ?_, ?_⟩
  · intro t h1 h2
    refine ⟨fun ht => ?_, fun ht => ?_⟩
    · rw [hU]; unfold tonemap_chroma; rw [ht]; exact wrap16_of_range t h1 h2
    · rw [hV]; unfold tonemap_chroma; rw [ht]; exact wrap16_of_range t h1 h2
  · intro h0
    rw [hU, h0]; exact tonemap_chroma_zero _ _
  · intro h0
    rw [hV, h0]; exact tonemap_chroma_zero _ _

/-- Witness of C12: a 2×2 image with luma 100 at the top-left pixel, U = 10, V = −20, low-pass
luma 4 and the constant tone curve 20 without added detail: `F = 20`, the factor is the `float`
nearest to `21 / 5`; the `float` products round to 42 and −84, the new U and V. -/
theorem Tonemap_chroma_rescale_witness :
    (Tonemap { width := 2, height := 2, pixels := [100, 50, 60, 70, 10, -20],
               dynamic_range := 256 }
          { width := 2, height := 2, pixels := [4, 0, 0, 0], dynamic_range := 256 }
          ({ tonemap_lut := fun _ => 20, pos_strength_lut := fun _ => 0,
             neg_strength_lut := fun _ => 0 } : TonemapLuts ℚ)).P 4 = 42 ∧
    (Tonemap { width := 2, height := 2, pixels := [100, 50, 60, 70, 10, -20],
               dynamic_range := 256 }
          { width := 2, height := 2, pixels := [4, 0, 0, 0], dynamic_range := 256 }
          ({ tonemap_lut := fun _ => 20, pos_strength_lut := fun _ => 0,
             neg_strength_lut := fun _ => 0 } : TonemapLuts ℚ)).P 5 = -84 :=
  ⟨((Tonemap_chroma_rescale
      { width := 2, height := 2, pixels := [100, 50, 60, 70, 10, -20], dynamic_range := 256 }
      { width := 2, height := 2, pixels := [4, 0, 0, 0], dynamic_range := 256 }
      ({ tonemap_lut := fun _ => 20, pos_strength_lut := fun _ => 0,
         neg_strength_lut := fun _ => 0 } : TonemapLuts ℚ)
      (by decide) (by decide) (by decide) 0 0 (by decide) (by decide) (by decide)).2.2.1 42
      (by decide) (by decide)).1 (by decide!),
   ((Tonemap_chroma_rescale
      { width := 2, height := 2, pixels := [100, 50, 60, 70, 10, -20], dynamic_range := 256 }
      { width := 2, height := 2, pixels := [4, 0, 0, 0], dynamic_range := 256 }
      ({ tonemap_lut := fun _ => 20, pos_strength_lut := fun _ => 0,
         neg_strength_lut := fun _ => 0 } : TonemapLuts ℚ)
      (by decide) (by decide) (by decide) 0 0 (by decide) (by decide) (by decide)).2.2.1 (-84)
      (by decide) (by decide)).2 (by decide!)⟩

/-- Counterexample to C12 as stated: a 2×2 image with luma 100 at the top-left pixel and
U = 100, low-pass luma `L = 4` and the constant tone curve 20 without added detail, so `F = 20`.
The claim gives `trunc(100 * 21 / 5) = 420` for the new U sample; `Tonemap` stores 419, because
the `float` nearest to `21 / 5` is `4404019 / 1048576`, a little below it, and the `float`
product with 100 is a little below 420. -/
theorem Tonemap_chroma_rounds_in_float :
    (Tonemap { width := 2, height := 2, pixels := [100, 50, 60, 70, 100, -20],
               dynamic_range := 256 }
          { width := 2, height := 2, pixels := [4, 0, 0, 0], dynamic_range := 256 }
          ({ tonemap_lut := fun _ => 20, pos_strength_lut := fun _ => 0,
             neg_strength_lut := fun _ => 0 } : TonemapLuts ℚ)).P 4 = 419 ∧
    trunc ((100 : ℚ) * ((20 + 1 : Int) : ℚ) / ((4 + 1 : Int) : ℚ)) = 420 ∧
    fl32 ((21 : ℚ) / 5) = 4404019 / 1048576 := by
  decide!

/-! ## The driver -/

theorem accumulate_all_append (img : HdrImage) (a b : List ((Nat → Nat) × Nat)) :
    accumulate_all img (a ++ b) = accumulate_all (accumulate_all img a) b := by
  unfold accumulate_all
  rw [List.foldl_append]

theorem accumulate_all_dynamic_range (calls : List ((Nat → Nat) × Nat)) :
    ∀ img : HdrImage,
      (accumulate_all img calls).dynamic_range = img.dynamic_range + 256 * (calls.length : Int) := by
  induction calls with
  | nil => intro img; simp [accumulate_all]
  | cons c cs ih =>
    intro img
    have h := ih (Accumulate img c.1 c.2)
    have e : accumulate_all img (c :: cs) = accumulate_all (Accumulate img c.1 c.2) cs := rfl
    rw [e, h, (Accumulate_width img c.1 c.2).2.2, List.length_cons]
    push_cast; ring

/-- The preview phase: `n` completed requests from the counter `c` on, with `c + n ≤ 60`, are
shown and nothing else. -/
theorem event_loop_preview {P K : Type} [LinearOrderedField K] [FloorRing K]
    (ops : CurveOps P K) (weights : Nat → K) (nan16 : Int) (cfg : HdrConfig P K)
    (still : Nat × Nat × Nat) (frames : Nat → Nat → Nat) (tail : List Msg) :
    ∀ n c, c + n ≤ PREVIEW_FRAMES → ∀ (w h stride : Nat) (acc : HdrImage) (log : List Event),
      event_loop_from ops weights nan16 cfg still
          ((List.range' c n).map (fun k => Msg.RequestComplete (frames k)) ++ tail)
          { count := c, w := w, h := h, stride := stride, acc := acc, log := log }
        = event_loop_from ops weights nan16 cfg still tail
          { count := c + n, w := w, h := h, stride := stride, acc := acc,
            log := log ++ (List.range' c n).map Event.ShowPreview } := by
  intro n
  induction n with
  | zero => intro c _ w h stride acc log; simp
  | succ n ih =>
    intro c hc w h stride acc log
    unfold PREVIEW_FRAMES at hc
    have h1 : c < PREVIEW_FRAMES := by unfold PREVIEW_FRAMES; omega
    have h2 : (c + 1) % 2 ^ 32 = c + 1 := Nat.mod_eq_of_lt (by omega)
    rw [List.range'_succ, List.map_cons, List.cons_append]
    show (match event_loop_body ops weights nan16 cfg still (Msg.RequestComplete (frames c))
        { count := c, w := w, h := h, stride := stride, acc := acc, log := log } with
      | Sum.inl st1 => event_loop_from ops weights nan16 cfg still _ st1
      | Sum.inr out => out) = _
    have hb : event_loop_body ops weights nan16 cfg still (Msg.RequestComplete (frames c))
        { count := c, w := w, h := h, stride := stride, acc := acc, log := log }
        = Sum.inl { count := c + 1, w := w, h := h, stride := stride, acc := acc,
                    log := log ++ [Event.ShowPreview c] } := by
      unfold event_loop_body
      simp only [h1, if_true, h2]
    rw [hb]
    show event_loop_from ops weights nan16 cfg still _ _ = _
    rw [ih (c + 1) (by unfold PREVIEW_FRAMES; omega), List.map_cons, List.append_assoc,
      List.singleton_append]
    have e : c + 1 + n = c + (n + 1) := by omega
    rw [e]

/-- The metering iteration, at the counter 60: the accumulator is created for the still
stream. -/
theorem event_loop_metering {P K : Type} [LinearOrderedField K] [FloorRing K]
    (ops : CurveOps P K) (weights : Nat → K) (nan16 : Int) (cfg : HdrConfig P K)
    (still : Nat × Nat × Nat) (frame : Nat → Nat) (tail : List Msg)
    (w h stride : Nat) (acc : HdrImage) (log : List Event) :
    event_loop_from ops weights nan16 cfg still (Msg.RequestComplete frame :: tail)
        { count := PREVIEW_FRAMES, w := w, h := h, stride := stride, acc := acc, log := log }
      = event_loop_from ops weights nan16 cfg still tail
        { count := PREVIEW_FRAMES + 1, w := still.1, h := still.2.1, stride := still.2.2,
          acc := HdrImage.create still.1 still.2.1 (still.1 * still.2.1 * 3 / 2),
          log := log ++ [Event.Metering PREVIEW_FRAMES] } := by
  show (match event_loop_body ops weights nan16 cfg still (Msg.RequestComplete frame)
      { count := PREVIEW_FRAMES, w := w, h := h, stride := stride, acc := acc, log := log } with
    | Sum.inl st1 => event_loop_from ops weights nan16 cfg still _ st1
    | Sum.inr out => out) = _
  have hb : event_loop_body ops weights nan16 cfg still (Msg.RequestComplete frame)
      { count := PREVIEW_FRAMES, w := w, h := h, stride := stride, acc := acc, log := log }
      = Sum.inl { count := PREVIEW_FRAMES + 1, w := still.1, h := still.2.1,
                  stride := still.2.2,
                  acc := HdrImage.create still.1 still.2.1 (still.1 * still.2.1 * 3 / 2),
                  log := log ++ [Event.Metering PREVIEW_FRAMES] } := by
    unfold event_loop_body
    have h2 : (PREVIEW_FRAMES + 1) % 2 ^ 32 = PREVIEW_FRAMES + 1 :=
      Nat.mod_eq_of_lt (by unfold PREVIEW_FRAMES; omega)
    simp only [lt_irrefl, if_false, if_true, h2]
  rw [hb]

/-- The accumulation phase before the last frame: `n` completed requests from the counter `c` on,
with `60 < c` and `c + n ≤ 60 + num_frames`, are accumulated and shown. -/
theorem event_loop_accumulate {P K : Type} [LinearOrderedField K] [FloorRing K]
    (ops : CurveOps P K) (weights : Nat → K) (nan16 : Int) (cfg : HdrConfig P K)
    (still : Nat × Nat × Nat) (frames : Nat → Nat → Nat) (tail : List Msg)
    (hN : PREVIEW_FRAMES + cfg.num_frames < 2 ^ 32) (w h stride : Nat) :
    ∀ n c, PREVIEW_FRAMES < c → c + n ≤ PREVIEW_FRAMES + cfg.num_frames →
      ∀ (acc : HdrImage) (log : List Event),
      event_loop_from ops weights nan16 cfg still
          ((List.range' c n).map (fun k => Msg.RequestComplete (frames k)) ++ tail)
          { count := c, w := w, h := h, stride := stride, acc := acc, log := log }
        = event_loop_from ops weights nan16 cfg still tail
          { count := c + n, w := w, h := h, stride := stride,
            acc := accumulate_all acc ((List.range' c n).map (fun k => (frames k, stride))),
            log := log ++ (List.range' c n).flatMap
              (fun k => [Event.Accumulate k, Event.ShowPreview k]) } := by
  intro n
  induction n with
  | zero => intro c _ _ acc log; simp [accumulate_all]
  | succ n ih =>
    intro c hc1 hc2 acc log
    have h1 : ¬ c < PREVIEW_FRAMES := by omega
    have h1b : ¬ c = PREVIEW_FRAMES := by omega
    have h2 : (c + 1) % 2 ^ 32 = c + 1 := Nat.mod_eq_of_lt (by omega)
    have h3 : (PREVIEW_FRAMES + cfg.num_frames) % 2 ^ 32 = PREVIEW_FRAMES + cfg.num_frames :=
      Nat.mod_eq_of_lt hN
    have h4 : ¬ c = PREVIEW_FRAMES + cfg.num_frames := by omega
    rw [List.range'_succ, List.map_cons, List.cons_append]
    show (match event_loop_body ops weights nan16 cfg still (Msg.RequestComplete (frames c))
        { count := c, w := w, h := h, stride := stride, acc := acc, log := log } with
      | Sum.inl st1 => event_loop_from ops weights nan16 cfg still _ st1
      | Sum.inr out => out) = _
    have hb : event_loop_body ops weights nan16 cfg still (Msg.RequestComplete (frames c))
        { count := c, w := w, h := h, stride := stride, acc := acc, log := log }
        = Sum.inl { count := c + 1, w := w, h := h, stride := stride,
                    acc := Accumulate acc (frames c) stride,
                    log := log ++ [Event.Accumulate c] ++ [Event.ShowPreview c] } := by
      unfold event_loop_body
      simp only [h1, h1b, if_false, h2, h3, h4]
    rw [hb]
    show event_loop_from ops weights nan16 cfg still _ _ = _
    rw [ih (c + 1) (by omega) (by omega), List.map_cons, List.flatMap_cons]
    have e : c + 1 + n = c + (n + 1) := by omega
    rw [e]
    simp only [List.append_assoc, List.singleton_append, List.cons_append, List.nil_append]
    rfl

/-- The last accumulation, at the counter `60 + num_frames`: the frame is accumulated, the merge
runs on the accumulator, its output is saved and the function returns, whatever messages
follow. -/
theorem event_loop_last {P K : Type} [LinearOrderedField K] [FloorRing K]
    (ops : CurveOps P K) (weights : Nat → K) (nan16 : Int) (cfg : HdrConfig P K)
    (still : Nat × Nat × Nat) (frame : Nat → Nat) (tail : List Msg)
    (hN1 : 1 ≤ cfg.num_frames) (hN : PREVIEW_FRAMES + cfg.num_frames < 2 ^ 32)
    (w h stride : Nat) (acc : HdrImage) (log : List Event) :
    event_loop_from ops weights nan16 cfg still (Msg.RequestComplete frame :: tail)
        { count := PREVIEW_FRAMES + cfg.num_frames, w := w, h := h, stride := stride,
          acc := acc, log := log }
      = Outcome.returned (log ++ [Event.Accumulate (PREVIEW_FRAMES + cfg.num_frames),
          Event.Merge (Accumulate acc frame stride),
          Event.SaveHdr (merge ops weights nan16 cfg (Accumulate acc frame stride) stride)]) := by
  show (match event_loop_body ops weights nan16 cfg still (Msg.RequestComplete frame)
      { count := PREVIEW_FRAMES + cfg.num_frames, w := w, h := h, stride := stride,
        acc := acc, log := log } with
    | Sum.inl st1 => event_loop_from ops weights nan16 cfg still _ st1
    | Sum.inr out => out) = _
  have h1 : ¬ PREVIEW_FRAMES + cfg.num_frames < PREVIEW_FRAMES := by omega
  have h1b : ¬ PREVIEW_FRAMES + cfg.num_frames = PREVIEW_FRAMES := by omega
  have h3 : (PREVIEW_FRAMES + cfg.num_frames) % 2 ^ 32 = PREVIEW_FRAMES + cfg.num_frames :=
    Nat.mod_eq_of_lt hN
  have hb : event_loop_body ops weights nan16 cfg still (Msg.RequestComplete frame)
      { count := PREVIEW_FRAMES + cfg.num_frames, w := w, h := h, stride := stride,
        acc := acc, log := log }
      = Sum.inr (Outcome.returned (log ++ [Event.Accumulate (PREVIEW_FRAMES + cfg.num_frames),
          Event.Merge (Accumulate acc frame stride),
          Event.SaveHdr (merge ops weights nan16 cfg (Accumulate acc frame stride) stride)])) := by
    unfold event_loop_body
    simp only [h1, h1b, if_false, h3, if_true, List.append_assoc, List.singleton_append]
  rw [hb]

theorem accumulated_append (a b : List Event) :
    accumulated (a ++ b) = accumulated a ++ accumulated b := by
  unfold accumulated; rw [List.filterMap_append]

theorem outputs_append (a b : List Event) : outputs (a ++ b) = outputs a ++ outputs b := by
  unfold outputs; rw [List.filterMap_append]

theorem accumulated_previews (n : Nat) :
    ∀ c, accumulated ((List.range' c n).map Event.ShowPreview) = [] := by
  induction n with
  | zero => intro c; rfl
  | succ n ih =>
    intro c
    rw [List.range'_succ, List.map_cons]
    exact ih (c + 1)

theorem outputs_previews (n : Nat) :
    ∀ c, outputs ((List.range' c n).map Event.ShowPreview) = [] := by
  induction n with
  | zero => intro c; rfl
  | succ n ih =>
    intro c
    rw [List.range'_succ, List.map_cons]
    exact ih (c + 1)

theorem accumulated_accumulations (n : Nat) :
    ∀ c, accumulated ((List.range' c n).flatMap
      (fun k => [Event.Accumulate k, Event.ShowPreview k])) = List.range' c n := by
  induction n with
  | zero => intro c; rfl
  | succ n ih =>
    intro c
    rw [List.range'_succ, List.flatMap_cons, accumulated_append, ih (c + 1)]
    rfl

theorem outputs_accumulations (n : Nat) :
    ∀ c, outputs ((List.range' c n).flatMap
      (fun k => [Event.Accumulate k, Event.ShowPreview k])) = [] := by
  induction n with
  | zero => intro c; rfl
  | succ n ih =>
    intro c
    rw [List.range'_succ, List.flatMap_cons, outputs_append, ih (c + 1)]
    rfl

/-- The run of `event_loop` when its first `60 + 1 + num_frames` messages are completed requests
(with frames `frames 0`, `frames 1`, ...): it returns, and the events are 60 previews, the
metering, `num_frames - 1` accumulations each followed by a preview, the last accumulation, the
merge and the saving of its output.  The counters stay below `2^32`. -/
theorem event_loop_run {P K : Type} [LinearOrderedField K] [FloorRing K]
    (ops : CurveOps P K) (weights : Nat → K) (nan16 : Int) (cfg : HdrConfig P K)
    (still : Nat × Nat × Nat) (frames : Nat → Nat → Nat) (rest : List Msg)
    (hN1 : 1 ≤ cfg.num_frames) (hN : PREVIEW_FRAMES + cfg.num_frames < 2 ^ 32) :
    event_loop ops weights nan16 cfg still
        ((List.range' 0 (PREVIEW_FRAMES + 1 + cfg.num_frames)).map
          (fun k => Msg.RequestComplete (frames k)) ++ rest)
      = Outcome.returned
        ((List.range' 0 PREVIEW_FRAMES).map Event.ShowPreview
          ++ [Event.Metering PREVIEW_FRAMES]
          ++ (List.range' (PREVIEW_FRAMES + 1) (cfg.num_frames - 1)).flatMap
              (fun k => [Event.Accumulate k, Event.ShowPreview k])
          ++ [Event.Accumulate (PREVIEW_FRAMES + cfg.num_frames),
              Event.Merge (accumulate_all
                (HdrImage.create still.1 still.2.1 (still.1 * still.2.1 * 3 / 2))
                ((List.range' (PREVIEW_FRAMES + 1) cfg.num_frames).map
                  (fun k => (frames k, still.2.2)))),
              Event.SaveHdr (merge ops weights nan16 cfg
                (accumulate_all
                  (HdrImage.create still.1 still.2.1 (still.1 * still.2.1 * 3 / 2))
                  ((List.range' (PREVIEW_FRAMES + 1) cfg.num_frames).map
                    (fun k => (frames k, still.2.2))))
                still.2.2)]) := by
  obtain ⟨m, hm⟩ : ∃ m, cfg.num_frames = m + 1 := ⟨cfg.num_frames - 1, by omega⟩
  have hsplit : List.range' 0 (PREVIEW_FRAMES + 1 + cfg.num_frames)
      = List.range' 0 PREVIEW_FRAMES
        ++ (PREVIEW_FRAMES :: (List.range' (PREVIEW_FRAMES + 1) m
            ++ [PREVIEW_FRAMES + cfg.num_frames])) := by
    have e1 := List.range'_append 0 PREVIEW_FRAMES (1 + cfg.num_frames) 1
    have e2 : 1 + cfg.num_frames + PREVIEW_FRAMES = PREVIEW_FRAMES + 1 + cfg.num_frames := by
      omega
    rw [e2] at e1
    rw [← e1]
    have e3 : 0 + 1 * PREVIEW_FRAMES = PREVIEW_FRAMES := by omega
    have e4 : 1 + cfg.num_frames = m + 1 + 1 := by omega
    rw [e3, e4, List.range'_succ, List.range'_1_concat]
    have e5 : PREVIEW_FRAMES + 1 + m = PREVIEW_FRAMES + cfg.num_frames := by omega
    rw [e5]
  have hlast : List.range' (PREVIEW_FRAMES + 1) cfg.num_frames
      = List.range' (PREVIEW_FRAMES + 1) m ++ [PREVIEW_FRAMES + cfg.num_frames] := by
    rw [hm, List.range'_1_concat]
    have e5 : PREVIEW_FRAMES + 1 + m = PREVIEW_FRAMES + (m + 1) := by omega
    rw [e5]
  have hm1 : cfg.num_frames - 1 = m := by omega
  unfold event_loop LoopState.init
  rw [hsplit, List.map_append, List.append_assoc,
    event_loop_preview ops weights nan16 cfg still frames _ PREVIEW_FRAMES 0 (by omega),
    List.map_cons, List.cons_append]
  have e0 : 0 + PREVIEW_FRAMES = PREVIEW_FRAMES := by omega
  rw [e0, event_loop_metering, List.map_append, List.append_assoc,
    event_loop_accumulate ops weights nan16 cfg still frames _ hN _ _ _ m (PREVIEW_FRAMES + 1)
      (by omega) (by omega)]
  have e6 : PREVIEW_FRAMES + 1 + m = PREVIEW_FRAMES + cfg.num_frames := by omega
  rw [e6, List.map_cons, List.map_nil, List.singleton_append,
    event_loop_last ops weights nan16 cfg still _ _ hN1 hN, hlast, List.map_append,
    accumulate_all_append, hm1]
  simp only [List.nil_append, List.map_cons, List.map_nil]
  rfl

/-! ## create_tonemap -/

/-- C15: the driver sums exactly `num_frames` frames.  When the first `60 + 1 + N` messages are
completed requests (`N = num_frames ≥ 1`, and `256 * N` is an `int`), `event_loop` returns, and
its events are: the previews of the frames 0 to 59, the metering of frame 60, for each counter
from 61 to `60 + N - 1` an `Accumulate` and a preview, then the `Accumulate` of frame `60 + N`
and at once the merge and the saving of its one output.  So the frames accumulated are exactly
those with counter `61 .. 60 + N`, the accumulator at the start of the merge is the sum of these
frames with `dynamic_range = 256 * N`, and exactly one output is produced, whatever messages
follow. -/
theorem event_loop_sums_num_frames {P K : Type} [LinearOrderedField K] [FloorRing K]
    (ops : CurveOps P K) (weights : Nat → K) (nan16 : Int) (cfg : HdrConfig P K)
    (still : Nat × Nat × Nat) (frames : Nat → Nat → Nat) (rest : List Msg)
    (hN1 : 1 ≤ cfg.num_frames) (hN : 256 * cfg.num_frames < 2 ^ 31) :
    event_loop ops weights nan16 cfg still
        ((List.range' 0 (PREVIEW_FRAMES + 1 + cfg.num_frames)).map
          (fun k => Msg.RequestComplete (frames k)) ++ rest)
      = Outcome.returned
        ((List.range' 0 PREVIEW_FRAMES).map Event.ShowPreview
          ++ [Event.Metering PREVIEW_FRAMES]
          ++ (List.range' (PREVIEW_FRAMES + 1) (cfg.num_frames - 1)).flatMap
              (fun k => [Event.Accumulate k, Event.ShowPreview k])
          ++ [Event.Accumulate (PREVIEW_FRAMES + cfg.num_frames),
              Event.Merge (accumulate_all
                (HdrImage.create still.1 still.2.1 (still.1 * still.2.1 * 3 / 2))
                ((List.range' (PREVIEW_FRAMES + 1) cfg.num_frames).map
                  (fun k => (frames k, still.2.2)))),
              Event.SaveHdr (merge ops weights nan16 cfg
                (accumulate_all
                  (HdrImage.create still.1 still.2.1 (still.1 * still.2.1 * 3 / 2))
                  ((List.range' (PREVIEW_FRAMES + 1) cfg.num_frames).map
                    (fun k => (frames k, still.2.2))))
                still.2.2)]) ∧
    accumulated (event_loop ops weights nan16 cfg still
        ((List.range' 0 (PREVIEW_FRAMES + 1 + cfg.num_frames)).map
          (fun k => Msg.RequestComplete (frames k)) ++ rest)).log
      = List.range' (PREVIEW_FRAMES + 1) cfg.num_frames ∧
    (accumulate_all (HdrImage.create still.1 still.2.1 (still.1 * still.2.1 * 3 / 2))
        ((List.range' (PREVIEW_FRAMES + 1) cfg.num_frames).map
          (fun k => (frames k, still.2.2)))).dynamic_range = 256 * (cfg.num_frames : Int) ∧
    (outputs (event_loop ops weights nan16 cfg still
        ((List.range' 0 (PREVIEW_FRAMES + 1 + cfg.num_frames)).map
          (fun k => Msg.RequestComplete (frames k)) ++ rest)).log).length = 1 := by
  have hN2 : PREVIEW_FRAMES + cfg.num_frames < 2 ^ 32 := by unfold PREVIEW_FRAMES; omega
  have hrun := event_loop_run ops weights nan16 cfg still frames rest hN1 hN2
  obtain ⟨m, hm⟩ : ∃ m, cfg.num_frames = m + 1 := ⟨cfg.num_frames - 1, by omega⟩
  have hm1 : cfg.num_frames - 1 = m := by omega
  refine ⟨hrun, ?_, ?_, ?_⟩
  · rw [hrun]
    simp only [Outcome.log]
    rw [accumulated_append, accumulated_append, accumulated_append, accumulated_previews,
      accumulated_accumulations, hm1]
    show [] ++ [] ++ List.range' (PREVIEW_FRAMES + 1) m ++ [PREVIEW_FRAMES + cfg.num_frames] = _
    rw [hm, List.range'_1_concat, List.nil_append, List.nil_append]
    have e5 : PREVIEW_FRAMES + 1 + m = PREVIEW_FRAMES + (m + 1) := by omega
    rw [e5]
  · rw [accumulate_all_dynamic_range, List.length_map, List.length_range']
    show (0 : Int) + _ = _
    ring
  · rw [hrun]
    simp only [Outcome.log]
    rw [outputs_append, outputs_append, outputs_append, outputs_previews, outputs_accumulations]
    rfl

/-- Witness of C15: the configuration `HDR_CONFIG` (`num_frames = 8`) with flat grey frames of
2×2 pixels: of 69 completed requests, those with the counters 61 to 68 are accumulated. -/
theorem event_loop_sums_num_frames_witness :
    accumulated (event_loop (Pwl.ops ℚ) weights_approx 0 HDR_CONFIG (2, 2, 2)
        ((List.range' 0 (PREVIEW_FRAMES + 1 + HDR_CONFIG.num_frames)).map
          (fun k => Msg.RequestComplete (flat_frames k)) ++ [])).log
      = List.range' (PREVIEW_FRAMES + 1) HDR_CONFIG.num_frames :=
  (event_loop_sums_num_frames (Pwl.ops ℚ) weights_approx 0 HDR_CONFIG (2, 2, 2) flat_frames []
    (by decide) (by decide)).2.1

/-! ## Scale -/

/-- The sample vector after the first `n` iterations of the loop of `Scale`: the samples below
`n` are scaled, the others are as before. -/
theorem Scale_loop {K : Type} [LinearOrderedField K] [FloorRing K] (px0 : List Int) (factor : K) :
    ∀ n, (forLoop (fun i px => px.set i (wrap16 (trunc (fl64 ((px.getD i 0 : K) * factor)))))
        n px0).length = px0.length ∧
      ∀ j, (forLoop (fun i px => px.set i (wrap16 (trunc (fl64 ((px.getD i 0 : K) * factor)))))
        n px0).getD j 0
        = if j < n ∧ j < px0.length then wrap16 (trunc (fl64 ((px0.getD j 0 : K) * factor)))
          else px0.getD j 0 := by
  intro n
  induction n with
  | zero =>
    refine ⟨rfl, fun j => ?_⟩
    rw [if_neg (by omega)]; rfl
  | succ n ih =>
    obtain ⟨hl, hg⟩ := ih
    constructor
    · show (List.set _ n _).length = _
      rw [List.length_set]; exact hl
    · intro j
      show (List.set _ n _).getD j 0 = _
      rw [getD_set_eq, hl, hg j, hg n]
      by_cases hj : n = j
      · subst hj
        split_ifs <;> first | rfl | (exfalso; omega)
      · split_ifs <;> first | rfl | (exfalso; omega)

/-- A sample after `Scale`. -/
theorem Scale_P {K : Type} [LinearOrderedField K] [FloorRing K] (img : HdrImage) (factor : K)
    (i : Nat) :
    (Scale img factor).P i
      = if i < img.pixels.length then wrap16 (trunc (fl64 ((img.P i : K) * factor)))
        else img.P i := by
  have h := (Scale_loop img.pixels factor img.pixels.length).2 i
  show (forLoop _ img.pixels.length img.pixels).getD i 0 = _
  rw [h]
  by_cases hc : i < img.pixels.length
  · rw [if_pos ⟨hc, hc⟩, if_pos hc]; rfl
  · rw [if_neg (by omega), if_neg hc]; rfl

/-- Truncation after rounding is monotone enough for `Scale`: for integers `0 ≤ s < d` and a
factor `f ≥ 1` with `d f < 2^31`, `0 ≤ trunc(fl(s f)) < trunc(fl(d f))`. -/
theorem trunc_scale_lt {K : Type} [LinearOrderedField K] [FloorRing K] (s d : Int) (f : K)
    (hf : 1 ≤ f) (hs : 0 ≤ s) (hsd : s < d) (hd : (d : K) * f < 2 ^ 31) :
    0 ≤ trunc (fl64 ((s : K) * f)) ∧ trunc (fl64 ((s : K) * f)) < trunc (fl64 ((d : K) * f)) := by
  have hf0 : (0 : K) ≤ f := le_trans zero_le_one hf
  have hsK : (0 : K) ≤ (s : K) := by exact_mod_cast hs
  have hdK : (s : K) + 1 ≤ (d : K) := by exact_mod_cast (Int.add_one_le_iff.mpr hsd)
  have h0 : (0 : K) ≤ (s : K) * f := mul_nonneg hsK hf0
  have h2 : (s : K) * f + 1 ≤ (d : K) * f := by nlinarith
  have g0 : (0 : K) ≤ fl64 ((s : K) * f) := fl_round_nonneg 53 (by norm_num) _ h0
  have g1 : (0 : K) ≤ fl64 ((d : K) * f) :=
    fl_round_nonneg 53 (by norm_num) _ (le_trans (by linarith) h2)
  have hlt : (s : K) * f + 1 < (((2 : Int) ^ (53 - 1) : Int) : K) := by
    have : (2 : K) ^ 31 ≤ (((2 : Int) ^ (53 - 1) : Int) : K) := by norm_num
    linarith
  have hshift := fl_round_shift 53 (by norm_num) ((s : K) * f) h0 hlt ⌊fl64 ((s : K) * f)⌋
    (Int.floor_le _)
  have hmono : fl64 ((s : K) * f + 1) ≤ fl64 ((d : K) * f) :=
    fl_round_mono 53 (by norm_num) _ _ h2
  unfold trunc
  rw [if_pos g0, if_pos g1]
  refine ⟨Int.floor_nonneg.mpr g0, ?_⟩
  have h3 : ⌊fl64 ((s : K) * f)⌋ + 1 ≤ ⌊fl64 ((d : K) * f)⌋ := by
    rw [Int.le_floor]
    exact le_trans hshift hmono
  omega

/-- The `double` quotient `16.0 / N` is exact for `N` in `{1, 2, 4, 8, 16}`. -/
theorem fl64_sixteen_div {K : Type} [LinearOrderedField K] [FloorRing K] (N : Nat)
    (hN : N = 1 ∨ N = 2 ∨ N = 4 ∨ N = 8 ∨ N = 16) :
    fl64 ((16 : K) / (N : K)) = 16 / (N : K) := by
  have key : ∀ m : Int, |m| < 2 ^ 53 → (16 : K) / (N : K) = (m : K) →
      fl64 ((16 : K) / (N : K)) = 16 / (N : K) := by
    intro m hm he
    unfold fl64
    rw [he]
    exact fl_round_intCast 53 m hm
  rcases hN with h | h | h | h | h <;> subst h
  · exact key 16 (by norm_num) (by norm_num)
  · exact key 8 (by norm_num) (by norm_num)
  · exact key 4 (by norm_num) (by norm_num)
  · exact key 2 (by norm_num) (by norm_num)
  · exact key 1 (by norm_num) (by norm_num)

/-- C23 (amended): `Scale` keeps the luma samples below `dynamic_range` when scaling up.  For
every factor `f ≥ 1` and every image whose luma samples lie in `[0, dynamic_range)`, whose
scaled samples fit in 16 bits and whose scaled `dynamic_range` fits in an `int`
(`dynamic_range * f < 2^31`): after `Scale(f)` every sample equals `trunc(fl(old * f))` and
`dynamic_range` equals `trunc(fl(old dynamic_range * f))`, where `fl` rounds the product to the
nearest `double`, and every luma sample is non-negative and still strictly below
`dynamic_range`.  For the factor `16.0 / N` of the driver with `N` in `{1, 2, 4, 8, 16}`,
a quotient that is exact in `double`, applied to the accumulator after `N` accumulations,
`dynamic_range` becomes exactly 4096. -/
theorem Scale_keeps_luma_below_range {K : Type} [LinearOrderedField K] [FloorRing K]
    (img : HdrImage) (f : K) (hf : 1 ≤ f)
    (hluma : ∀ i, i < img.width * img.height → 0 ≤ img.P i ∧ img.P i < img.dynamic_range)
    (hfit : ∀ i, i < img.pixels.length →
      -32768 ≤ trunc (fl64 ((img.P i : K) * f)) ∧ trunc (fl64 ((img.P i : K) * f)) ≤ 32767)
    (hdr : (img.dynamic_range : K) * f < 2 ^ 31) :
    (∀ i, i < img.pixels.length → (Scale img f).P i = trunc (fl64 ((img.P i : K) * f))) ∧
    (Scale img f).dynamic_range = trunc (fl64 ((img.dynamic_range : K) * f)) ∧
    (Scale img f).width = img.width ∧ (Scale img f).height = img.height ∧
    (∀ i, i < img.width * img.height →
      0 ≤ (Scale img f).P i ∧ (Scale img f).P i < (Scale img f).dynamic_range) ∧
    (∀ (w h n N : Nat) (calls : List ((Nat → Nat) × Nat)),
      N = 1 ∨ N = 2 ∨ N = 4 ∨ N = 8 ∨ N = 16 → calls.length = N →
      fl64 ((16 : K) / (N : K)) = 16 / (N : K) ∧
      (Scale (accumulate_all (HdrImage.create w h n) calls)
        (fl64 ((16 : K) / (N : K)))).dynamic_range = 4096) := by
  have hP : ∀ i, i < img.pixels.length →
      (Scale img f).P i = trunc (fl64 ((img.P i : K) * f)) := by
    intro i hi
    rw [Scale_P, if_pos hi]
    exact wrap16_of_range _ (hfit i hi).1 (hfit i hi).2
  refine ⟨hP, rfl, rfl, rfl, ?_, ?_⟩
  · intro i hi
    obtain ⟨h0, h1⟩ := hluma i hi
    have ht := trunc_scale_lt (img.P i) img.dynamic_range f hf h0 h1 hdr
    show 0 ≤ (Scale img f).P i ∧ (Scale img f).P i < trunc (fl64 ((img.dynamic_range : K) * f))
    by_cases hlen : i < img.pixels.length
    · rw [hP i hlen]; exact ht
    · rw [Scale_P, if_neg hlen]
      have hz : img.P i = 0 := by
        unfold HdrImage.P
        rw [List.getD_eq_getElem?_getD, List.getElem?_eq_none (by omega)]
        rfl
      rw [hz] at ht ⊢
      have hz2 : trunc (fl64 (((0 : Int) : K) * f)) = 0 := by
        unfold fl64
        rw [Int.cast_zero, zero_mul, fl_round_zero]
        have := @trunc_intCast K _ _ 0
        rwa [Int.cast_zero] at this
      rw [hz2] at ht
      exact ⟨le_refl 0, ht.2⟩
  · intro w h n N calls hN hlen
    have hq := @fl64_sixteen_div K _ _ N hN
    refine ⟨hq, ?_⟩
    rw [hq]
    show trunc (fl64 (((accumulate_all (HdrImage.create w h n) calls).dynamic_range : K)
      * ((16 : K) / (N : K)))) = 4096
    rw [accumulate_all_dynamic_range, hlen]
    have hN0 : (N : K) ≠ 0 := by
      have : 0 < N := by omega
      exact_mod_cast (Nat.pos_iff_ne_zero.mp this)
    have e : (((HdrImage.create w h n).dynamic_range + 256 * ((N : Nat) : Int) : Int) : K)
        * ((16 : K) / (N : K)) = ((4096 : Int) : K) := by
      have e0 : (HdrImage.create w h n).dynamic_range = 0 := rfl
      rw [e0]
      push_cast
      field_simp
      ring
    rw [e]
    unfold fl64
    rw [fl_round_intCast 53 4096 (by norm_num)]
    exact trunc_intCast 4096

/-- Witness of C23: a 2×2 image of range 256 (one frame accumulated) scaled by 16: the luma
sample 255 becomes 4080, below the new range 4096. -/
theorem Scale_keeps_luma_below_range_witness :
    (Scale (HdrImage.mk 2 2 [255, 0, 17, 128, -128, 127] 256) (16 : ℚ)).P 0 = 4080 ∧
    (Scale (HdrImage.mk 2 2 [255, 0, 17, 128, -128, 127] 256) (16 : ℚ)).dynamic_range = 4096 :=
  ⟨((Scale_keeps_luma_below_range (HdrImage.mk 2 2 [255, 0, 17, 128, -128, 127] 256) (16 : ℚ)
      (by norm_num) (by decide!) (by decide!) (by norm_num)).1 0 (by decide)).trans (by decide!),
   ((Scale_keeps_luma_below_range (HdrImage.mk 2 2 [255, 0, 17, 128, -128, 127] 256) (16 : ℚ)
      (by norm_num) (by decide!) (by decide!) (by norm_num)).2.1).trans (by decide!)⟩

/-- Counterexample to C23 as stated: `Scale(4.35)` on a 2×2 image of range 256 with the luma
samples 100 and 20.  The factor received is the `double` nearest to `87 / 20`, a little below
it.  The sample 100 becomes 434, where `trunc(100 * 87 / 20)` is 435; the sample 20 becomes 87
(the product rounds up to 87 in `double`), where `trunc` of the exact product with that
`double` is 86.  So no reading of `f` makes every sample `trunc(old * f)`. -/
theorem Scale_rounds_in_double :
    (Scale (HdrImage.mk 2 2 [100, 20, 0, 0, 0, 0] 256) (fl64 ((87 : ℚ) / 20))).P 0 = 434 ∧
    trunc ((100 : ℚ) * (87 / 20)) = 435 ∧
    (Scale (HdrImage.mk 2 2 [100, 20, 0, 0, 0, 0] 256) (fl64 ((87 : ℚ) / 20))).P 1 = 87 ∧
    trunc ((20 : ℚ) * fl64 ((87 : ℚ) / 20)) = 86 ∧
    fl64 ((87 : ℚ) / 20) = 2448832297382707 / 562949953421312 := by
  decide!

/-! ## LpFilter: the range of the output -/

/-- The sums of a pixel read the buffer at the indices `off + delta` and nowhere else. -/
theorem neighbour_sums_reads {K : Type} [LinearOrderedField K] [FloorRing K]
    (weights : Nat → K) (thresh strength : K) (deltas : List Int) (pixel : Int) (off : Nat)
    (buf : List K) :
    neighbour_sums weights thresh strength deltas pixel off buf
      = (deltas.map (neighbour_index off)).foldl (fun acc i =>
          (acc.1 + neighbour_weight weights (buf.getD i 0) (pixel : K) thresh * buf.getD i 0,
           acc.2 + neighbour_weight weights (buf.getD i 0) (pixel : K) thresh))
        ((pixel : K) * strength, strength) := by
  unfold neighbour_sums
  rw [List.foldl_map]
  rfl

/-- Two buffers that agree at the indices `off + delta` give the same sums. -/
theorem neighbour_sums_congr {K : Type} [LinearOrderedField K] [FloorRing K]
    (weights : Nat → K) (thresh strength : K) (deltas : List Int) (pixel : Int) (off : Nat)
    (buf1 buf2 : List K)
    (h : ∀ i, i ∈ deltas.map (neighbour_index off) → buf1.getD i 0 = buf2.getD i 0) :
    neighbour_sums weights thresh strength deltas pixel off buf1
      = neighbour_sums weights thresh strength deltas pixel off buf2 := by
  rw [neighbour_sums_reads, neighbour_sums_reads]
  have key : ∀ (l : List Nat) (acc : K × K), (∀ i, i ∈ l → buf1.getD i 0 = buf2.getD i 0) →
      l.foldl (fun acc i =>
          (acc.1 + neighbour_weight weights (buf1.getD i 0) (pixel : K) thresh * buf1.getD i 0,
           acc.2 + neighbour_weight weights (buf1.getD i 0) (pixel : K) thresh)) acc
      = l.foldl (fun acc i =>
          (acc.1 + neighbour_weight weights (buf2.getD i 0) (pixel : K) thresh * buf2.getD i 0,
           acc.2 + neighbour_weight weights (buf2.getD i 0) (pixel : K) thresh)) acc := by
    intro l
    induction l with
    | nil => intro acc _; rfl
    | cons a l ih =>
      intro acc hl
      simp only [List.foldl_cons]
      rw [hl a (List.mem_cons_self a l)]
      exact ih _ (fun i hi => hl i (List.mem_cons_of_mem a hi))
  exact key _ _ h

/-- The indices read by the forward pass at a pixel `(x, y)` that it visits: none is negative,
all lie below `width * height`, and they are `(y-1) width + (x-1)`, `(y-1) width + x`,
`(y-1) width + (x+1)` and `y width + (x-1)`.  For `x + 1 < width` these are the pixels
`(x-1, y-1)`, `(x, y-1)`, `(x+1, y-1)`, `(x-1, y)`; in the last column `x = width - 1` the third
index is `y width`, the index of pixel `(0, y)`. -/
theorem forward_pass_reads (width height x y : Nat)
    (hx0 : 1 ≤ x) (hx1 : x < width) (hy0 : 1 ≤ y) (hy1 : y < height) :
    (∀ d, d ∈ fwd_deltas width → 0 ≤ ((y * width + x : Nat) : Int) + d) ∧
    (fwd_deltas width).map (neighbour_index (y * width + x))
      = [(y - 1) * width + (x - 1), (y - 1) * width + x, (y - 1) * width + (x + 1),
         y * width + (x - 1)] ∧
    (∀ i, i ∈ (fwd_deltas width).map (neighbour_index (y * width + x)) → i < width * height) ∧
    (x + 1 = width → (y - 1) * width + (x + 1) = y * width + 0) := by
  obtain ⟨y1, rfl⟩ : ∃ y1, y = y1 + 1 := ⟨y - 1, by omega⟩
  obtain ⟨x1, rfl⟩ : ∃ x1, x = x1 + 1 := ⟨x - 1, by omega⟩
  have e1 : (y1 + 1) * width = y1 * width + width := by ring
  have hlt : (y1 + 1) * width + (x1 + 1) < width * height := by
    rw [Nat.mul_comm width]; exact row_index_lt (y1 + 1) (x1 + 1) width height hy1 hx1
  have hlist : (fwd_deltas width).map (neighbour_index ((y1 + 1) * width + (x1 + 1)))
      = [(y1 + 1 - 1) * width + (x1 + 1 - 1), (y1 + 1 - 1) * width + (x1 + 1),
         (y1 + 1 - 1) * width + (x1 + 1 + 1), (y1 + 1) * width + (x1 + 1 - 1)] := by
    simp only [fwd_deltas, List.map_cons, List.map_nil, neighbour_index, Nat.add_sub_cancel]
    rw [e1]
    refine congrArg₂ _ (by omega) (congrArg₂ _ (by omega) (congrArg₂ _ (by omega)
      (congrArg₂ _ (by omega) rfl)))
  refine ⟨?_, hlist, ?_, ?_⟩
  · intro d hd
    simp only [fwd_deltas, List.mem_cons, List.mem_singleton, List.not_mem_nil, or_false] at hd
    rw [e1]
    push_cast
    rcases hd with h | h | h | h <;> rw [h] <;> omega
  · intro i hi
    rw [hlist] at hi
    simp only [Nat.add_sub_cancel, List.mem_cons, List.mem_singleton, List.not_mem_nil,
      or_false] at hi
    rw [e1] at hlt
    rcases hi with h | h | h | h <;> rw [h] <;> omega
  · intro hxw
    simp only [Nat.add_sub_cancel]
    rw [e1]; omega

/-- The indices read by the reverse pass at a pixel `(x, y)` that it visits: all lie below
`width * height`, and they are `(y+1) width + (x+1)`, `(y+1) width + x`, `(y+1) width + x - 1`
and `y width + (x+1)`.  For `1 ≤ x` these are the pixels `(x+1, y+1)`, `(x, y+1)`,
`(x-1, y+1)`, `(x+1, y)`; in the first column `x = 0` the third index is
`y width + (width - 1)`, the index of pixel `(width - 1, y)`. -/
theorem reverse_pass_reads (width height x y : Nat)
    (hx1 : x + 1 < width) (hy1 : y + 1 < height) :
    (∀ d, d ∈ rev_deltas width → 0 ≤ ((y * width + x : Nat) : Int) + d) ∧
    (rev_deltas width).map (neighbour_index (y * width + x))
      = [(y + 1) * width + (x + 1), (y + 1) * width + x, (y + 1) * width + x - 1,
         y * width + (x + 1)] ∧
    (∀ i, i ∈ (rev_deltas width).map (neighbour_index (y * width + x)) → i < width * height) ∧
    (x = 0 → (y + 1) * width + x - 1 = y * width + (width - 1)) := by
  have e1 : (y + 1) * width = y * width + width := by ring
  have hlt : (y + 1) * width + (x + 1) < width * height := by
    rw [Nat.mul_comm width]; exact row_index_lt (y + 1) (x + 1) width height hy1 hx1
  have hlist : (rev_deltas width).map (neighbour_index (y * width + x))
      = [(y + 1) * width + (x + 1), (y + 1) * width + x, (y + 1) * width + x - 1,
         y * width + (x + 1)] := by
    simp only [rev_deltas, List.map_cons, List.map_nil, neighbour_index]
    rw [e1]
    refine congrArg₂ _ (by omega) (congrArg₂ _ (by omega) (congrArg₂ _ (by omega)
      (congrArg₂ _ (by omega) rfl)))
  refine ⟨?_, hlist, ?_, ?_⟩
  · intro d hd
    simp only [rev_deltas, List.mem_cons, List.mem_singleton, List.not_mem_nil, or_false] at hd
    rcases hd with h | h | h | h <;> rw [h] <;> omega
  · intro i hi
    rw [hlist] at hi
    simp only [List.mem_cons, List.mem_singleton, List.not_mem_nil, or_false] at hi
    rw [e1] at hlt hi
    rcases hi with h | h | h | h <;> rw [h] <;> omega
  · intro hx0
    rw [e1]; omega

/-- C22 (the code at the failing input): a 4×4 image.  The forward pass at pixel `(3, 1)`
(`off = 7`) reads the indices 2, 3, 4, 6: the third, `off - width + 1 = 4`, is the index of
pixel `(0, 1)`, the first pixel of the row of `(3, 1)`, where the claim has the pixel
`(4, 0)`, which is not in the image.  The reverse pass at pixel `(0, 1)` (`off = 4`) reads the
indices 9, 8, 7, 5: the third, `off + width - 1 = 7`, is the index of pixel `(3, 1)`, the last
pixel of the row of `(0, 1)`.  The entry is really read: changing the buffer at index 4 changes
the sums of pixel `(3, 1)`. -/
theorem forward_pass_reads_row_start :
    (fwd_deltas 4).map (neighbour_index (1 * 4 + 3)) = [2, 3, 4, 6] ∧
    pixel_index 4 (3 + 1) (1 - 1) = none ∧
    pixel_index 4 0 1 = some 4 ∧
    (rev_deltas 4).map (neighbour_index (1 * 4 + 0)) = [9, 8, 7, 5] ∧
    pixel_index 4 3 1 = some 7 ∧
    neighbour_sums weights_approx 10 (1 / 5) (fwd_deltas 4) 0 (1 * 4 + 3)
        [0, 0, 0, 0, 7, 0, 0, 0, 0, 0, 0, 0, 0, 0, 0, 0]
      ≠ neighbour_sums weights_approx 10 (1 / 5) (fwd_deltas 4) 0 (1 * 4 + 3)
        [0, 0, 0, 0, 0, 0, 0, 0, 0, 0, 0, 0, 0, 0, 0, 0] := by
  refine ⟨by decide, by decide, by decide, by decide, by decide, by decide!⟩

end Hdr
